import Mathlib

/-!
# Verification of JSXGraph `Math.Numerics` (src/bower_components/jsxgraph/src/math/numerics.js)

A shallow embedding of the numerical routines of the repository's core file
`numerics.js`, together with theorems settling the frozen claims about it.

Conventions of the embedding:

* JavaScript numbers are idealised as exact rationals (`ℚ`) except where the
  source computes a non-rational power (`Math.pow(x, 1.5)` in `_rescale_error`),
  which is modelled over `ℝ` with `Real.rpow`.  Floating-point rounding is not
  modelled; decimal literals of the source become the corresponding rationals.
* The JavaScript value `NaN` (which also arises from arithmetic on `undefined`
  produced by out-of-bounds array reads) is modelled explicitly by the type
  `JVal` wherever a claim depends on it.  `undefined` is identified with `NaN`:
  the source only ever feeds such reads into arithmetic or comparisons, where
  both behave identically (arithmetic yields `NaN`, comparisons are false).
* Division is rational division.  On the paths relevant to the claims the
  divisor is never the literal number zero (it is either a nonzero constant or
  already `NaN`), so the JS `x/0 = ±Infinity` behaviour is never exercised.
* `Mat.eps` lives in `math/math.js`, which is not among the sources; the spec
  fixes only "a fixed numeric epsilon".  It is therefore passed as an explicit
  parameter `matEps` everywhere the source reads `Mat.eps`.
* Mutation of JavaScript arrays is modelled, where a claim is about mutation,
  by an explicit heap mapping references (`ℕ`) to array values.
-/

/-! ## JavaScript values with NaN propagation -/

/-- A JavaScript numeric value: either a finite number (idealised as `ℚ`) or
`NaN`.  Out-of-bounds array reads (`undefined`) are identified with `NaN`,
which is adequate because the source only uses such values in arithmetic and
comparisons. -/
inductive JVal where
  | num (q : ℚ)
  | nan
deriving DecidableEq, Repr

/-- JS addition: `NaN` propagates. -/
def jadd : JVal → JVal → JVal
  | JVal.num a, JVal.num b => JVal.num (a + b)
  | _, _ => JVal.nan

/-- JS subtraction: `NaN` propagates. -/
def jsub : JVal → JVal → JVal
  | JVal.num a, JVal.num b => JVal.num (a - b)
  | _, _ => JVal.nan

/-- JS multiplication: `NaN` propagates.  (`NaN * 0 = NaN` in JS, as here.) -/
def jmul : JVal → JVal → JVal
  | JVal.num a, JVal.num b => JVal.num (a * b)
  | _, _ => JVal.nan

/-- JS division, idealised over `ℚ`: `NaN` propagates.  The claims never
exercise division by the number zero (see the file header). -/
def jdiv : JVal → JVal → JVal
  | JVal.num a, JVal.num b => JVal.num (a / b)
  | _, _ => JVal.nan

/-- JS `<`: any comparison involving `NaN` is false. -/
def jlt : JVal → JVal → Bool
  | JVal.num a, JVal.num b => decide (a < b)
  | _, _ => false

/-- JS `<=`: any comparison involving `NaN` is false. -/
def jle : JVal → JVal → Bool
  | JVal.num a, JVal.num b => decide (a ≤ b)
  | _, _ => false

/-- JS `>`: any comparison involving `NaN` is false. -/
def jgt : JVal → JVal → Bool
  | JVal.num a, JVal.num b => decide (b < a)
  | _, _ => false

@[simp] theorem jadd_num_num (a b : ℚ) : jadd (JVal.num a) (JVal.num b) = JVal.num (a + b) := rfl
@[simp] theorem jadd_nan_left (v : JVal) : jadd JVal.nan v = JVal.nan := by cases v <;> rfl
@[simp] theorem jadd_nan_right (v : JVal) : jadd v JVal.nan = JVal.nan := by cases v <;> rfl
@[simp] theorem jsub_num_num (a b : ℚ) : jsub (JVal.num a) (JVal.num b) = JVal.num (a - b) := rfl
@[simp] theorem jsub_nan_left (v : JVal) : jsub JVal.nan v = JVal.nan := by cases v <;> rfl
@[simp] theorem jsub_nan_right (v : JVal) : jsub v JVal.nan = JVal.nan := by cases v <;> rfl
@[simp] theorem jmul_num_num (a b : ℚ) : jmul (JVal.num a) (JVal.num b) = JVal.num (a * b) := rfl
@[simp] theorem jmul_nan_left (v : JVal) : jmul JVal.nan v = JVal.nan := by cases v <;> rfl
@[simp] theorem jmul_nan_right (v : JVal) : jmul v JVal.nan = JVal.nan := by cases v <;> rfl
@[simp] theorem jdiv_num_num (a b : ℚ) : jdiv (JVal.num a) (JVal.num b) = JVal.num (a / b) := rfl
@[simp] theorem jdiv_nan_left (v : JVal) : jdiv JVal.nan v = JVal.nan := by cases v <;> rfl
@[simp] theorem jdiv_nan_right (v : JVal) : jdiv v JVal.nan = JVal.nan := by cases v <;> rfl
@[simp] theorem jlt_num_num (a b : ℚ) : jlt (JVal.num a) (JVal.num b) = decide (a < b) := rfl
@[simp] theorem jgt_num_num (a b : ℚ) : jgt (JVal.num a) (JVal.num b) = decide (b < a) := rfl
@[simp] theorem jle_num_num (a b : ℚ) : jle (JVal.num a) (JVal.num b) = decide (a ≤ b) := rfl
@[simp] theorem jlt_nan_right (v : JVal) : jlt v JVal.nan = false := by cases v <;> rfl
@[simp] theorem jgt_nan_right (v : JVal) : jgt v JVal.nan = false := by cases v <;> rfl

/-- Read a JS array of numbers at a (possibly negative) index: out-of-bounds
yields `undefined`, modelled as `NaN`. -/
def arrGetQ (l : List ℚ) (i : ℤ) : JVal :=
  if h : 0 ≤ i ∧ i.toNat < l.length then JVal.num (l.get ⟨i.toNat, h.2⟩) else JVal.nan

theorem arrGetQ_of_lt (l : List ℚ) (i : ℤ) (h0 : 0 ≤ i) (h : i.toNat < l.length) :
    arrGetQ l i = JVal.num (l.get ⟨i.toNat, h⟩) := by
  unfold arrGetQ
  rw [dif_pos ⟨h0, h⟩]

theorem arrGetQ_of_ge (l : List ℚ) (i : ℤ) (h : l.length ≤ i.toNat) :
    arrGetQ l i = JVal.nan := by
  unfold arrGetQ
  rw [dif_neg]
  rintro ⟨-, h2⟩
  omega

/-! ## C1: `_rescale_error` (numerics.js lines 687-711)

Exact transcription of the source over `ℝ`; `Math.pow(x, 1.5)` is `Real.rpow`.
-/

/-- `DBL_MIN` of `_rescale_error`. -/
noncomputable def DBL_MIN : ℝ := 2.2250738585072014e-308

/-- `DBL_EPS` of `_rescale_error`. -/
noncomputable def DBL_EPS : ℝ := 2.2204460492503131e-16

/-- `_rescale_error(err, result_abs, result_asc)`, transcribed from the source:
take `|err|`; when `result_asc ≠ 0` and the (absolute) error is nonzero,
rescale by `(200*err/result_asc)^1.5` if that is `< 1`, else clamp to
`result_asc`; finally, when `result_abs > DBL_MIN/(50*DBL_EPS)`, raise the
result to `50*DBL_EPS*result_abs` if that is larger. -/
noncomputable def rescale_error (err result_abs result_asc : ℝ) : ℝ :=
  let err1 := |err|
  let err2 :=
    if result_asc ≠ 0 ∧ err1 ≠ 0 then
      let scale := (200 * err1 / result_asc) ^ (1.5 : ℝ)
      if scale < 1 then result_asc * scale else result_asc
    else err1
  if result_abs > DBL_MIN / (50 * DBL_EPS) then
    let min_err := 50 * DBL_EPS * result_abs
    if min_err > err2 then min_err else err2
  else err2

/-- The error model exactly as the claim words it: start from `|err|`; if
`result_asc` and `err` are nonzero, replace it by
`result_asc * (200*|err|/result_asc)^1.5` when that scale factor is below 1
and by `result_asc` otherwise; then, whenever
`result_abs > DBL_MIN/(50*DBL_EPS)`, return the maximum of the current value
and the floor `50*DBL_EPS*result_abs`. -/
noncomputable def rescale_error_claim (err result_abs result_asc : ℝ) : ℝ :=
  let mid :=
    if result_asc ≠ 0 ∧ err ≠ 0 then
      if (200 * |err| / result_asc) ^ (1.5 : ℝ) < 1 then
        result_asc * (200 * |err| / result_asc) ^ (1.5 : ℝ)
      else result_asc
    else |err|
  if result_abs > DBL_MIN / (50 * DBL_EPS) then
    max mid (50 * DBL_EPS * result_abs)
  else mid

theorem if_gt_eq_max (m f : ℝ) : (if f > m then f else m) = max m f := by
  split_ifs with h
  · exact (max_eq_right h.le).symm
  · exact (max_eq_left (not_lt.mp h)).symm

/-- C1: the Gauss-Kronrod error rescaling function returns exactly the value
described by the claim: `|err|`, rescaled by `(200*|err|/result_asc)^1.5`
(clamped to `result_asc`) when `result_asc` and `err` are nonzero, then floored
at `50*DBL_EPS*result_abs` whenever `result_abs > DBL_MIN/(50*DBL_EPS)`. -/
theorem rescale_error_eq_claim (err result_abs result_asc : ℝ) :
    rescale_error err result_abs result_asc = rescale_error_claim err result_abs result_asc := by
  simp only [rescale_error, rescale_error_claim, abs_ne_zero, if_gt_eq_max]

/-! ## C3: `splineEval` (numerics.js lines 1652-1699), scalar query

The scalar branch of `splineEval` (`x0` a single number, wrapped by the source
into a one-element array, so the loop index `i` is `0`).  Note the source's
domain check reads `x[i] > x[n-1]` (with `i = 0`), not `x0[i] > x[n-1]`; for a
query above the domain the out-of-bounds reads `y[n]`/`x[n]` nevertheless make
the result `NaN` by propagation.
-/

/-- The segment-search loop of `splineEval`: `for (j = 1; j < n; j++) if
(x0 <= x[j]) break;` — returns the loop's final `j`. -/
def splineFindJ (x0 : ℚ) (x : List ℚ) (n j : ℤ) : ℤ :=
  if j < n then
    if jle (JVal.num x0) (arrGetQ x j) then j else splineFindJ x0 x n (j + 1)
  else j
termination_by (n - j).toNat
decreasing_by omega

/-- `splineEval(x0, x, y, F)` for a scalar `x0` (the claim's case), transcribed
from the source: domain check, segment search, cubic coefficients `a b c d`,
Horner evaluation.  Array reads are via `arrGetQ`, so out-of-bounds reads
become `NaN` and propagate. -/
def splineEval (x0 : ℚ) (x y F : List ℚ) : JVal :=
  let n : ℤ := min x.length y.length
  if jlt (JVal.num x0) (arrGetQ x 0) || jgt (arrGetQ x 0) (arrGetQ x (n - 1)) then
    JVal.nan
  else
    let j := splineFindJ x0 x n 1 - 1
    let a := arrGetQ y j
    let b := jsub (jdiv (jsub (arrGetQ y (j + 1)) (arrGetQ y j))
                        (jsub (arrGetQ x (j + 1)) (arrGetQ x j)))
                  (jmul (jdiv (jsub (arrGetQ x (j + 1)) (arrGetQ x j)) (JVal.num 6))
                        (jadd (arrGetQ F (j + 1)) (jmul (JVal.num 2) (arrGetQ F j))))
    let c := jdiv (arrGetQ F j) (JVal.num 2)
    let d := jdiv (jsub (arrGetQ F (j + 1)) (arrGetQ F j))
                  (jmul (JVal.num 6) (jsub (arrGetQ x (j + 1)) (arrGetQ x j)))
    let x_ := jsub (JVal.num x0) (arrGetQ x j)
    jadd a (jmul (jadd b (jmul (jadd c (jmul d x_)) x_)) x_)

/-- Reading in range, stated through `getD`. -/
theorem arrGetQ_eq_getD (l : List ℚ) (i : ℤ) (h0 : 0 ≤ i) (h : i.toNat < l.length) :
    arrGetQ l i = JVal.num (l.getD i.toNat 0) := by
  unfold arrGetQ
  rw [dif_pos ⟨h0, h⟩, List.getD_eq_getElem l 0 h, List.get_eq_getElem]

/-- For a sorted list, `getD` is monotone on in-range indices. -/
theorem sorted_getD_mono (l : List ℚ) (hs : List.Sorted (· ≤ ·) l)
    (i j : ℕ) (hij : i ≤ j) (hj : j < l.length) :
    l.getD i 0 ≤ l.getD j 0 := by
  rcases eq_or_lt_of_le hij with rfl | hlt
  · exact le_refl _
  · have hi : i < l.length := lt_trans hlt hj
    rw [List.getD_eq_getElem l 0 hi, List.getD_eq_getElem l 0 hj]
    exact List.pairwise_iff_get.mp hs ⟨i, hi⟩ ⟨j, hj⟩ hlt

theorem splineFindJ_all_lt (x0 : ℚ) (x : List ℚ) (n : ℤ) (j : ℤ) (hjn : j ≤ n)
    (h : ∀ k : ℤ, j ≤ k → k < n → jle (JVal.num x0) (arrGetQ x k) = false) :
    splineFindJ x0 x n j = n := by
  rw [splineFindJ]
  split_ifs with h1 h2
  · exact absurd (h j le_rfl h1) (by simp [h2])
  · exact splineFindJ_all_lt x0 x n (j + 1) (by omega) (fun k hk1 hk2 => h k (by omega) hk2)
  · omega
termination_by (n - j).toNat
decreasing_by omega

/-- C3: for every knot set with `x` sorted ascending and `y` of the same
length, and every scalar query `x0` outside the spline's domain
(`x0 < x[0]` or `x0 > x[n-1]`), `splineEval` returns `NaN`. -/
theorem splineEval_outside_nan (x y F : List ℚ) (x0 : ℚ)
    (hlen : y.length = x.length) (hne : 1 ≤ x.length)
    (hs : List.Sorted (· ≤ ·) x)
    (hout : x0 < x.getD 0 0 ∨ x.getD (x.length - 1) 0 < x0) :
    splineEval x0 x y F = JVal.nan := by
  have h0 : arrGetQ x 0 = JVal.num (x.getD 0 0) := by
    rw [arrGetQ_eq_getD x 0 le_rfl (by simpa using hne)]
    norm_num
  have hlast : arrGetQ x ((x.length : ℤ) - 1) = JVal.num (x.getD (x.length - 1) 0) := by
    have h2 : ((x.length : ℤ) - 1).toNat < x.length := by omega
    rw [arrGetQ_eq_getD x _ (by omega) h2]
    congr 2
    omega
  have hfirst_le_last : x.getD 0 0 ≤ x.getD (x.length - 1) 0 :=
    sorted_getD_mono x hs 0 (x.length - 1) (Nat.zero_le _) (by omega)
  unfold splineEval
  simp only [hlen, min_self]
  rcases hout with hlow | hhigh
  · rw [if_pos]
    simp only [h0, jlt_num_num, Bool.or_eq_true, decide_eq_true_eq]
    exact Or.inl hlow
  · -- query above the domain: the buggy check `x[0] > x[n-1]` is false,
    -- the segment search runs off the end, and `y[n]` is out of bounds.
    have hcond : (jlt (JVal.num x0) (arrGetQ x 0)
        || jgt (arrGetQ x 0) (arrGetQ x ((x.length : ℤ) - 1))) = false := by
      simp only [h0, hlast, jlt_num_num, jgt_num_num, Bool.or_eq_false_iff,
        decide_eq_false_iff_not]
      constructor
      · push_neg
        exact le_of_lt (lt_of_le_of_lt hfirst_le_last hhigh)
      · exact not_lt.mpr hfirst_le_last
    rw [if_neg (by simp [hcond])]
    have hj : splineFindJ x0 x (x.length : ℤ) 1 = (x.length : ℤ) := by
      apply splineFindJ_all_lt x0 x _ 1 (by omega)
      intro k hk1 hk2
      have hkn : k.toNat < x.length := by omega
      rw [arrGetQ_eq_getD x k (by omega) hkn, jle_num_num, decide_eq_false_iff_not]
      have hmono : x.getD k.toNat 0 ≤ x.getD (x.length - 1) 0 :=
        sorted_getD_mono x hs k.toNat (x.length - 1) (by omega) (by omega)
      push_neg
      exact lt_of_le_of_lt hmono hhigh
    rw [hj]
    have hyn : arrGetQ y ((x.length : ℤ) - 1 + 1) = JVal.nan := by
      apply arrGetQ_of_ge
      omega
    rw [hyn]
    simp only [jsub_nan_left, jdiv_nan_left, jadd_nan_left, jmul_nan_left,
      jadd_nan_right]

/-- Witness for C3 at `x = [0, 1]`, `y = [0, 1]`, `F = [0, 0]`, `x0 = 2`. -/
theorem splineEval_outside_nan_witness :
    splineEval 2 [0, 1] [0, 1] [0, 0] = JVal.nan :=
  splineEval_outside_nan [0, 1] [0, 1] [0, 0] 2 rfl (by decide)
    (by decide) (by decide)

/-! ## C4: the bracketing phase of `fzero` (numerics.js lines 2595-2665)

`fzero` is modelled up to the point where it either enters Brent's main
iteration (with an established bracket) or falls back to `Newton` / `fminbr`;
the claim is entirely about this dispatch.  The context object of the source is
dropped (`f.call(object, t)` is the pure application `f t`).
-/

/-- Where the bracketing phase of `fzero` hands off to. -/
inductive FzeroPhase where
  | brent (a b : ℚ)
  | newton (x : ℚ)
  | fminbr (a b : ℚ)
deriving DecidableEq, Repr

/-- The fixed candidate list `blist` of `fzero` (source line 2635). -/
def fzeroBlist (aa : ℚ) : List ℚ :=
  [0.9 * aa, 1.1 * aa, aa - 1, aa + 1, 0.5 * aa, 1.5 * aa, -aa, 2 * aa, -10 * aa, 10 * aa]

/-- The probing loop of `fzero`: walk the candidate list, setting
`b = blist[i]`, `fb = f(b)`, and break at the first `fa*fb <= 0`; if no
candidate matches, `b`/`fb` keep the values of the last candidate.  The second
argument carries the current `(b, fb)` (arbitrary before the first iteration,
as in the source, where the loop always runs at least once). -/
def fzeroProbe (f : ℚ → ℚ) (fa : ℚ) : List ℚ → ℚ × ℚ → ℚ × ℚ
  | [], last => last
  | c :: rest, _ => if fa * f c ≤ 0 then (c, f c) else fzeroProbe f fa rest (c, f c)

/-- The bracketing phase of `fzero f x0`: scalar start value (`Sum.inl`) or
two-element bracket (`Sum.inr`), transcribed from the source.  For a scalar,
probe the candidate list (with `aa = 1` if `x0 = 0`), then order the endpoints
(`if (b < a)` swap); with no sign change fall back to `Newton` at the (possibly
swapped) `a`, otherwise enter Brent's method; for a bracket with no sign change
fall back to `fminbr`. -/
def fzero (f : ℚ → ℚ) (x0 : ℚ ⊕ (ℚ × ℚ)) : FzeroPhase :=
  match x0 with
  | Sum.inr (u, v) =>
      let fa := f u
      let fb := f v
      if fa * fb > 0 then FzeroPhase.fminbr u v
      else FzeroPhase.brent u v
  | Sum.inl s =>
      let fa := f s
      let aa := if s = 0 then 1 else s
      let p := fzeroProbe f fa (fzeroBlist aa) (0, 0)
      let b := p.1
      let fb := p.2
      let a2 := if b < s then b else s
      let b2 := if b < s then s else b
      let fa2 := if b < s then fb else fa
      let fb2 := if b < s then fa else fb
      if fa2 * fb2 > 0 then FzeroPhase.newton a2
      else FzeroPhase.brent a2 b2


/-- C4 counterexample: for `f = const 1` (no sign change anywhere) and
`x0 = -1`, the final candidate is `10 * (-1) = -10 < x0`, the endpoint swap
fires, and `Newton` is invoked at `-10`, not at `x0 = -1` as the claim
states. -/
theorem fzero_newton_arg_counterexample :
    fzero (fun _ => 1) (Sum.inl (-1)) = FzeroPhase.newton (-10) ∧
      fzero (fun _ => 1) (Sum.inl (-1)) ≠ FzeroPhase.newton (-1) := by
  constructor
  · norm_num [fzero, fzeroProbe, fzeroBlist]
  · norm_num [fzero, fzeroProbe, fzeroBlist]

theorem fzeroProbe_characterization (f : ℚ → ℚ) (fa : ℚ) (l : List ℚ) (d : ℚ × ℚ)
    (hl : l ≠ []) :
    fzeroProbe f fa l d =
      match l.find? (fun c => decide (fa * f c ≤ 0)) with
      | some b => (b, f b)
      | none => (l.getLast hl, f (l.getLast hl)) := by
  induction l generalizing d with
  | nil => exact absurd rfl hl
  | cons c rest ih =>
      by_cases hc : fa * f c ≤ 0
      · rw [List.find?_cons_of_pos _ (by simpa using hc)]
        simp [fzeroProbe, hc]
      · rw [List.find?_cons_of_neg _ (by simpa using hc)]
        rcases Decidable.em (rest = []) with hrest | hrest
        · subst hrest
          simp [fzeroProbe, hc]
        · have hstep : fzeroProbe f fa (c :: rest) d = fzeroProbe f fa rest (c, f c) := by
            simp [fzeroProbe, hc]
          rw [hstep, ih (c, f c) hrest]
          cases hfind : rest.find? (fun x => decide (fa * f x ≤ 0)) with
          | some b => simp
          | none => simp [List.getLast_cons hrest]

/-- C4 amended: for a scalar start `s`, `fzero` probes the fixed candidate
list in order and enters Brent's method on the ordered bracket formed by `s`
and the first candidate `b` with `f(s)*f(b) ≤ 0`; if there is none it falls
back to `Newton` at `min s (10*aa)` (the endpoint-ordering swap runs before
the fallback, so for negative `s` Newton receives `10*s`, not `s`); for a
bracket input whose endpoint values have the same sign it falls back to
`fminbr` on that bracket. -/
theorem fzero_dispatch (f : ℚ → ℚ) (s u v : ℚ) :
    (fzero f (Sum.inl s) =
      match (fzeroBlist (if s = 0 then 1 else s)).find? (fun c => decide (f s * f c ≤ 0)) with
      | some b => FzeroPhase.brent (min s b) (max s b)
      | none => FzeroPhase.newton (min s (10 * (if s = 0 then 1 else s))))
    ∧ (f u * f v > 0 → fzero f (Sum.inr (u, v)) = FzeroPhase.fminbr u v) := by
  have hblne : fzeroBlist (if s = 0 then 1 else s) ≠ [] := by
    unfold fzeroBlist
    simp
  have hbllast : (fzeroBlist (if s = 0 then 1 else s)).getLast hblne
      = 10 * (if s = 0 then 1 else s) := by
    unfold fzeroBlist
    simp
  constructor
  · cases hfind : (fzeroBlist (if s = 0 then 1 else s)).find?
        (fun c => decide (f s * f c ≤ 0)) with
    | some b =>
        have hp : fzeroProbe f (f s) (fzeroBlist (if s = 0 then 1 else s)) (0, 0)
            = (b, f b) := by
          rw [fzeroProbe_characterization f (f s) _ (0, 0) hblne, hfind]
        have hb : f s * f b ≤ 0 := by
          have := List.find?_some hfind
          simpa using this
        have hb' : f b * f s ≤ 0 := by rw [mul_comm]; exact hb
        simp only [fzero, hp, hfind]
        by_cases hbs : b < s
        · rw [if_pos hbs, if_pos hbs, if_pos hbs, if_pos hbs, if_neg (not_lt.mpr hb'),
            min_eq_right hbs.le, max_eq_left hbs.le]
        · rw [if_neg hbs, if_neg hbs, if_neg hbs, if_neg hbs, if_neg (not_lt.mpr hb),
            min_eq_left (not_lt.mp hbs), max_eq_right (not_lt.mp hbs)]
    | none =>
        have hp : fzeroProbe f (f s) (fzeroBlist (if s = 0 then 1 else s)) (0, 0)
            = (10 * (if s = 0 then 1 else s), f (10 * (if s = 0 then 1 else s))) := by
          rw [fzeroProbe_characterization f (f s) _ (0, 0) hblne, hfind, hbllast]
        have hlastmem : (fzeroBlist (if s = 0 then 1 else s)).getLast hblne
            ∈ fzeroBlist (if s = 0 then 1 else s) := List.getLast_mem hblne
        have hlastne : ¬ (f s * f ((fzeroBlist (if s = 0 then 1 else s)).getLast hblne) ≤ 0) := by
          have := List.find?_eq_none.mp hfind _ hlastmem
          simpa using this
        rw [hbllast] at hlastne
        have hprod : f s * f (10 * (if s = 0 then 1 else s)) > 0 := lt_of_not_le hlastne
        have hprod' : f (10 * (if s = 0 then 1 else s)) * f s > 0 := by
          rw [mul_comm]
          exact hprod
        simp only [fzero, hp, hfind]
        by_cases hbs : 10 * (if s = 0 then 1 else s) < s
        · rw [if_pos hbs, if_pos hbs, if_pos hbs, if_pos hprod',
            min_eq_right hbs.le]
        · rw [if_neg hbs, if_neg hbs, if_neg hbs, if_pos hprod,
            min_eq_left (not_lt.mp hbs)]
  · intro h
    simp only [fzero]
    rw [if_pos h]

/-- Witness for the C4 amended theorem at `f t = t - 5`, scalar start `1`
(first sign change at the candidate `10`), and same-sign bracket `(1, 2)`. -/
theorem fzero_dispatch_witness :
    fzero (fun t => t - 5) (Sum.inl 1) = FzeroPhase.brent 1 10 ∧
      fzero (fun t => t - 5) (Sum.inr (1, 2)) = FzeroPhase.fminbr 1 2 := by
  have h := fzero_dispatch (fun t => t - 5) 1 1 2
  constructor
  · rw [h.1]
    norm_num [fzeroBlist, List.find?]
  · exact h.2 (by norm_num)

/-! ## C5: `Gauss` (numerics.js lines 99-154)

The Gauss-Jordan elimination with epsilon pivoting, over total maps
`ℕ → ℕ → ℚ` for the working copy `Acopy` and `ℕ → ℚ` for the working
right-hand side (the source never reads outside the `n × n` working block on
these loops).  `Mat.eps` is the parameter `eps`.  Counted `for`-loops are
encoded by structural recursion on the number of remaining iterations.
-/

/-- Working state of the elimination: the matrix copy and right-hand side. -/
structure GaussState where
  M : ℕ → ℕ → ℚ
  x : ℕ → ℚ

/-- Write one matrix entry. -/
def updEntry (M : ℕ → ℕ → ℚ) (i k : ℕ) (v : ℚ) : ℕ → ℕ → ℚ :=
  fun r c => if r = i ∧ c = k then v else M r c

/-- Write one vector entry. -/
def updVec (x : ℕ → ℚ) (i : ℕ) (v : ℚ) : ℕ → ℚ :=
  fun r => if r = i then v else x r

/-- `Type.swap(Acopy, i, j)`: exchange two rows. -/
def swapRows (M : ℕ → ℕ → ℚ) (i j : ℕ) : ℕ → ℕ → ℚ :=
  fun r => if r = i then M j else if r = j then M i else M r

/-- `Type.swap(x, i, j)`: exchange two vector entries. -/
def swapVec (x : ℕ → ℚ) (i j : ℕ) : ℕ → ℚ :=
  fun r => if r = i then x j else if r = j then x i else x r

/-- `for (k = j+1; k < n; k++) Acopy[i][k] -= Acopy[i][j] * Acopy[j][k]`
(the stored `Acopy[i][j]` is the multiplier `L`; row `j` is untouched).
`k` is the current column, the first argument the remaining iteration
count `n - k`. -/
def gaussRowLoop (i j : ℕ) : ℕ → ℕ → (ℕ → ℕ → ℚ) → (ℕ → ℕ → ℚ)
  | 0, _, M => M
  | c + 1, k, M => gaussRowLoop i j c (k + 1) (updEntry M i k (M i k - M i j * M j k))

/-- Body of the `i`-loop (source lines 123-142): if the entry to eliminate
exceeds `eps`, either swap rows (pivot numerically zero) or store the
multiplier, update the right-hand side and subtract the row multiple. -/
def gaussElimStep (eps : ℚ) (n i j : ℕ) (s : GaussState) : GaussState :=
  if eps < |s.M i j| then
    if |s.M j j| < eps then
      ⟨swapRows s.M i j, swapVec s.x i j⟩
    else
      let L := s.M i j / s.M j j
      ⟨gaussRowLoop i j (n - (j + 1)) (j + 1) (updEntry s.M i j L),
       updVec s.x i (s.x i - L * s.x j)⟩
  else s

/-- The `i`-loop for column `j`: `for (i = n-1; i > j; i--)`; the first
argument counts the remaining iterations, so the row processed is `i = j + d`
for `d` descending. -/
def gaussColLoop (eps : ℚ) (n j : ℕ) : ℕ → GaussState → GaussState
  | 0, s => s
  | d + 1, s => gaussColLoop eps n j d (gaussElimStep eps n (j + d + 1) j s)

/-- One elimination pass for column `j` (the `j`-loop body without the pivot
check, which does not alter the state). -/
def gaussPass (eps : ℚ) (n j : ℕ) (s : GaussState) : GaussState :=
  gaussColLoop eps n j (n - 1 - j) s

/-- Elimination passes for columns `0..t-1` with the pivot checks ignored. -/
def gaussElim (eps : ℚ) (n : ℕ) (s : GaussState) : ℕ → GaussState
  | 0 => s
  | t + 1 => gaussPass eps n t (gaussElim eps n s t)

/-- The checked elimination (the source's `j`-loop): after the pass for
column `j` the source throws (`singular matrix`) when
`Math.abs(Acopy[j][j]) < eps`.  The first argument is the remaining column
count `n - j`. -/
def gaussChecked (eps : ℚ) (n : ℕ) : ℕ → ℕ → GaussState → Except Unit GaussState
  | 0, _, s => Except.ok s
  | r + 1, j, s =>
      if |(gaussPass eps n j s).M j j| < eps then Except.error ()
      else gaussChecked eps n r (j + 1) (gaussPass eps n j s)

/-- Inner loop of `backwardSolve`: `for (j = n-1; j > i; j--)
x[i] -= R[i][j] * x[j]`; the first argument counts remaining iterations, the
column processed is `j = i + c` for `c` descending. -/
def backSolveInner (M : ℕ → ℕ → ℚ) (i : ℕ) : ℕ → (ℕ → ℚ) → (ℕ → ℚ)
  | 0, x => x
  | c + 1, x => backSolveInner M i c (updVec x i (x i - M i (i + c + 1) * x (i + c + 1)))

/-- Outer loop of `backwardSolve` (in place, `canModify = true`): the first
argument counts remaining rows, the row processed is `i = r - 1`. -/
def backSolveOuter (M : ℕ → ℕ → ℚ) (n : ℕ) : ℕ → (ℕ → ℚ) → (ℕ → ℚ)
  | 0, x => x
  | r + 1, x =>
      let x1 := backSolveInner M r (n - 1 - r) x
      backSolveOuter M n r (updVec x1 r (x1 r / M r r))

/-- `backwardSolve(R, b, true)` on the `n × n` working block. -/
def backwardSolve (M : ℕ → ℕ → ℚ) (n : ℕ) (x : ℕ → ℚ) : ℕ → ℚ :=
  backSolveOuter M n n x

/-- The working copies `Acopy = A[i].slice(0, n)`, `x = b.slice(0, n)` as
total maps. -/
def gaussInit (A : List (List ℚ)) (b : List ℚ) : GaussState :=
  ⟨fun i k => (A.getD i []).getD k 0, fun i => b.getD i 0⟩

/-- `Gauss(A, b)`: dimension check, working copies, checked elimination,
backward substitution; `Except.error` models the thrown `Error`s. -/
def Gauss (eps : ℚ) (A : List (List ℚ)) (b : List ℚ) : Except Unit (List ℚ) :=
  let n := (A.headD []).length
  if n ≠ b.length ∨ n ≠ A.length then Except.error ()
  else
    match gaussChecked eps n n 0 (gaussInit A b) with
    | Except.error _ => Except.error ()
    | Except.ok s => Except.ok ((List.range n).map (backwardSolve s.M n s.x))

theorem gaussChecked_error_iff (eps : ℚ) (n : ℕ) (s0 : GaussState) (r : ℕ) :
    ∀ t, t + r = n →
    (gaussChecked eps n r t (gaussElim eps n s0 t) = Except.error ()
      ↔ ∃ j, t ≤ j ∧ j < n ∧ |(gaussElim eps n s0 (j + 1)).M j j| < eps) := by
  induction r with
  | zero =>
      intro t ht
      simp only [gaussChecked]
      constructor
      · intro hcon
        cases hcon
      · rintro ⟨j, hj1, hj2, hj3⟩
        omega
  | succ r ih =>
      intro t ht
      have hpass : gaussPass eps n t (gaussElim eps n s0 t) = gaussElim eps n s0 (t + 1) := rfl
      simp only [gaussChecked]
      split_ifs with h2
      · constructor
        · intro _
          exact ⟨t, le_rfl, by omega, by rw [← hpass]; exact h2⟩
        · intro _
          rfl
      · rw [hpass, ih (t + 1) (by omega)]
        constructor
        · rintro ⟨j, hj1, hj2, hj3⟩
          exact ⟨j, by omega, hj2, hj3⟩
        · rintro ⟨j, hj1, hj2, hj3⟩
          rcases eq_or_lt_of_le hj1 with rfl | h
          · exact absurd (by rw [hpass]; exact hj3) h2
          · exact ⟨j, by omega, hj2, hj3⟩

/-- C5: `Gauss(A, b)` throws exactly when the dimensions mismatch (`A` not
square, or `b` of a different length than `A`'s order) or some diagonal pivot
magnitude remains below `eps` after the elimination pass for its column;
otherwise it returns a vector of the same length as `b`. -/
theorem Gauss_error_characterization (eps : ℚ) (A : List (List ℚ)) (b : List ℚ)
    (hrect : ∀ row ∈ A, row.length = (A.headD []).length) :
    (Gauss eps A b = Except.error ()
      ↔ ((A.headD []).length ≠ b.length ∨ (A.headD []).length ≠ A.length)
        ∨ ∃ j, j < (A.headD []).length ∧
            |(gaussElim eps (A.headD []).length (gaussInit A b) (j + 1)).M j j| < eps)
    ∧ ∀ v, Gauss eps A b = Except.ok v → v.length = b.length := by
  simp only [Gauss]
  split_ifs with hdim
  · refine ⟨⟨fun _ => Or.inl hdim, fun _ => rfl⟩, ?_⟩
    intro v hv
    cases hv
  · have hiff := gaussChecked_error_iff eps (A.headD []).length (gaussInit A b)
      (A.headD []).length 0 (by omega)
    have hblen : (A.headD []).length = b.length := by
      push_neg at hdim
      exact hdim.1
    have h0 : gaussElim eps (A.headD []).length (gaussInit A b) 0 = gaussInit A b := rfl
    rw [h0] at hiff
    cases hck : gaussChecked eps (A.headD []).length (A.headD []).length 0 (gaussInit A b) with
    | error u =>
        cases u
        simp only [hck]
        refine ⟨⟨fun _ => ?_, fun _ => by trivial⟩, ?_⟩
        · right
          obtain ⟨j, _, hj2, hj3⟩ := hiff.mp hck
          exact ⟨j, hj2, hj3⟩
        · intro v hv
          cases hv
    | ok s =>
        simp only [hck]
        constructor
        · constructor
          · intro hcon
            cases hcon
          · intro hOr
            rcases hOr with h | ⟨j, hj2, hj3⟩
            · exact absurd h hdim
            · have hc2 : gaussChecked eps (A.headD []).length (A.headD []).length 0
                  (gaussInit A b) = Except.error () :=
                hiff.mpr ⟨j, Nat.zero_le _, hj2, hj3⟩
              rw [hck] at hc2
              cases hc2
        · intro v hv
          cases hv
          rw [List.length_map, List.length_range]
          exact hblen

/-- Witness for C5 at `A = [[1, 0], [0, 1]]`, `b = [1, 2]`,
`eps = 1/1000000`. -/
theorem Gauss_error_characterization_witness :
    (Gauss (1/1000000) [[1, 0], [0, 1]] [(1 : ℚ), 2] = Except.error ()
      ↔ ((([[(1 : ℚ), 0], [0, 1]] : List (List ℚ)).headD []).length ≠ [(1 : ℚ), 2].length
          ∨ (([[(1 : ℚ), 0], [0, 1]] : List (List ℚ)).headD []).length
              ≠ ([[(1 : ℚ), 0], [0, 1]] : List (List ℚ)).length)
        ∨ ∃ j, j < (([[(1 : ℚ), 0], [0, 1]] : List (List ℚ)).headD []).length ∧
            |(gaussElim (1/1000000) (([[(1 : ℚ), 0], [0, 1]] : List (List ℚ)).headD []).length
                (gaussInit [[1, 0], [0, 1]] [(1 : ℚ), 2]) (j + 1)).M j j| < 1/1000000)
    ∧ ∀ v, Gauss (1/1000000) [[1, 0], [0, 1]] [(1 : ℚ), 2] = Except.ok v
        → v.length = [(1 : ℚ), 2].length :=
  Gauss_error_characterization (1/1000000) [[1, 0], [0, 1]] [(1 : ℚ), 2]
    (by
      intro row hrow
      simp only [List.mem_cons, List.not_mem_nil, or_false] at hrow
      rcases hrow with rfl | rfl <;> rfl)

/-! ## C8: `CardinalSpline`, `bezier`, `bspline` coordinate functions
(numerics.js lines 1799-1879, 2040-2074, 2085-2188)

Each parametric evaluator builds one coordinate function per coordinate
accessor `which`; the embedding takes the list `pts` of that coordinate of the
control points and models the first evaluation with the cache rebuild active
(`suspendedUpdate` falsy).  `isNaN(t)` checks are omitted: the parameter is a
rational.  The domain-bound functions return `points.length - 1` (cardinal),
`Math.floor(points.length / 3)` (bezier) and `points.length - 1` (B-spline).
-/

/-- The coordinate function of `CardinalSpline(points, tau)` (source lines
1814-1873), with the per-segment coefficients freshly built.  `p` is the
control list with the two phantom endpoints. -/
def cardinalFct (pts : List ℚ) (tau : ℚ) (t : ℚ) : JVal :=
  let len := pts.length
  if len < 2 then JVal.nan
  else
    let first := 2 * pts.getD 0 0 - pts.getD 1 0
    let last := 2 * pts.getD (len - 1) 0 - pts.getD (len - 2) 0
    let p : List ℚ := first :: (pts ++ [last])
    let len2 := len + 2
    if t ≤ 0 then JVal.num (p.getD 1 0)
    else if ((len2 : ℚ) - 3 ≤ t) then JVal.num (p.getD (len2 - 2) 0)
    else
      let s : ℤ := ⌊t⌋
      if (s : ℚ) = t then arrGetQ p s
      else
        let si := s.toNat
        let t1 := t - s
        let c0 := 1 / tau * p.getD (si + 1) 0
        let c1 := -(p.getD si 0) + p.getD (si + 2) 0
        let c2 := 2 * p.getD si 0 + (-3 / tau + 1) * p.getD (si + 1) 0
          + (3 / tau - 2) * p.getD (si + 2) 0 - p.getD (si + 3) 0
        let c3 := -(p.getD si 0) + (2 / tau - 1) * p.getD (si + 1) 0
          + (-2 / tau + 1) * p.getD (si + 2) 0 + p.getD (si + 3) 0
        JVal.num (tau * (((c3 * t1 + c2) * t1 + c1) * t1 + c0))

/-- The coordinate function of `bezier(points)` (source lines 2043-2067): the
composite cubic over groups of four control points, segment selected by
`Math.floor(t)`; `flen`/`len` as freshly recomputed. -/
def bezierFct (pts : List ℚ) (t : ℚ) : JVal :=
  let flen := 3 * ((pts.length - 1) / 3)
  let len := flen / 3
  if t < 0 then JVal.num (pts.getD 0 0)
  else if (len : ℚ) ≤ t then JVal.num (pts.getD flen 0)
  else
    let z := 3 * (⌊t⌋).toNat
    let t0 := t - ⌊t⌋
    let t1 := 1 - t0
    JVal.num (t1 * t1 * (t1 * pts.getD z 0 + 3 * t0 * pts.getD (z + 1) 0)
      + (3 * t1 * pts.getD (z + 2) 0 + t0 * pts.getD (z + 3) 0) * t0 * t0)

/-- `_knotVector(n, k)` (source lines 2087-2102) as a total map; indices
outside `[0, n+k]` are never read on the source's loops. -/
def bsplineKnots (n k : ℕ) : ℤ → ℚ :=
  fun j => if j < k then 0 else if j ≤ n then (j : ℚ) - k + 1 else (n : ℚ) - k + 2

/-- Write one entry of the basis array `N`. -/
def updZ (N : ℤ → ℚ) (j : ℤ) (v : ℚ) : ℤ → ℚ :=
  fun r => if r = j then v else N r

/-- Inner `j`-loop of `_evalBasisFuncs` at level `i` (source lines 2115-2141):
`j` runs from `s-i+1` to `s`; the first argument counts remaining
iterations. -/
def bsplineJLoop (t : ℚ) (kn : ℤ → ℚ) (i s : ℤ) : ℕ → ℤ → (ℤ → ℚ) → (ℤ → ℚ)
  | 0, _, N => N
  | c + 1, j, N =>
      let a := if j ≤ s - i + 1 ∨ j < 0 then 0 else N j
      let b := if s ≤ j then 0 else N (j + 1)
      let den1 := kn (j + i - 1) - kn j
      let v1 := if den1 = 0 then 0 else (t - kn j) / den1 * a
      let den2 := kn (j + i) - kn (j + 1)
      let v2 := if den2 ≠ 0 then v1 + (kn (j + i) - t) / den2 * b else v1
      bsplineJLoop t kn i s c (j + 1) (updZ N j v2)

/-- Outer `i`-loop of `_evalBasisFuncs`: `i` runs from `2` to `k`; the first
argument counts remaining iterations. -/
def bsplineILoop (t : ℚ) (kn : ℤ → ℚ) (s : ℤ) : ℕ → ℤ → (ℤ → ℚ) → (ℤ → ℚ)
  | 0, _, N => N
  | c + 1, i, N => bsplineILoop t kn s c (i + 1) (bsplineJLoop t kn i s i.toNat (s - i + 1) N)

/-- `_evalBasisFuncs(t, kn, n, k, s)` (source lines 2104-2144): seed
`N[s] = 1` iff `kn[s] ≤ t < kn[s+1]`, then run the levels `i = 2..k`.
Unwritten entries read as `0` (such reads only occur under the `a`/`b`
guards, which zero them in the source as well). -/
def bsplineBasis (t : ℚ) (kn : ℤ → ℚ) (k : ℕ) (s : ℤ) : ℤ → ℚ :=
  let N0 : ℤ → ℚ := fun r =>
    if r = s then (if kn s ≤ t ∧ t < kn (s + 1) then 1 else 0) else 0
  bsplineILoop t kn s (k - 1) 2 N0

/-- Final accumulation loop of the B-spline evaluator (source lines
2173-2178): `y += points[j] * N[j]` for `j = s-k+1 .. s` with the index-range
guard; the first argument counts remaining iterations. -/
def bsplineSumLoop (pts : List ℚ) (N : ℤ → ℚ) : ℕ → ℤ → ℚ → ℚ
  | 0, _, y => y
  | c + 1, j, y =>
      bsplineSumLoop pts N c (j + 1)
        (if j < (pts.length : ℤ) ∧ 0 ≤ j then y + pts.getD j.toNat 0 * N j else y)

/-- The coordinate function of `bspline(points, order)` (source lines
2146-2182): order clamp, endpoint clamps, Cox-de Boor basis evaluation and
accumulation. -/
def bsplineFct (pts : List ℚ) (order : ℕ) (t : ℚ) : JVal :=
  let len := pts.length
  if len ≤ 1 then JVal.nan
  else
    let n := len - 1
    let k := if n + 2 ≤ order then n + 1 else order
    if t ≤ 0 then JVal.num (pts.getD 0 0)
    else if ((n : ℚ) - k + 2 ≤ t) then JVal.num (pts.getD n 0)
    else
      let s : ℤ := ⌊t⌋ + k - 1
      let kn := bsplineKnots n k
      let N := bsplineBasis t kn k s
      JVal.num (bsplineSumLoop pts N k (s - k + 1) 0)

theorem cardinalFct_endpoints (pts : List ℚ) (tau : ℚ) (h : 2 ≤ pts.length) :
    cardinalFct pts tau 0 = JVal.num (pts.getD 0 0)
      ∧ cardinalFct pts tau ((pts.length : ℚ) - 1) = JVal.num (pts.getD (pts.length - 1) 0) := by
  have hp1 : ∀ lastv : ℚ,
      ((2 * pts.getD 0 0 - pts.getD 1 0) :: (pts ++ [lastv])).getD 1 0 = pts.getD 0 0 := by
    intro lastv
    rw [List.getD_cons_succ, List.getD_append _ _ 0 0 (by omega)]
  have hp2 : ∀ lastv : ℚ,
      ((2 * pts.getD 0 0 - pts.getD 1 0) :: (pts ++ [lastv])).getD (pts.length + 2 - 2) 0
        = pts.getD (pts.length - 1) 0 := by
    intro lastv
    have hlen : pts.length + 2 - 2 = (pts.length - 1) + 1 := by omega
    rw [hlen, List.getD_cons_succ, List.getD_append _ _ 0 (pts.length - 1) (by omega)]
  have hcast : (2 : ℚ) ≤ (pts.length : ℚ) := by exact_mod_cast h
  constructor
  · simp only [cardinalFct]
    rw [if_neg (by omega), if_pos le_rfl, hp1]
  · simp only [cardinalFct]
    rw [if_neg (by omega), if_neg (by push_cast; intro hcon; linarith),
      if_pos (by push_cast; linarith), hp2]

theorem bezierFct_endpoints (pts : List ℚ) (k : ℕ) (h : pts.length = 3 * k + 1) :
    bezierFct pts 0 = JVal.num (pts.getD 0 0)
      ∧ bezierFct pts (k : ℚ) = JVal.num (pts.getD (3 * k) 0) := by
  have hflen : 3 * ((pts.length - 1) / 3) = 3 * k := by omega
  have h33 : 3 * k / 3 = k := by omega
  constructor
  · simp only [bezierFct, hflen, h33]
    rcases Nat.eq_zero_or_pos k with rfl | hk
    · rw [if_neg (by norm_num), if_pos (by norm_num)]
    · rw [if_neg (by norm_num), if_neg (by exact_mod_cast hk.not_le)]
      norm_num
  · simp only [bezierFct, hflen, h33]
    rw [if_neg (not_lt.mpr (by positivity)), if_pos le_rfl]

theorem bsplineFct_endpoints (pts : List ℚ) (order : ℕ)
    (hlen : 2 ≤ pts.length) (hord : 1 ≤ order) :
    bsplineFct pts order 0 = JVal.num (pts.getD 0 0)
      ∧ bsplineFct pts order ((pts.length : ℚ) - 1) = JVal.num (pts.getD (pts.length - 1) 0) := by
  have hcast2 : (2 : ℚ) ≤ (pts.length : ℚ) := by exact_mod_cast hlen
  have hQ : ((pts.length : ℚ)) - 1 = ((pts.length - 1 : ℕ) : ℚ) := by
    rw [Nat.cast_sub (by omega : 1 ≤ pts.length), Nat.cast_one]
  constructor
  · simp only [bsplineFct]
    rw [if_neg (by omega), if_pos le_rfl]
  · simp only [bsplineFct]
    rw [if_neg (by omega), if_neg (by push_cast; linarith)]
    set n := pts.length - 1 with hn
    have hn1 : 1 ≤ n := by omega
    set k := if n + 2 ≤ order then n + 1 else order with hkdef
    have hk1 : 1 ≤ k := by
      rw [hkdef]
      split_ifs <;> omega
    by_cases h2 : 2 ≤ k
    · rw [if_pos]
      rw [hQ]
      push_cast
      have hc : (2 : ℚ) ≤ (k : ℚ) := by exact_mod_cast h2
      linarith
    · have hkeq : k = 1 := by omega
      rw [if_neg]
      · rw [hQ, hkeq, Int.floor_natCast]
        have hidx : ((n : ℤ) + ((1 : ℕ) : ℤ) - 1) = (n : ℤ) := by push_cast; ring
        have hidx2 : ((n : ℤ) - ((1 : ℕ) : ℤ) + 1) = (n : ℤ) := by
          push_cast
          ring
        rw [hidx, hidx2]
        show JVal.num (bsplineSumLoop pts (bsplineBasis _ _ 1 _) 1 _ 0) = _
        simp only [bsplineBasis, Nat.sub_self, bsplineILoop, bsplineSumLoop]
        rw [if_pos (by constructor <;> omega : ((n : ℤ) < (pts.length : ℤ) ∧ 0 ≤ ((n : ℤ))))]
        simp only [if_true]
        rw [if_pos]
        · rw [Int.toNat_natCast]
          norm_num
        · unfold bsplineKnots
          constructor
          · rw [if_neg (by omega), if_pos (by omega)]
            push_cast
            linarith
          · rw [if_neg (by omega), if_neg (by omega)]
            push_cast
            linarith
      · rw [hQ, hkeq]
        push_cast
        linarith

/-- C8: each of the parametric evaluators — `CardinalSpline(points, tau)`,
`bezier(points)`, `bspline(points, order)` — returns coordinate functions
that, when first evaluated with the recompute flag active, yield the first
control point's coordinate at `t = 0` and the last control point's coordinate
at the domain-bound function's value (`points.length - 1` for cardinal,
`⌊points.length / 3⌋ = k` for a composite Bezier on `3k+1` points,
`points.length - 1` for B-spline), given at least 2 points (cardinal and
B-spline, order ≥ 1) resp. `3k+1` points (Bezier). -/
theorem evaluators_endpoints
    (ptsC : List ℚ) (tau : ℚ) (ptsB : List ℚ) (kB : ℕ) (ptsS : List ℚ) (order : ℕ)
    (hC : 2 ≤ ptsC.length) (hB : ptsB.length = 3 * kB + 1)
    (hS : 2 ≤ ptsS.length) (hord : 1 ≤ order) :
    (cardinalFct ptsC tau 0 = JVal.num (ptsC.getD 0 0)
      ∧ cardinalFct ptsC tau ((ptsC.length : ℚ) - 1) = JVal.num (ptsC.getD (ptsC.length - 1) 0))
    ∧ (bezierFct ptsB 0 = JVal.num (ptsB.getD 0 0)
      ∧ bezierFct ptsB (kB : ℚ) = JVal.num (ptsB.getD (3 * kB) 0))
    ∧ (bsplineFct ptsS order 0 = JVal.num (ptsS.getD 0 0)
      ∧ bsplineFct ptsS order ((ptsS.length : ℚ) - 1)
          = JVal.num (ptsS.getD (ptsS.length - 1) 0)) :=
  ⟨cardinalFct_endpoints ptsC tau hC,
   bezierFct_endpoints ptsB kB hB,
   bsplineFct_endpoints ptsS order hS hord⟩

/-- Witness for C8: cardinal spline and B-spline (order 2) on `[5, 7]`,
composite Bezier on `[1, 2, 3, 4]` (one segment, `k = 1`). -/
theorem evaluators_endpoints_witness :
    (cardinalFct [5, 7] 0 0 = JVal.num (([5, 7] : List ℚ).getD 0 0)
      ∧ cardinalFct [5, 7] 0 ((([5, 7] : List ℚ).length : ℚ) - 1)
          = JVal.num (([5, 7] : List ℚ).getD (([5, 7] : List ℚ).length - 1) 0))
    ∧ (bezierFct [1, 2, 3, 4] 0 = JVal.num (([1, 2, 3, 4] : List ℚ).getD 0 0)
      ∧ bezierFct [1, 2, 3, 4] ((1 : ℕ) : ℚ) = JVal.num (([1, 2, 3, 4] : List ℚ).getD (3 * 1) 0))
    ∧ (bsplineFct [5, 7] 2 0 = JVal.num (([5, 7] : List ℚ).getD 0 0)
      ∧ bsplineFct [5, 7] 2 ((([5, 7] : List ℚ).length : ℚ) - 1)
          = JVal.num (([5, 7] : List ℚ).getD (([5, 7] : List ℚ).length - 1) 0)) :=
  evaluators_endpoints [5, 7] 0 [1, 2, 3, 4] 1 [5, 7] 2
    (by decide) (by decide) (by decide) (by decide)

/-! ## C2, C10: the adaptive driver `Qag` and its workspace
(numerics.js lines 1004-1159 and 1194-1365)

The integrand `f` is absorbed into the rule parameter `q` (the driver only
ever calls `q([a, b], f, resultObj)`); a rule is an arbitrary function from an
interval to the quadruple it reports.  `config.limit` is kept as a rational
(`Type.isNumber` admits any number); its default, and those of
`epsrel`/`epsabs`/`q`, are supplied by callers.  The two `JXG.warn` calls only
log and are omitted.
-/

/-- Machine epsilon constant of `Qag` (`DBL_EPS`, line 1195) over `ℚ`. -/
def DBL_EPS_Q : ℚ := 2.2204460492503131e-16

/-- What a quadrature rule reports: return value and the `resultObj`
fields. -/
structure RuleResult where
  result : ℚ
  abserr : ℚ
  resabs : ℚ
  resasc : ℚ

/-- Write an entry of a rational-valued workspace array. -/
def updWQ (f : ℤ → ℚ) (i : ℤ) (v : ℚ) : ℤ → ℚ :=
  fun r => if r = i then v else f r

/-- Write an entry of an integer-valued workspace array. -/
def updWI (f : ℤ → ℤ) (i : ℤ) (v : ℤ) : ℤ → ℤ :=
  fun r => if r = i then v else f r

/-- The `_workspace(interval, 1000)` object.  Arrays are total maps; entries
outside the populated prefix are never read by the driver.  The field
`maximum_level` is omitted: it is never initialised, so the comparison
`new_level > this.maximum_level` in `update` is always false (`undefined`)
and the field is never read anywhere. -/
structure QuadWS where
  limit : ℤ
  size : ℤ
  nrmax : ℤ
  i : ℤ
  alist : ℤ → ℚ
  blist : ℤ → ℚ
  rlist : ℤ → ℚ
  elist : ℤ → ℚ
  order : ℤ → ℤ
  level : ℤ → ℤ

/-- `_workspace(interval, 1000)` initial state: one-element arrays
`[a]`, `[b]`, `[0]`, `[0]`, `[0]`, `[0]`. -/
def wsInit (a b : ℚ) : QuadWS :=
  { limit := 1000, size := 0, nrmax := 0, i := 0,
    alist := updWQ (fun _ => 0) 0 a,
    blist := updWQ (fun _ => 0) 0 b,
    rlist := fun _ => 0,
    elist := fun _ => 0,
    order := fun _ => 0,
    level := fun _ => 0 }

/-- First `while` of `qpsrt` (lines 1038-1041): shift the `order` list while
the preceding error estimates are smaller than `errmax`; returns the updated
list and the final `i_nrmax`.  The fuel equals the initial `i_nrmax`, which
bounds the iterations (the guard requires `i_nrmax > 0` and each step
decrements it). -/
def qpsrtLoop1 (elist : ℤ → ℚ) (errmax : ℚ) : ℕ → ℤ → (ℤ → ℤ) → ((ℤ → ℤ) × ℤ)
  | 0, i_nrmax, order => (order, i_nrmax)
  | fuel + 1, i_nrmax, order =>
      if 0 < i_nrmax ∧ elist (order (i_nrmax - 1)) < errmax then
        qpsrtLoop1 elist errmax fuel (i_nrmax - 1) (updWI order i_nrmax (order (i_nrmax - 1)))
      else (order, i_nrmax)

/-- Second `while` of `qpsrt` (lines 1058-1061): top-down insertion scan for
`errmax`.  The fuel equals `top - i`, which bounds the iterations. -/
def qpsrtLoop2 (elist : ℤ → ℚ) (errmax : ℚ) (top : ℤ) : ℕ → ℤ → (ℤ → ℤ) → ((ℤ → ℤ) × ℤ)
  | 0, i, order => (order, i)
  | fuel + 1, i, order =>
      if i < top ∧ errmax < elist (order i) then
        qpsrtLoop2 elist errmax top fuel (i + 1) (updWI order (i - 1) (order i))
      else (order, i)

/-- Third `while` of `qpsrt` (lines 1069-1072): bottom-up insertion scan for
`errmin` (`bound` is `i - 2`).  The fuel equals `k - bound`, which bounds the
iterations. -/
def qpsrtLoop3 (elist : ℤ → ℚ) (errmin : ℚ) (bound : ℤ) : ℕ → ℤ → (ℤ → ℤ) → ((ℤ → ℤ) × ℤ)
  | 0, k, order => (order, k)
  | fuel + 1, k, order =>
      if bound < k ∧ elist (order k) ≤ errmin then
        qpsrtLoop3 elist errmin bound fuel (k - 1) (updWI order (k + 1) (order k))
      else (order, k)

/-- `qpsrt()` (lines 1017-1080), transcribed from the source. -/
def qpsrt (ws : QuadWS) : QuadWS :=
  let last := ws.size - 1
  let limit := ws.limit
  let i_nrmax := ws.nrmax
  let i_maxerr := ws.order i_nrmax
  if last < 2 then
    { ws with order := updWI (updWI ws.order 0 0) 1 1, i := i_maxerr }
  else
    let errmax := ws.elist i_maxerr
    let p1 := qpsrtLoop1 ws.elist errmax i_nrmax.toNat i_nrmax ws.order
    let nr1 := p1.2
    let top := if last < limit / 2 + 2 then last else limit - last + 1
    let p2 := qpsrtLoop2 ws.elist errmax top (top - (nr1 + 1)).toNat (nr1 + 1) p1.1
    let i2 := p2.2
    let order3 := updWI p2.1 (i2 - 1) i_maxerr
    let errmin := ws.elist last
    let p3 := qpsrtLoop3 ws.elist errmin (i2 - 2) (top - 1 - (i2 - 2)).toNat (top - 1) order3
    let order5 := updWI p3.1 (p3.2 + 1) last
    { ws with order := order5, i := order5 nr1, nrmax := nr1 }

/-- `set_initial_result(result, error)` (lines 1082-1086). -/
def set_initial_result (ws : QuadWS) (result error : ℚ) : QuadWS :=
  { ws with size := 1, rlist := updWQ ws.rlist 0 result, elist := updWQ ws.elist 0 error }

/-- `update(a1, b1, area1, error1, a2, b2, area2, error2)` (lines 1088-1126):
append the bisected halves (worse error replaces the old slot), bump the size
and re-sort.  The `maximum_level` comparison never fires (see `QuadWS`). -/
def wsUpdate (ws : QuadWS) (a1 b1 area1 error1 a2 b2 area2 error2 : ℚ) : QuadWS :=
  let i_max := ws.i
  let i_new := ws.size
  let new_level := ws.level i_max + 1
  let ws1 :=
    if error1 < error2 then
      { ws with
        alist := updWQ (updWQ ws.alist i_max a2) i_new a1,
        blist := updWQ ws.blist i_new b1,
        rlist := updWQ (updWQ ws.rlist i_max area2) i_new area1,
        elist := updWQ (updWQ ws.elist i_max error2) i_new error1,
        level := updWI (updWI ws.level i_max new_level) i_new new_level }
    else
      { ws with
        alist := updWQ ws.alist i_new a2,
        blist := updWQ (updWQ ws.blist i_max b1) i_new b2,
        rlist := updWQ (updWQ ws.rlist i_max area1) i_new area2,
        elist := updWQ (updWQ ws.elist i_max error1) i_new error2,
        level := updWI (updWI ws.level i_max new_level) i_new new_level }
  qpsrt { ws1 with size := ws1.size + 1 }

/-- `retrieve()` (lines 1128-1136): the current worst subinterval as the
quadruple `(a, b, r, e)`. -/
def wsRetrieve (ws : QuadWS) : ℚ × ℚ × ℚ × ℚ :=
  (ws.alist ws.i, ws.blist ws.i, ws.rlist ws.i, ws.elist ws.i)

/-- The summation loop of `sum_results()` (lines 1138-1148). -/
def sumLoop (rlist : ℤ → ℚ) : ℕ → ℤ → ℚ → ℚ
  | 0, _, acc => acc
  | c + 1, k, acc => sumLoop rlist c (k + 1) (acc + rlist k)

/-- `sum_results()`: the sum of the recorded per-subinterval results. -/
def sum_results (ws : QuadWS) : ℚ :=
  sumLoop ws.rlist ws.size.toNat 0 0

/-- `subinterval_too_small(a1, a2, b2)` (lines 1150-1156). -/
def subinterval_too_small (a1 a2 b2 : ℚ) : Prop :=
  let e : ℚ := 2.2204460492503131e-16
  let u : ℚ := 2.2250738585072014e-308
  let tmp := (1 + 100 * e) * (|a2| + 1000 * u)
  |a1| ≤ tmp ∧ |b2| ≤ tmp

instance (a1 a2 b2 : ℚ) : Decidable (subinterval_too_small a1 a2 b2) :=
  instDecidableAnd

/-- The local variables of `Qag` that live across loop iterations.  The
variables `a_i, b_i, r_i, e_i` are JS values that may be `undefined`
(`Option`): the claim C10 is about the assignments that set them to
`undefined` at the end of each iteration. -/
structure QagState where
  ws : QuadWS
  area : ℚ
  errsum : ℚ
  tolerance : ℚ
  iteration : ℤ
  roundoff_type1 : ℤ
  roundoff_type2 : ℤ
  error_type : ℤ
  a_i : Option ℚ
  b_i : Option ℚ
  r_i : Option ℚ
  e_i : Option ℚ

/-- One iteration of `Qag`'s `do`-loop (lines 1265-1333).  When
`withDeadWrites` is set, the four assignments after `ws.update` (lines
1327-1331), which read the fields `a_i`/`b_i`/`r_i`/`e_i` off the object
returned by `ws.retrieve()` — fields that do not exist, so the variables
become `undefined` — are performed; otherwise they are removed (the C10
variant).  In both cases the variables are first reassigned from a fresh
`ws.retrieve()` at the top of the iteration. -/
def qagBody (q : ℚ → ℚ → RuleResult) (epsrel epsabs : ℚ) (withDeadWrites : Bool)
    (st : QagState) : QagState :=
  let wsObj := wsRetrieve st.ws
  let a_i := wsObj.1
  let b_i := wsObj.2.1
  let r_i := wsObj.2.2.1
  let e_i := wsObj.2.2.2
  let a1 := a_i
  let b1 := 0.5 * (a_i + b_i)
  let a2 := b1
  let b2 := b_i
  let res1 := q a1 b1
  let res2 := q a2 b2
  let area12 := res1.result + res2.result
  let error12 := res1.abserr + res2.abserr
  let errsum := st.errsum + (error12 - e_i)
  let area := st.area + (area12 - r_i)
  let r1 :=
    if res1.resasc ≠ res1.abserr ∧ res2.resasc ≠ res2.abserr then
      (if |r_i - area12| ≤ 1.0e-5 * |area12| ∧ 0.99 * e_i ≤ error12
        then st.roundoff_type1 + 1 else st.roundoff_type1)
    else st.roundoff_type1
  let r2 :=
    if res1.resasc ≠ res1.abserr ∧ res2.resasc ≠ res2.abserr then
      (if 10 ≤ st.iteration ∧ e_i < error12
        then st.roundoff_type2 + 1 else st.roundoff_type2)
    else st.roundoff_type2
  let tolerance := max epsabs (epsrel * |area|)
  let error_type :=
    if tolerance < errsum then
      (if subinterval_too_small a1 a2 b2 then 3
       else if 6 ≤ r1 ∨ 20 ≤ r2 then 2 else st.error_type)
    else st.error_type
  let ws1 := wsUpdate st.ws a1 b1 res1.result res1.abserr a2 b2 res2.result res2.abserr
  { ws := ws1, area := area, errsum := errsum, tolerance := tolerance,
    iteration := st.iteration + 1,
    roundoff_type1 := r1, roundoff_type2 := r2, error_type := error_type,
    a_i := if withDeadWrites then none else some a_i,
    b_i := if withDeadWrites then none else some b_i,
    r_i := if withDeadWrites then none else some r_i,
    e_i := if withDeadWrites then none else some e_i }

/-- The `do … while (iteration < limit && !error_type && errsum > tolerance)`
loop.  The fuel bounds the iterations; `Qag` supplies `⌈limit⌉.toNat`, which
never truncates (`qagLoop_guard_false`). -/
def qagLoop (q : ℚ → ℚ → RuleResult) (epsrel epsabs limit : ℚ) (withDeadWrites : Bool) :
    ℕ → QagState → QagState
  | 0, st => st
  | fuel + 1, st =>
      let st1 := qagBody q epsrel epsabs withDeadWrites st
      if (st1.iteration : ℚ) < limit ∧ st1.error_type = 0 ∧ st1.tolerance < st1.errsum then
        qagLoop q epsrel epsabs limit withDeadWrites fuel st1
      else st1

/-- `Qag(interval, f, config)` (lines 1194-1365) up to its return value,
together with the final workspace.  `QagOut.sentinel` models the returned
`-Infinity`. -/
inductive QagOut where
  | sentinel
  | value (r : ℚ)
deriving DecidableEq, Repr

/-- The state entering `Qag`'s main loop (lines 1261-1263; the four
undeclared-then-assigned locals start as `undefined`). -/
def qagInit (res0 : RuleResult) (a b epsrel epsabs : ℚ) : QagState :=
  { ws := set_initial_result (wsInit a b) res0.result res0.abserr,
    area := res0.result, errsum := res0.abserr,
    tolerance := max epsabs (epsrel * |res0.result|), iteration := 1,
    roundoff_type1 := 0, roundoff_type2 := 0, error_type := 0,
    a_i := none, b_i := none, r_i := none, e_i := none }

/-- The run of `Qag`: early branches, then the main loop. -/
def QagRun (q : ℚ → ℚ → RuleResult) (a b limit epsrel epsabs : ℚ)
    (withDeadWrites : Bool) : QuadWS × QagOut :=
  let res0 := q a b
  let ws1 := set_initial_result (wsInit a b) res0.result res0.abserr
  let tolerance := max epsabs (epsrel * |res0.result|)
  let round_off := 50 * DBL_EPS_Q * res0.resabs
  if res0.abserr ≤ round_off ∧ tolerance < res0.abserr then
    (ws1, QagOut.sentinel)
  else if (res0.abserr ≤ tolerance ∧ res0.abserr ≠ res0.resasc) ∨ res0.abserr = 0 then
    (ws1, QagOut.value res0.result)
  else if limit = 1 then
    (ws1, QagOut.sentinel)
  else
    let stF := qagLoop q epsrel epsabs limit withDeadWrites (⌈limit⌉).toNat
      (qagInit res0 a b epsrel epsabs)
    (stF.ws, QagOut.value (sum_results stF.ws))

/-- `Qag`'s return value (faithful version, with the dead stores). -/
def Qag (q : ℚ → ℚ → RuleResult) (a b limit epsrel epsabs : ℚ) : QagOut :=
  (QagRun q a b limit epsrel epsabs true).2

/-- The C10 variant of `Qag` with the four dead assignments removed. -/
def QagNoDeadStores (q : ℚ → ℚ → RuleResult) (a b limit epsrel epsabs : ℚ) : QagOut :=
  (QagRun q a b limit epsrel epsabs false).2

/-- The fuel `⌈limit⌉.toNat` never truncates the loop: the state returned by
`qagLoop` fails the loop guard whenever the fuel covers the remaining
iterations, exactly as the source's `do`-`while`. -/
theorem qagLoop_guard_false (q : ℚ → ℚ → RuleResult) (epsrel epsabs limit : ℚ)
    (w : Bool) (fuel : ℕ) (st : QagState)
    (hfuel : (⌈limit⌉ : ℤ) ≤ st.iteration + fuel) :
    ¬ (((qagLoop q epsrel epsabs limit w fuel st).iteration : ℚ) < limit
        ∧ (qagLoop q epsrel epsabs limit w fuel st).error_type = 0
        ∧ (qagLoop q epsrel epsabs limit w fuel st).tolerance
            < (qagLoop q epsrel epsabs limit w fuel st).errsum) := by
  induction fuel generalizing st with
  | zero =>
      rintro ⟨hlt, -, -⟩
      simp only [qagLoop] at hlt
      have hile : (⌈limit⌉ : ℤ) ≤ st.iteration := by omega
      have hileQ : ((⌈limit⌉ : ℤ) : ℚ) ≤ (st.iteration : ℚ) := by exact_mod_cast hile
      have h2 : limit ≤ ((⌈limit⌉ : ℤ) : ℚ) := Int.le_ceil limit
      linarith
  | succ fuel ih =>
      simp only [qagLoop]
      split_ifs with hc
      · exact ih _ (by
          have : (qagBody q epsrel epsabs w st).iteration = st.iteration + 1 := rfl
          omega)
      · exact hc

/-- C2: `Qag` returns the failure sentinel `-Infinity` in exactly two cases —
(a) first-iteration roundoff: the first rule application's rescaled error is
at most `50*DBL_EPS*resabs0` yet exceeds `max(epsabs, epsrel*|result0|)`, and
(b) otherwise, when the first estimate has not met the acceptance test and the
configured iteration limit equals 1 — and in every other case returns the sum
of the per-subinterval results recorded in the worklist at exit. -/
theorem Qag_sentinel_characterization (q : ℚ → ℚ → RuleResult)
    (a b limit epsrel epsabs : ℚ) :
    (Qag q a b limit epsrel epsabs = QagOut.sentinel
      ↔ ((q a b).abserr ≤ 50 * DBL_EPS_Q * (q a b).resabs
            ∧ max epsabs (epsrel * |(q a b).result|) < (q a b).abserr)
        ∨ (¬((q a b).abserr ≤ 50 * DBL_EPS_Q * (q a b).resabs
              ∧ max epsabs (epsrel * |(q a b).result|) < (q a b).abserr)
          ∧ ¬(((q a b).abserr ≤ max epsabs (epsrel * |(q a b).result|)
                ∧ (q a b).abserr ≠ (q a b).resasc) ∨ (q a b).abserr = 0)
          ∧ limit = 1))
    ∧ (Qag q a b limit epsrel epsabs ≠ QagOut.sentinel
        → Qag q a b limit epsrel epsabs
            = QagOut.value (sum_results (QagRun q a b limit epsrel epsabs true).1)) := by
  by_cases hA : (q a b).abserr ≤ 50 * DBL_EPS_Q * (q a b).resabs
      ∧ max epsabs (epsrel * |(q a b).result|) < (q a b).abserr
  · have hrun : QagRun q a b limit epsrel epsabs true
        = (set_initial_result (wsInit a b) (q a b).result (q a b).abserr,
           QagOut.sentinel) := by
      simp only [QagRun]
      rw [if_pos hA]
    constructor
    · rw [Qag, hrun]
      exact ⟨fun _ => Or.inl hA, fun _ => rfl⟩
    · intro hne
      exact absurd (by rw [Qag, hrun]) hne
  · by_cases hB : ((q a b).abserr ≤ max epsabs (epsrel * |(q a b).result|)
        ∧ (q a b).abserr ≠ (q a b).resasc) ∨ (q a b).abserr = 0
    · have hrun : QagRun q a b limit epsrel epsabs true
          = (set_initial_result (wsInit a b) (q a b).result (q a b).abserr,
             QagOut.value (q a b).result) := by
        simp only [QagRun]
        rw [if_neg hA, if_pos hB]
      have hsum : sum_results (set_initial_result (wsInit a b) (q a b).result (q a b).abserr)
          = (q a b).result := by
        simp [sum_results, sumLoop, set_initial_result, wsInit, updWQ]
      constructor
      · rw [Qag, hrun]
        constructor
        · intro hcon
          cases hcon
        · rintro (h | ⟨h1, h2, h3⟩)
          · exact absurd h hA
          · exact absurd hB h2
      · intro _
        rw [Qag, hrun]
        simp only []
        rw [hsum]
    · by_cases hL : limit = 1
      · have hrun : QagRun q a b limit epsrel epsabs true
            = (set_initial_result (wsInit a b) (q a b).result (q a b).abserr,
               QagOut.sentinel) := by
          simp only [QagRun]
          rw [if_neg hA, if_neg hB, if_pos hL]
        constructor
        · rw [Qag, hrun]
          exact ⟨fun _ => Or.inr ⟨hA, hB, hL⟩, fun _ => rfl⟩
        · intro hne
          exact absurd (by rw [Qag, hrun]) hne
      · have hrun : QagRun q a b limit epsrel epsabs true
            = ((qagLoop q epsrel epsabs limit true (⌈limit⌉).toNat
                  (qagInit (q a b) a b epsrel epsabs)).ws,
               QagOut.value (sum_results (qagLoop q epsrel epsabs limit true (⌈limit⌉).toNat
                  (qagInit (q a b) a b epsrel epsabs)).ws)) := by
          simp only [QagRun]
          rw [if_neg hA, if_neg hB, if_neg hL]
        constructor
        · rw [Qag, hrun]
          constructor
          · intro hcon
            cases hcon
          · rintro (h | ⟨h1, h2, h3⟩)
            · exact absurd h hA
            · exact absurd h3 hL
        · intro _
          rw [Qag, hrun]

/-- Witness for C2 at the constant-zero rule (acceptance holds at once, so
`Qag` returns the single, initial worklist entry). -/
theorem Qag_sentinel_characterization_witness :
    (Qag (fun _ _ => ⟨0, 0, 0, 0⟩) 0 1 15 (1/10000000) (1/10000000) = QagOut.sentinel
      ↔ (((fun _ _ => (⟨0, 0, 0, 0⟩ : RuleResult)) (0 : ℚ) (1 : ℚ)).abserr
            ≤ 50 * DBL_EPS_Q * ((fun _ _ => (⟨0, 0, 0, 0⟩ : RuleResult)) (0 : ℚ) (1 : ℚ)).resabs
          ∧ max (1/10000000) ((1/10000000)
              * |((fun _ _ => (⟨0, 0, 0, 0⟩ : RuleResult)) (0 : ℚ) (1 : ℚ)).result|)
            < ((fun _ _ => (⟨0, 0, 0, 0⟩ : RuleResult)) (0 : ℚ) (1 : ℚ)).abserr)
        ∨ (¬(((fun _ _ => (⟨0, 0, 0, 0⟩ : RuleResult)) (0 : ℚ) (1 : ℚ)).abserr
              ≤ 50 * DBL_EPS_Q * ((fun _ _ => (⟨0, 0, 0, 0⟩ : RuleResult)) (0 : ℚ) (1 : ℚ)).resabs
            ∧ max (1/10000000) ((1/10000000)
                * |((fun _ _ => (⟨0, 0, 0, 0⟩ : RuleResult)) (0 : ℚ) (1 : ℚ)).result|)
              < ((fun _ _ => (⟨0, 0, 0, 0⟩ : RuleResult)) (0 : ℚ) (1 : ℚ)).abserr)
          ∧ ¬((((fun _ _ => (⟨0, 0, 0, 0⟩ : RuleResult)) (0 : ℚ) (1 : ℚ)).abserr
                ≤ max (1/10000000) ((1/10000000)
                    * |((fun _ _ => (⟨0, 0, 0, 0⟩ : RuleResult)) (0 : ℚ) (1 : ℚ)).result|)
              ∧ ((fun _ _ => (⟨0, 0, 0, 0⟩ : RuleResult)) (0 : ℚ) (1 : ℚ)).abserr
                  ≠ ((fun _ _ => (⟨0, 0, 0, 0⟩ : RuleResult)) (0 : ℚ) (1 : ℚ)).resasc)
            ∨ ((fun _ _ => (⟨0, 0, 0, 0⟩ : RuleResult)) (0 : ℚ) (1 : ℚ)).abserr = 0)
          ∧ (15 : ℚ) = 1))
    ∧ (Qag (fun _ _ => ⟨0, 0, 0, 0⟩) 0 1 15 (1/10000000) (1/10000000) ≠ QagOut.sentinel
        → Qag (fun _ _ => ⟨0, 0, 0, 0⟩) 0 1 15 (1/10000000) (1/10000000)
            = QagOut.value (sum_results
                (QagRun (fun _ _ => ⟨0, 0, 0, 0⟩) 0 1 15 (1/10000000) (1/10000000) true).1)) :=
  Qag_sentinel_characterization (fun _ _ => ⟨0, 0, 0, 0⟩) 0 1 15 (1/10000000) (1/10000000)

/-- Agreement of two `Qag` loop states on everything except the four
variables `a_i, b_i, r_i, e_i`. -/
def coreEq (st st' : QagState) : Prop :=
  st.ws = st'.ws ∧ st.area = st'.area ∧ st.errsum = st'.errsum
    ∧ st.tolerance = st'.tolerance ∧ st.iteration = st'.iteration
    ∧ st.roundoff_type1 = st'.roundoff_type1 ∧ st.roundoff_type2 = st'.roundoff_type2
    ∧ st.error_type = st'.error_type

theorem coreEq_refl (st : QagState) : coreEq st st :=
  ⟨rfl, rfl, rfl, rfl, rfl, rfl, rfl, rfl⟩

/-- The loop body never reads `a_i, b_i, r_i, e_i` (they are reassigned from
a fresh `ws.retrieve()` first), so bodies with and without the dead stores
preserve agreement on the other variables. -/
theorem qagBody_coreEq (q : ℚ → ℚ → RuleResult) (epsrel epsabs : ℚ)
    (w w' : Bool) (st st' : QagState) (h : coreEq st st') :
    coreEq (qagBody q epsrel epsabs w st) (qagBody q epsrel epsabs w' st') := by
  obtain ⟨h1, h2, h3, h4, h5, h6, h7, h8⟩ := h
  refine ⟨?_, ?_, ?_, ?_, ?_, ?_, ?_, ?_⟩ <;>
    simp only [qagBody, h1, h2, h3, h4, h5, h6, h7, h8]

theorem qagLoop_coreEq (q : ℚ → ℚ → RuleResult) (epsrel epsabs limit : ℚ)
    (w w' : Bool) (fuel : ℕ) :
    ∀ st st', coreEq st st' →
      coreEq (qagLoop q epsrel epsabs limit w fuel st)
        (qagLoop q epsrel epsabs limit w' fuel st') := by
  induction fuel with
  | zero => exact fun st st' h => h
  | succ fuel ih =>
      intro st st' h
      have hb := qagBody_coreEq q epsrel epsabs w w' st st' h
      obtain ⟨b1, b2, b3, b4, b5, b6, b7, b8⟩ := hb
      simp only [qagLoop]
      rw [b5, b8, b4, b3]
      split_ifs with hc
      · exact ih _ _ ⟨b1, b2, b3, b4, b5, b6, b7, b8⟩
      · exact ⟨b1, b2, b3, b4, b5, b6, b7, b8⟩

/-- C10: the four assignments after `ws.update` that read the nonexistent
fields `a_i, b_i, r_i, e_i` off the object returned by `ws.retrieve()` (so
the variables become `undefined`) have no effect on `Qag`'s result: the
variables are reassigned from a fresh `ws.retrieve()` at the top of the next
iteration before any use, so `Qag` equals the variant with those assignments
removed on every input. -/
theorem Qag_dead_stores_removable (q : ℚ → ℚ → RuleResult)
    (a b limit epsrel epsabs : ℚ) :
    Qag q a b limit epsrel epsabs = QagNoDeadStores q a b limit epsrel epsabs := by
  unfold Qag QagNoDeadStores
  simp only [QagRun]
  by_cases hA : (q a b).abserr ≤ 50 * DBL_EPS_Q * (q a b).resabs
      ∧ max epsabs (epsrel * |(q a b).result|) < (q a b).abserr
  · rw [if_pos hA, if_pos hA]
  · rw [if_neg hA, if_neg hA]
    by_cases hB : ((q a b).abserr ≤ max epsabs (epsrel * |(q a b).result|)
        ∧ (q a b).abserr ≠ (q a b).resasc) ∨ (q a b).abserr = 0
    · rw [if_pos hB, if_pos hB]
    · rw [if_neg hB, if_neg hB]
      by_cases hL : limit = 1
      · rw [if_pos hL, if_pos hL]
      · rw [if_neg hL, if_neg hL]
        have hcore := qagLoop_coreEq q epsrel epsabs limit true false (⌈limit⌉).toNat
          (qagInit (q a b) a b epsrel epsabs) (qagInit (q a b) a b epsrel epsabs)
          (coreEq_refl _)
        obtain ⟨hws, -⟩ := hcore
        simp only [hws]

/-! ## A heap model of JS array mutation (used by C6 and C7)

References are naturals; a heap maps references to number-array values and
carries an allocation counter.  Callers' arrays are references below the
counter; `alloc` hands out the counter itself and bumps it, so everything a
routine allocates is at or above the counter it started with. -/

/-- Write index `i` of a JS array value: in range it updates, at the end it
appends (the source's writes are always in range or one-past-the-end; the
padding value of a farther write is never observed). -/
def jsSet (l : List ℚ) (i : ℕ) (v : ℚ) : List ℚ :=
  if i < l.length then l.set i v
  else l ++ List.replicate (i - l.length) 0 ++ [v]

/-- A heap of JS number-arrays. -/
structure Heap where
  mem : ℕ → List ℚ
  next : ℕ

/-- Write one entry of the array at reference `r`. -/
def Heap.write (h : Heap) (r : ℕ) (i : ℕ) (v : ℚ) : Heap :=
  { h with mem := fun s => if s = r then jsSet (h.mem r) i v else h.mem s }

/-- Allocate a fresh array holding `l`; returns the new heap and the
reference. -/
def Heap.alloc (h : Heap) (l : List ℚ) : Heap × ℕ :=
  ({ mem := fun s => if s = h.next then l else h.mem s, next := h.next + 1 }, h.next)

/-- The heaps agree below `c0`. -/
def lowEq (c0 : ℕ) (h h' : Heap) : Prop :=
  ∀ r, r < c0 → h'.mem r = h.mem r

theorem lowEq_refl (c0 : ℕ) (h : Heap) : lowEq c0 h h := fun _ _ => rfl

theorem lowEq_trans {c0 : ℕ} {h1 h2 h3 : Heap}
    (a : lowEq c0 h1 h2) (b : lowEq c0 h2 h3) : lowEq c0 h1 h3 :=
  fun r hr => (b r hr).trans (a r hr)

theorem lowEq_write {c0 : ℕ} (h : Heap) (r0 i : ℕ) (v : ℚ) (hr0 : c0 ≤ r0) :
    lowEq c0 h (h.write r0 i v) := by
  intro r hr
  simp only [Heap.write]
  rw [if_neg (by omega)]

theorem lowEq_alloc {c0 : ℕ} (h : Heap) (l : List ℚ) (hc : c0 ≤ h.next) :
    lowEq c0 h (h.alloc l).1 := by
  intro r hr
  simp only [Heap.alloc]
  rw [if_neg (by omega)]

/-! ## C6: `Gauss` never mutates its arguments (numerics.js lines 99-154)

The same routine as the pure embedding above, but over the heap: `A` is an
array of row references, `b` a reference.  All writes target the fresh
copies `Acopy`/`x`, so the pre-existing heap (in particular `A`'s rows and
`b`) is untouched whether the routine returns or throws. -/

/-- Elimination state: the heap, the `Acopy` spine (a local array of row
references), and the reference of the working right-hand side `x`. -/
structure GHState where
  heap : Heap
  spine : List ℕ
  rx : ℕ

/-- Read `Acopy[i][j]`. -/
def ghM (s : GHState) (i j : ℕ) : ℚ :=
  (s.heap.mem (s.spine.getD i 0)).getD j 0

/-- Read `x[i]`. -/
def ghX (s : GHState) (i : ℕ) : ℚ :=
  (s.heap.mem s.rx).getD i 0

/-- `Type.swap(Acopy, i, j)`: exchange two row references on the spine. -/
def swapList (l : List ℕ) (i j : ℕ) : List ℕ :=
  (l.set i (l.getD j 0)).set j (l.getD i 0)

/-- `Type.swap(x, i, j)` through the heap. -/
def ghSwapX (s : GHState) (i j : ℕ) : GHState :=
  { s with heap := (s.heap.write s.rx i (ghX s j)).write s.rx j (ghX s i) }

/-- The heap version of the inner `k`-loop. -/
def ghRowLoop (i j : ℕ) : ℕ → ℕ → GHState → GHState
  | 0, _, s => s
  | c + 1, k, s =>
      ghRowLoop i j c (k + 1)
        { s with heap := s.heap.write (s.spine.getD i 0) k (ghM s i k - ghM s i j * ghM s j k) }

/-- The heap version of the `i`-loop body. -/
def ghElimStep (eps : ℚ) (n i j : ℕ) (s : GHState) : GHState :=
  if eps < |ghM s i j| then
    if |ghM s j j| < eps then
      ghSwapX { s with spine := swapList s.spine i j } i j
    else
      let L := ghM s i j / ghM s j j
      let s1 : GHState := { s with heap := s.heap.write (s.spine.getD i 0) j L }
      let s2 : GHState := { s1 with heap := s1.heap.write s1.rx i (ghX s1 i - L * ghX s1 j) }
      ghRowLoop i j (n - (j + 1)) (j + 1) s2
  else s

/-- The heap version of the `i`-loop for column `j`. -/
def ghColLoop (eps : ℚ) (n j : ℕ) : ℕ → GHState → GHState
  | 0, s => s
  | d + 1, s => ghColLoop eps n j d (ghElimStep eps n (j + d + 1) j s)

/-- The heap version of one elimination pass. -/
def ghPass (eps : ℚ) (n j : ℕ) (s : GHState) : GHState :=
  ghColLoop eps n j (n - 1 - j) s

/-- The heap version of the checked `j`-loop. -/
def ghChecked (eps : ℚ) (n : ℕ) : ℕ → ℕ → GHState → GHState × Bool
  | 0, _, s => (s, true)
  | r + 1, j, s =>
      let s1 := ghPass eps n j s
      if |ghM s1 j j| < eps then (s1, false)
      else ghChecked eps n r (j + 1) s1

/-- The heap version of `backwardSolve`'s inner loop. -/
def ghBackInner (i : ℕ) : ℕ → GHState → GHState
  | 0, s => s
  | c + 1, s =>
      ghBackInner i c
        { s with heap := s.heap.write s.rx i (ghX s i - ghM s i (i + c + 1) * ghX s (i + c + 1)) }

/-- The heap version of `backwardSolve`'s outer loop (in place on `x`). -/
def ghBackOuter (n : ℕ) : ℕ → GHState → GHState
  | 0, s => s
  | r + 1, s =>
      let s1 := ghBackInner r (n - 1 - r) s
      ghBackOuter n r { s1 with heap := s1.heap.write s1.rx r (ghX s1 r / ghM s1 r r) }

/-- Allocate the working copies `Acopy[i] = A[i].slice(0, n)`; returns the
heap and the spine of fresh row references. -/
def allocRows (n : ℕ) : Heap → List ℕ → Heap × List ℕ
  | h, [] => (h, [])
  | h, ra :: rest =>
      let p := h.alloc ((h.mem ra).take n)
      let q := allocRows n p.1 rest
      (q.1, p.2 :: q.2)

/-- The heap version of `Gauss(A, b)` (`Mat.eps` is the parameter `eps`):
dimension check, fresh working copies, checked elimination, in-place backward
substitution on the copy `x`.  Returns the final heap and `false` for a
thrown error. -/
def GaussH (eps : ℚ) (h0 : Heap) (rA : List ℕ) (rb : ℕ) : Heap × Bool :=
  let n := if 0 < rA.length then (h0.mem (rA.getD 0 0)).length else 0
  if n ≠ (h0.mem rb).length ∨ n ≠ rA.length then (h0, false)
  else
    let px := h0.alloc ((h0.mem rb).take n)
    let pc := allocRows n px.1 rA
    let s0 : GHState := { heap := pc.1, spine := pc.2, rx := px.2 }
    let pr := ghChecked eps n n 0 s0
    if pr.2 then
      ((ghBackOuter n n pr.1).heap, true)
    else
      (pr.1.heap, false)

/-- Invariant carried through the elimination: the heap agrees with the
original below `c0`, and all mutable locations (the copy rows and `x`) sit at
or above `c0`; the spine keeps its length `n`. -/
def ghOk (c0 n : ℕ) (h0 : Heap) (s : GHState) : Prop :=
  lowEq c0 h0 s.heap ∧ (∀ rr ∈ s.spine, c0 ≤ rr) ∧ c0 ≤ s.rx ∧ s.spine.length = n

theorem getD_mem_of_lt {l : List ℕ} {i : ℕ} (h : i < l.length) : l.getD i 0 ∈ l := by
  rw [List.getD_eq_getElem l 0 h]
  exact List.getElem_mem h

theorem mem_swapList {l : List ℕ} {i j : ℕ} (hi : i < l.length) (hj : j < l.length) :
    ∀ x ∈ swapList l i j, x ∈ l := by
  intro x hx
  unfold swapList at hx
  rcases List.mem_or_eq_of_mem_set hx with hx1 | rfl
  · rcases List.mem_or_eq_of_mem_set hx1 with hx2 | rfl
    · exact hx2
    · exact getD_mem_of_lt hj
  · exact getD_mem_of_lt hi

theorem ghOk_write_spine {c0 n : ℕ} {h0 : Heap} {s : GHState} (hs : ghOk c0 n h0 s)
    (i k : ℕ) (hi : i < n) (v : ℚ) :
    ghOk c0 n h0 { s with heap := s.heap.write (s.spine.getD i 0) k v } := by
  obtain ⟨hlow, hsp, hrx, hlen⟩ := hs
  refine ⟨lowEq_trans hlow (lowEq_write _ _ _ _ ?_), hsp, hrx, hlen⟩
  exact hsp _ (getD_mem_of_lt (by omega))

theorem ghOk_write_x {c0 n : ℕ} {h0 : Heap} {s : GHState} (hs : ghOk c0 n h0 s)
    (i : ℕ) (v : ℚ) :
    ghOk c0 n h0 { s with heap := s.heap.write s.rx i v } := by
  obtain ⟨hlow, hsp, hrx, hlen⟩ := hs
  exact ⟨lowEq_trans hlow (lowEq_write _ _ _ _ hrx), hsp, hrx, hlen⟩

theorem ghRowLoop_ok {c0 n : ℕ} {h0 : Heap} (i j : ℕ) (hi : i < n) :
    ∀ (c k : ℕ) (s : GHState), ghOk c0 n h0 s → ghOk c0 n h0 (ghRowLoop i j c k s) := by
  intro c
  induction c with
  | zero => exact fun k s hs => hs
  | succ c ih =>
      intro k s hs
      exact ih (k + 1) _ (ghOk_write_spine hs i k hi _)

theorem ghElimStep_ok {c0 n : ℕ} {h0 : Heap} (eps : ℚ) (i j : ℕ)
    (hi : i < n) (hj : j < n) (s : GHState) (hs : ghOk c0 n h0 s) :
    ghOk c0 n h0 (ghElimStep eps n i j s) := by
  unfold ghElimStep
  split_ifs with h1 h2
  · obtain ⟨hlow, hsp, hrx, hlen⟩ := hs
    have hsw : ghOk c0 n h0 { s with spine := swapList s.spine i j } := by
      refine ⟨hlow, ?_, hrx, ?_⟩
      · intro rr hrr
        exact hsp rr (mem_swapList (by omega) (by omega) rr hrr)
      · simp only [swapList, List.length_set]
        exact hlen
    obtain ⟨hlow2, hsp2, hrx2, hlen2⟩ := hsw
    refine ⟨?_, hsp2, hrx2, hlen2⟩
    exact lowEq_trans hlow2 (lowEq_trans (lowEq_write _ _ _ _ hrx2) (lowEq_write _ _ _ _ hrx2))
  · exact ghRowLoop_ok i j hi _ _ _ (ghOk_write_x (ghOk_write_spine hs i j hi _) i _)
  · exact hs

theorem ghColLoop_ok {c0 n : ℕ} {h0 : Heap} (eps : ℚ) (j : ℕ) (hj : j < n) :
    ∀ (d : ℕ), j + d < n → ∀ (s : GHState), ghOk c0 n h0 s →
      ghOk c0 n h0 (ghColLoop eps n j d s) := by
  intro d
  induction d with
  | zero => exact fun _ s hs => hs
  | succ d ih =>
      intro hd s hs
      exact ih (by omega) _ (ghElimStep_ok eps (j + d + 1) j (by omega) hj s hs)

theorem ghPass_ok {c0 n : ℕ} {h0 : Heap} (eps : ℚ) (j : ℕ) (hj : j < n)
    (s : GHState) (hs : ghOk c0 n h0 s) : ghOk c0 n h0 (ghPass eps n j s) := by
  unfold ghPass
  exact ghColLoop_ok eps j hj (n - 1 - j) (by omega) s hs

theorem ghChecked_ok {c0 n : ℕ} {h0 : Heap} (eps : ℚ) :
    ∀ (r j : ℕ), r + j ≤ n → ∀ (s : GHState), ghOk c0 n h0 s →
      ghOk c0 n h0 (ghChecked eps n r j s).1 := by
  intro r
  induction r with
  | zero => exact fun _ _ s hs => hs
  | succ r ih =>
      intro j hr s hs
      have hp := ghPass_ok eps j (by omega) s hs
      simp only [ghChecked]
      split_ifs with h1
      · exact hp
      · exact ih (j + 1) (by omega) _ hp

theorem ghBackInner_ok {c0 n : ℕ} {h0 : Heap} (i : ℕ) :
    ∀ (c : ℕ) (s : GHState), ghOk c0 n h0 s → ghOk c0 n h0 (ghBackInner i c s) := by
  intro c
  induction c with
  | zero => exact fun s hs => hs
  | succ c ih => exact fun s hs => ih _ (ghOk_write_x hs i _)

theorem ghBackOuter_ok {c0 n : ℕ} {h0 : Heap} :
    ∀ (r : ℕ) (s : GHState), ghOk c0 n h0 s → ghOk c0 n h0 (ghBackOuter n r s) := by
  intro r
  induction r with
  | zero => exact fun s hs => hs
  | succ r ih =>
      intro s hs
      exact ih _ (ghOk_write_x (ghBackInner_ok r _ s hs) r _)

theorem allocRows_props (n : ℕ) :
    ∀ (rs : List ℕ) (h : Heap),
      lowEq h.next h (allocRows n h rs).1
        ∧ (∀ rr ∈ (allocRows n h rs).2, h.next ≤ rr)
        ∧ h.next ≤ (allocRows n h rs).1.next
        ∧ (allocRows n h rs).2.length = rs.length := by
  intro rs
  induction rs with
  | nil => exact fun h => ⟨lowEq_refl _ _, by simp [allocRows], le_rfl, by simp [allocRows]⟩
  | cons ra rest ih =>
      intro h
      obtain ⟨i1, i2, i3, i4⟩ := ih (h.alloc ((h.mem ra).take n)).1
      have hnext : (h.alloc ((h.mem ra).take n)).1.next = h.next + 1 := rfl
      refine ⟨?_, ?_, ?_, ?_⟩
      · exact lowEq_trans (lowEq_alloc h _ le_rfl)
          (fun r hr => i1 r (by omega))
      · intro rr hrr
        simp only [allocRows, List.mem_cons] at hrr
        rcases hrr with rfl | hrr
        · exact le_rfl
        · have := i2 rr hrr
          omega
      · simp only [allocRows]
        omega
      · simp only [allocRows, List.length_cons, i4]

/-- C6: `Gauss` never mutates its arguments.  Every array existing before the
call (any reference below the allocation counter — in particular `A`'s rows
and `b`) holds the same values afterwards, whether the routine returns a
solution or throws: elimination and back-substitution operate only on the
freshly allocated copies. -/
theorem GaussH_no_mutation (eps : ℚ) (h0 : Heap) (rA : List ℕ) (rb : ℕ) (r : ℕ)
    (hr : r < h0.next) :
    ((GaussH eps h0 rA rb).1).mem r = h0.mem r := by
  simp only [GaussH]
  set n := if 0 < rA.length then (h0.mem (rA.getD 0 0)).length else 0 with hn
  by_cases hdim : n ≠ (h0.mem rb).length ∨ n ≠ rA.length
  · rw [if_pos hdim]
  · rw [if_neg hdim]
    obtain ⟨a1, a2, a3, a4⟩ := allocRows_props n rA (h0.alloc ((h0.mem rb).take n)).1
    have hnA : n = rA.length := by
      push_neg at hdim
      exact hdim.2
    have hs0 : ghOk h0.next n h0
        { heap := (allocRows n (h0.alloc ((h0.mem rb).take n)).1 rA).1,
          spine := (allocRows n (h0.alloc ((h0.mem rb).take n)).1 rA).2,
          rx := (h0.alloc ((h0.mem rb).take n)).2 } := by
      refine ⟨?_, ?_, le_rfl, ?_⟩
      · exact lowEq_trans (lowEq_alloc h0 _ le_rfl) (fun s hsr => a1 s (by
          have hh : (h0.alloc ((h0.mem rb).take n)).1.next = h0.next + 1 := rfl
          omega))
      · intro rr hrr
        have h2 := a2 rr hrr
        have hh : (h0.alloc ((h0.mem rb).take n)).1.next = h0.next + 1 := rfl
        omega
      · rw [a4, hnA]
    have hck := @ghChecked_ok h0.next n h0 eps n 0 (by omega) _ hs0
    by_cases hok : (ghChecked eps n n 0
        { heap := (allocRows n (h0.alloc ((h0.mem rb).take n)).1 rA).1,
          spine := (allocRows n (h0.alloc ((h0.mem rb).take n)).1 rA).2,
          rx := (h0.alloc ((h0.mem rb).take n)).2 }).2 = true
    · rw [if_pos hok]
      have hbo := @ghBackOuter_ok h0.next n h0 n _ hck
      exact hbo.1 r hr
    · rw [if_neg hok]
      exact hck.1 r hr

/-- Witness for C6 on the heap `{0 ↦ [1, 0], 1 ↦ [0, 1], 2 ↦ [1, 2]}` with
`A = [ref 0, ref 1]`, `b = ref 2`, reading back `A`'s first row. -/
theorem GaussH_no_mutation_witness :
    ((GaussH (1/1000000)
        ⟨fun r => if r = 0 then [1, 0] else if r = 1 then [0, 1]
          else if r = 2 then [1, 2] else [], 3⟩ [0, 1] 2).1).mem 0
      = (⟨fun r => if r = 0 then [1, 0] else if r = 1 then [0, 1]
          else if r = 2 then [1, 2] else [], 3⟩ : Heap).mem 0 :=
  GaussH_no_mutation (1/1000000) _ [0, 1] 2 0 (by norm_num)

/-! ## C7: `rungeKutta` (numerics.js lines 2487-2560) over the heap

`x` and `y` are arrays allocated once; each step allocates a fresh result row
and copies the current `x` into it before the stages run.  The integrand `f`
is pure (per the spec, caller-supplied functions are side-effect-free) and is
applied to the value of `y`; its returned vectors are stored by value in the
local `k`.  The string-to-preset tableau lookup is outside the model: the
tableau is passed explicitly.  Counted `for`-loops are structural recursions
on the remaining iteration count, carrying the current index. -/

/-- A Butcher tableau `{s, A, b, c}`. -/
structure Butcher where
  s : ℕ
  A : List (List ℚ)
  b : List ℚ
  c : List ℚ

/-- `for (e = 0; e < dim; e++) dst[e] = src[e]` (used for `x[e] = x0[e]` and
`result[r][e] = x[e]`). -/
def copyLoopH (dst src : ℕ) : ℕ → ℕ → Heap → Heap
  | 0, _, h => h
  | cnt + 1, e, h => copyLoopH dst src cnt (e + 1) (h.write dst e ((h.mem src).getD e 0))

/-- `for (e = 0; e < dim; e++) y[e] = 0.0`. -/
def zeroLoopH (ry : ℕ) : ℕ → ℕ → Heap → Heap
  | 0, _, h => h
  | cnt + 1, e, h => zeroLoopH ry cnt (e + 1) (h.write ry e 0)

/-- `for (e = 0; e < dim; e++) y[e] += coef * v[e]` (with `coef` the
pre-formed `A[j][l] * h` resp. `b[l]`, and `v = k[l]` a stored value). -/
def axpyLoopH (ry : ℕ) (coef : ℚ) (v : List ℚ) : ℕ → ℕ → Heap → Heap
  | 0, _, h => h
  | cnt + 1, e, h =>
      axpyLoopH ry coef v cnt (e + 1)
        (h.write ry e ((h.mem ry).getD e 0 + coef * v.getD e 0))

/-- `for (e = 0; e < dim; e++) y[e] += x[e]`. -/
def addXLoopH (ry rx : ℕ) : ℕ → ℕ → Heap → Heap
  | 0, _, h => h
  | cnt + 1, e, h =>
      addXLoopH ry rx cnt (e + 1)
        (h.write ry e ((h.mem ry).getD e 0 + (h.mem rx).getD e 0))

/-- `for (e = 0; e < dim; e++) x[e] = x[e] + h * y[e]`. -/
def xUpdateLoopH (rx ry : ℕ) (hstep : ℚ) : ℕ → ℕ → Heap → Heap
  | 0, _, h => h
  | cnt + 1, e, h =>
      xUpdateLoopH rx ry hstep cnt (e + 1)
        (h.write rx e ((h.mem rx).getD e 0 + hstep * (h.mem ry).getD e 0))

/-- `for (l = 0; l < j; l++) { for (e …) y[e] += A[j][l] * h * k[l][e] }`. -/
def rkLLoopH (ry : ℕ) (Arow : List ℚ) (hstep : ℚ) (k : List (List ℚ)) (dim : ℕ) :
    ℕ → ℕ → Heap → Heap
  | 0, _, h => h
  | cnt + 1, l, h =>
      rkLLoopH ry Arow hstep k dim cnt (l + 1)
        (axpyLoopH ry (Arow.getD l 0 * hstep) (k.getD l []) dim 0 h)

/-- `for (l = 0; l < s; l++) { for (e …) y[e] += b[l] * k[l][e] }`. -/
def rkBLoopH (ry : ℕ) (bvec : List ℚ) (k : List (List ℚ)) (dim : ℕ) :
    ℕ → ℕ → Heap → Heap
  | 0, _, h => h
  | cnt + 1, l, h =>
      rkBLoopH ry bvec k dim cnt (l + 1)
        (axpyLoopH ry (bvec.getD l 0) (k.getD l []) dim 0 h)

/-- The stage loop `for (j = 0; j < s; j++)`: zero `y`, accumulate the
previous stages, add `x`, push `f(t + c[j]*h, y)` onto `k`. -/
def rkStageLoopH (ry rx : ℕ) (bt : Butcher) (hstep t : ℚ) (f : ℚ → List ℚ → List ℚ)
    (dim : ℕ) : ℕ → ℕ → Heap → List (List ℚ) → Heap × List (List ℚ)
  | 0, _, h, k => (h, k)
  | cnt + 1, j, h, k =>
      let h1 := zeroLoopH ry dim 0 h
      let h2 := rkLLoopH ry (bt.A.getD j []) hstep k dim j 0 h1
      let h3 := addXLoopH ry rx dim 0 h2
      rkStageLoopH ry rx bt hstep t f dim cnt (j + 1) h3
        (k ++ [f (t + bt.c.getD j 0 * hstep) (h3.mem ry)])

/-- The step loop `for (i = 0; i < N; i++)`: record `x` into a fresh result
row, run the stages, assemble the weighted sum, advance `x` and `t`. -/
def rkStepLoopH (ry rx : ℕ) (bt : Butcher) (hstep : ℚ) (f : ℚ → List ℚ → List ℚ)
    (dim : ℕ) : ℕ → ℚ → Heap → List ℕ → Heap × List ℕ
  | 0, _, h, spine => (h, spine)
  | cnt + 1, t, h, spine =>
      let pr := h.alloc []
      let h2 := copyLoopH pr.2 rx dim 0 pr.1
      let ps := rkStageLoopH ry rx bt hstep t f dim bt.s 0 h2 []
      let h4 := zeroLoopH ry dim 0 ps.1
      let h5 := rkBLoopH ry bt.b ps.2 dim bt.s 0 h4
      let h6 := xUpdateLoopH rx ry hstep dim 0 h5
      rkStepLoopH ry rx bt hstep f dim cnt (t + hstep) h6 (spine ++ [pr.2])

/-- `rungeKutta(butcher, x0, I, N, f)` over the heap: `x0` is the reference
`rx0`; returns the final heap and the spine of the returned `result` array
(its rows' references). -/
def rungeKuttaH (bt : Butcher) (h0 : Heap) (rx0 : ℕ) (t0 t1 : ℚ) (N : ℕ)
    (f : ℚ → List ℚ → List ℚ) : Heap × List ℕ :=
  let hstep := (t1 - t0) / N
  let dim := (h0.mem rx0).length
  let p1 := h0.alloc []
  let p2 := p1.1.alloc []
  let h3 := copyLoopH p1.2 rx0 dim 0 p2.1
  rkStepLoopH p2.2 p1.2 bt hstep f dim N t0 h3 []

/-! The step function of the source, in pure form (the specification side of
C7): the same per-element folds the loops perform, over list values. -/

/-- One element-wise `y += coef * v` pass. -/
def vecAxpy (dim : ℕ) (coef : ℚ) (v y : List ℚ) : List ℚ :=
  (List.range dim).map (fun e => y.getD e 0 + coef * v.getD e 0)

/-- One element-wise `y += x` pass. -/
def vecAddTo (dim : ℕ) (x y : List ℚ) : List ℚ :=
  (List.range dim).map (fun e => y.getD e 0 + x.getD e 0)

/-- The ascending accumulation `for (l …) y += coefs l * ks[l]`. -/
def axpyFold (coefs : ℕ → ℚ) (ks : List (List ℚ)) (dim : ℕ) : ℕ → ℕ → List ℚ → List ℚ
  | 0, _, y => y
  | cnt + 1, l, y => axpyFold coefs ks dim cnt (l + 1) (vecAxpy dim (coefs l) (ks.getD l []) y)

/-- The argument `y` passed to stage `j`:
`Σ_{l<j} A[j][l]·h·k[l] + x`, element-wise over `dim` entries. -/
def rkStageY (Am : List (List ℚ)) (hstep : ℚ) (dim j : ℕ) (ks : List (List ℚ))
    (x : List ℚ) : List ℚ :=
  vecAddTo dim x (axpyFold (fun l => (Am.getD j []).getD l 0 * hstep) ks dim j 0
    (List.replicate dim 0))

/-- The stage values `k[0..j)`. -/
def rkKs (Am : List (List ℚ)) (cvec : List ℚ) (f : ℚ → List ℚ → List ℚ)
    (hstep t : ℚ) (dim : ℕ) (x : List ℚ) : ℕ → List (List ℚ)
  | 0 => []
  | j + 1 =>
      rkKs Am cvec f hstep t dim x j
        ++ [f (t + cvec.getD j 0 * hstep) (rkStageY Am hstep dim j (rkKs Am cvec f hstep t dim x j) x)]

/-- One Runge-Kutta step: `x + h · Σ_l b[l]·k[l]`, element-wise. -/
def rkStep (bt : Butcher) (hstep : ℚ) (f : ℚ → List ℚ → List ℚ) (t : ℚ) (dim : ℕ)
    (x : List ℚ) : List ℚ :=
  let ks := rkKs bt.A bt.c f hstep t dim x bt.s
  let y := axpyFold (fun l => bt.b.getD l 0) ks dim bt.s 0 (List.replicate dim 0)
  (List.range dim).map (fun e => x.getD e 0 + hstep * y.getD e 0)

/-- The state before the `(i+1)`-th step. -/
def rkIterX (bt : Butcher) (hstep : ℚ) (f : ℚ → List ℚ → List ℚ) (t0 : ℚ)
    (x0 : List ℚ) : ℕ → List ℚ
  | 0 => x0
  | i + 1 => rkStep bt hstep f (t0 + i * hstep) x0.length (rkIterX bt hstep f t0 x0 i)

/-! Elementary facts about `jsSet`, `Heap.write` and list surgery, used by the
loop lemmas below. -/

theorem jsSet_at_length (l : List ℚ) (v : ℚ) : jsSet l l.length v = l ++ [v] := by
  simp [jsSet]

theorem jsSet_at_length' (l : List ℚ) (v : ℚ) (i : ℕ) (hi : i = l.length) :
    jsSet l i v = l ++ [v] := by
  rw [hi, jsSet_at_length]

theorem Heap_write_mem_self (h : Heap) (r i : ℕ) (v : ℚ) :
    (h.write r i v).mem r = jsSet (h.mem r) i v := by
  simp [Heap.write]

theorem Heap_write_mem_ne (h : Heap) (r0 r i : ℕ) (v : ℚ) (hne : r ≠ r0) :
    (h.write r0 i v).mem r = h.mem r := by
  simp [Heap.write, hne]

theorem Heap_write_next (h : Heap) (r i : ℕ) (v : ℚ) :
    (h.write r i v).next = h.next := rfl

theorem Heap_alloc_mem_ne (h : Heap) (l : List ℚ) (r : ℕ) (hne : r ≠ h.next) :
    (h.alloc l).1.mem r = h.mem r := by
  simp [Heap.alloc, hne]

theorem Heap_alloc_mem_self (h : Heap) (l : List ℚ) : (h.alloc l).1.mem h.next = l := by
  simp [Heap.alloc]

theorem getD_append_at {α : Type} (l1 l2 : List α) (x d : α) :
    (l1 ++ x :: l2).getD l1.length d = x := by
  induction l1 with
  | nil => rfl
  | cons a t ih => simpa using ih

theorem set_append_at {α : Type} (l1 l2 : List α) (x v : α) :
    (l1 ++ x :: l2).set l1.length v = l1 ++ v :: l2 := by
  induction l1 with
  | nil => rfl
  | cons a t ih => simpa using ih

theorem set_append_at' {α : Type} (l1 l2 : List α) (x v : α) (i : ℕ)
    (hi : i = l1.length) : (l1 ++ x :: l2).set i v = l1 ++ v :: l2 := by
  rw [hi, set_append_at]

theorem getD_append_at' {α : Type} (l1 l2 : List α) (x d : α) (i : ℕ)
    (hi : i = l1.length) : (l1 ++ x :: l2).getD i d = x := by
  rw [hi, getD_append_at]

theorem map_getD_range (l : List ℚ) :
    (List.range l.length).map (fun i => l.getD i 0) = l := by
  apply List.ext_getElem
  · simp
  · intro i h1 h2
    simp only [List.getElem_map, List.getElem_range]
    exact (List.getD_eq_getElem l 0 h2).symm ▸ rfl

theorem vecAxpy_length (dim : ℕ) (coef : ℚ) (v y : List ℚ) :
    (vecAxpy dim coef v y).length = dim := by
  simp [vecAxpy]

theorem vecAddTo_length (dim : ℕ) (x y : List ℚ) :
    (vecAddTo dim x y).length = dim := by
  simp [vecAddTo]

theorem axpyFold_length (coefs : ℕ → ℚ) (ks : List (List ℚ)) (dim : ℕ) :
    ∀ (cnt l : ℕ) (y : List ℚ), y.length = dim →
      (axpyFold coefs ks dim cnt l y).length = dim := by
  intro cnt
  induction cnt with
  | zero => intro l y hy; simpa [axpyFold] using hy
  | succ n ih =>
      intro l y hy
      simp only [axpyFold]
      exact ih (l + 1) _ (vecAxpy_length dim _ _ y)

theorem rkIterX_length (bt : Butcher) (hstep : ℚ) (f : ℚ → List ℚ → List ℚ)
    (t0 : ℚ) (x0 : List ℚ) : ∀ i, (rkIterX bt hstep f t0 x0 i).length = x0.length := by
  intro i
  cases i with
  | zero => rfl
  | succ n => simp [rkIterX, rkStep]

/-- The copy loop fills `dst` with the first `e + cnt` entries of `src`
(the prefix up to `e` being already in place) and touches nothing else. -/
theorem copyLoopH_spec (dst src : ℕ) (hne : dst ≠ src) :
    ∀ (cnt e : ℕ) (h : Heap),
      h.mem dst = (List.range e).map (fun i => (h.mem src).getD i 0) →
      ((copyLoopH dst src cnt e h).mem dst
          = (List.range (e + cnt)).map (fun i => (h.mem src).getD i 0))
      ∧ (∀ r, r ≠ dst → (copyLoopH dst src cnt e h).mem r = h.mem r)
      ∧ (copyLoopH dst src cnt e h).next = h.next := by
  intro cnt
  induction cnt with
  | zero =>
      intro e h hpre
      exact ⟨by simpa using hpre, fun r _ => rfl, rfl⟩
  | succ n ih =>
      intro e h hpre
      simp only [copyLoopH]
      have hsrc : (h.write dst e ((h.mem src).getD e 0)).mem src = h.mem src :=
        Heap_write_mem_ne h dst src e _ (Ne.symm hne)
      have hlen : (h.mem dst).length = e := by simp [hpre]
      have hdst : (h.write dst e ((h.mem src).getD e 0)).mem dst
          = (List.range (e + 1)).map (fun i => (h.mem src).getD i 0) := by
        rw [Heap_write_mem_self, jsSet_at_length' _ _ _ hlen.symm, hpre,
          List.range_succ, List.map_append]
        simp
      have hpre' : (h.write dst e ((h.mem src).getD e 0)).mem dst
          = (List.range (e + 1)).map
              (fun i => ((h.write dst e ((h.mem src).getD e 0)).mem src).getD i 0) := by
        rw [hdst]; simp only [hsrc]
      obtain ⟨c1, c2, c3⟩ := ih (e + 1) _ hpre'
      refine ⟨?_, ?_, ?_⟩
      · rw [c1]
        simp only [hsrc]
        have : e + 1 + n = e + (n + 1) := by omega
        rw [this]
      · intro r hr
        rw [c2 r hr, Heap_write_mem_ne h dst r e _ hr]
      · rw [c3, Heap_write_next]

/-- The zero loop turns the array at `ry` into `dim` zeros provided its
current length is at most `dim`; nothing else changes. -/
theorem zeroLoopH_spec (ry : ℕ) (cur : List ℚ) :
    ∀ (cnt e : ℕ) (h : Heap),
      h.mem ry = List.replicate e 0 ++ cur.drop e →
      ((zeroLoopH ry cnt e h).mem ry
          = List.replicate (e + cnt) 0 ++ cur.drop (e + cnt))
      ∧ (∀ r, r ≠ ry → (zeroLoopH ry cnt e h).mem r = h.mem r)
      ∧ (zeroLoopH ry cnt e h).next = h.next := by
  intro cnt
  induction cnt with
  | zero =>
      intro e h hpre
      exact ⟨by simpa using hpre, fun r _ => rfl, rfl⟩
  | succ n ih =>
      intro e h hpre
      simp only [zeroLoopH]
      have hnext' : (h.write ry e 0).mem ry
          = List.replicate (e + 1) 0 ++ cur.drop (e + 1) := by
        rw [Heap_write_mem_self, hpre]
        by_cases he : e < cur.length
        · have hcons : cur.drop e = cur.getD e 0 :: cur.drop (e + 1) := by
            rw [List.getD_eq_getElem cur 0 he]
            exact List.drop_eq_getElem_cons he
          rw [hcons, jsSet]
          have hl : e < (List.replicate e (0 : ℚ) ++ cur.getD e 0 :: cur.drop (e + 1)).length := by
            simp
          rw [if_pos hl, set_append_at' _ _ _ _ e (by simp), List.replicate_succ']
          simp
        · have hdrop : cur.drop e = [] := by
            rw [List.drop_eq_nil_iff]
            omega
          have hdrop' : cur.drop (e + 1) = [] := by
            rw [List.drop_eq_nil_iff]
            omega
          rw [hdrop, hdrop', List.append_nil, List.append_nil,
            jsSet_at_length' _ _ _ (by simp), List.replicate_succ']
      obtain ⟨c1, c2, c3⟩ := ih (e + 1) _ hnext'
      refine ⟨?_, ?_, ?_⟩
      · rw [c1]
        have : e + 1 + n = e + (n + 1) := by omega
        rw [this]
      · intro r hr
        rw [c2 r hr, Heap_write_mem_ne h ry r e _ hr]
      · rw [c3, Heap_write_next]

/-- The in-place `y[e] += coef * v[e]` loop computes `vecAxpy` of the array's
prior contents `old`, and touches nothing else. -/
theorem axpyLoopH_spec (ry : ℕ) (coef : ℚ) (v old : List ℚ) :
    ∀ (cnt e : ℕ) (h : Heap),
      e + cnt = old.length →
      h.mem ry = (List.range e).map (fun i => old.getD i 0 + coef * v.getD i 0)
        ++ old.drop e →
      ((axpyLoopH ry coef v cnt e h).mem ry = vecAxpy old.length coef v old)
      ∧ (∀ r, r ≠ ry → (axpyLoopH ry coef v cnt e h).mem r = h.mem r)
      ∧ (axpyLoopH ry coef v cnt e h).next = h.next := by
  intro cnt
  induction cnt with
  | zero =>
      intro e h hcnt hpre
      have he : e = old.length := by omega
      subst he
      refine ⟨?_, fun r _ => rfl, rfl⟩
      show h.mem _ = _
      rw [hpre]
      simp [vecAxpy]
  | succ n ih =>
      intro e h hcnt hpre
      simp only [axpyLoopH]
      have he : e < old.length := by omega
      have hcons : old.drop e = old.getD e 0 :: old.drop (e + 1) := by
        rw [List.getD_eq_getElem old 0 he]
        exact List.drop_eq_getElem_cons he
      have hread : (h.mem ry).getD e 0 = old.getD e 0 := by
        rw [hpre, hcons]
        exact getD_append_at' _ _ _ _ e (by simp)
      have hwrite : (h.write ry e ((h.mem ry).getD e 0 + coef * v.getD e 0)).mem ry
          = (List.range (e + 1)).map (fun i => old.getD i 0 + coef * v.getD i 0)
            ++ old.drop (e + 1) := by
        rw [Heap_write_mem_self, hread, hpre, hcons, jsSet]
        have hl : e < ((List.range e).map (fun i => old.getD i 0 + coef * v.getD i 0)
            ++ old.getD e 0 :: old.drop (e + 1)).length := by
          simp
        rw [if_pos hl, set_append_at' _ _ _ _ e (by simp), List.range_succ,
          List.map_append]
        simp
      obtain ⟨c1, c2, c3⟩ := ih (e + 1) _ (by omega) hwrite
      refine ⟨c1, ?_, ?_⟩
      · intro r hr
        rw [c2 r hr, Heap_write_mem_ne h ry r e _ hr]
      · rw [c3, Heap_write_next]

/-- Entry form of `axpyLoopH_spec`: a full pass from index `0` over an array
currently holding `old` of length `dim`. -/
theorem axpyLoopH_run (ry : ℕ) (coef : ℚ) (v : List ℚ) (dim : ℕ) (old : List ℚ)
    (hlen : old.length = dim) (h : Heap) (hmem : h.mem ry = old) :
    ((axpyLoopH ry coef v dim 0 h).mem ry = vecAxpy dim coef v old)
    ∧ (∀ r, r ≠ ry → (axpyLoopH ry coef v dim 0 h).mem r = h.mem r)
    ∧ (axpyLoopH ry coef v dim 0 h).next = h.next := by
  obtain ⟨c1, c2, c3⟩ := axpyLoopH_spec ry coef v old dim 0 h (by omega)
    (by simpa using hmem)
  exact ⟨by rw [c1, hlen], c2, c3⟩

/-- The `y[e] += x[e]` loop computes `vecAddTo` of `y`'s prior contents with
the (unchanged) contents `xv` of `x`. -/
theorem addXLoopH_spec (ry rx : ℕ) (hne : rx ≠ ry) (xv old : List ℚ) :
    ∀ (cnt e : ℕ) (h : Heap),
      e + cnt = old.length →
      h.mem rx = xv →
      h.mem ry = (List.range e).map (fun i => old.getD i 0 + xv.getD i 0)
        ++ old.drop e →
      ((addXLoopH ry rx cnt e h).mem ry = vecAddTo old.length xv old)
      ∧ (∀ r, r ≠ ry → (addXLoopH ry rx cnt e h).mem r = h.mem r)
      ∧ (addXLoopH ry rx cnt e h).next = h.next := by
  intro cnt
  induction cnt with
  | zero =>
      intro e h hcnt _ hpre
      have he : e = old.length := by omega
      subst he
      refine ⟨?_, fun r _ => rfl, rfl⟩
      show h.mem _ = _
      rw [hpre]
      simp [vecAddTo]
  | succ n ih =>
      intro e h hcnt hx hpre
      simp only [addXLoopH]
      have he : e < old.length := by omega
      have hcons : old.drop e = old.getD e 0 :: old.drop (e + 1) := by
        rw [List.getD_eq_getElem old 0 he]
        exact List.drop_eq_getElem_cons he
      have hread : (h.mem ry).getD e 0 = old.getD e 0 := by
        rw [hpre, hcons]
        exact getD_append_at' _ _ _ _ e (by simp)
      have hwrite : (h.write ry e ((h.mem ry).getD e 0 + (h.mem rx).getD e 0)).mem ry
          = (List.range (e + 1)).map (fun i => old.getD i 0 + xv.getD i 0)
            ++ old.drop (e + 1) := by
        rw [Heap_write_mem_self, hread, hx, hpre, hcons, jsSet]
        have hl : e < ((List.range e).map (fun i => old.getD i 0 + xv.getD i 0)
            ++ old.getD e 0 :: old.drop (e + 1)).length := by
          simp
        rw [if_pos hl, set_append_at' _ _ _ _ e (by simp), List.range_succ,
          List.map_append]
        simp
      have hx' : (h.write ry e ((h.mem ry).getD e 0 + (h.mem rx).getD e 0)).mem rx = xv := by
        rw [Heap_write_mem_ne h ry rx e _ hne, hx]
      obtain ⟨c1, c2, c3⟩ := ih (e + 1) _ (by omega) hx' hwrite
      refine ⟨c1, ?_, ?_⟩
      · intro r hr
        rw [c2 r hr, Heap_write_mem_ne h ry r e _ hr]
      · rw [c3, Heap_write_next]

/-- The `x[e] = x[e] + h * y[e]` loop: `x` becomes the element-wise update of
its prior contents `old` with the (unchanged) contents `yv` of `y`. -/
theorem xUpdateLoopH_spec (rx ry : ℕ) (hne : ry ≠ rx) (hstep : ℚ) (yv old : List ℚ) :
    ∀ (cnt e : ℕ) (h : Heap),
      e + cnt = old.length →
      h.mem ry = yv →
      h.mem rx = (List.range e).map (fun i => old.getD i 0 + hstep * yv.getD i 0)
        ++ old.drop e →
      ((xUpdateLoopH rx ry hstep cnt e h).mem rx
          = (List.range old.length).map (fun i => old.getD i 0 + hstep * yv.getD i 0))
      ∧ (∀ r, r ≠ rx → (xUpdateLoopH rx ry hstep cnt e h).mem r = h.mem r)
      ∧ (xUpdateLoopH rx ry hstep cnt e h).next = h.next := by
  intro cnt
  induction cnt with
  | zero =>
      intro e h hcnt _ hpre
      have he : e = old.length := by omega
      subst he
      refine ⟨?_, fun r _ => rfl, rfl⟩
      show h.mem _ = _
      rw [hpre]
      simp
  | succ n ih =>
      intro e h hcnt hy hpre
      simp only [xUpdateLoopH]
      have he : e < old.length := by omega
      have hcons : old.drop e = old.getD e 0 :: old.drop (e + 1) := by
        rw [List.getD_eq_getElem old 0 he]
        exact List.drop_eq_getElem_cons he
      have hread : (h.mem rx).getD e 0 = old.getD e 0 := by
        rw [hpre, hcons]
        exact getD_append_at' _ _ _ _ e (by simp)
      have hwrite : (h.write rx e ((h.mem rx).getD e 0 + hstep * (h.mem ry).getD e 0)).mem rx
          = (List.range (e + 1)).map (fun i => old.getD i 0 + hstep * yv.getD i 0)
            ++ old.drop (e + 1) := by
        rw [Heap_write_mem_self, hread, hy, hpre, hcons, jsSet]
        have hl : e < ((List.range e).map (fun i => old.getD i 0 + hstep * yv.getD i 0)
            ++ old.getD e 0 :: old.drop (e + 1)).length := by
          simp
        rw [if_pos hl, set_append_at' _ _ _ _ e (by simp), List.range_succ,
          List.map_append]
        simp
      have hy' : (h.write rx e ((h.mem rx).getD e 0 + hstep * (h.mem ry).getD e 0)).mem ry = yv := by
        rw [Heap_write_mem_ne h rx ry e _ hne, hy]
      obtain ⟨c1, c2, c3⟩ := ih (e + 1) _ (by omega) hy' hwrite
      refine ⟨c1, ?_, ?_⟩
      · intro r hr
        rw [c2 r hr, Heap_write_mem_ne h rx r e _ hr]
      · rw [c3, Heap_write_next]

/-- The stage-accumulation loop `for (l …) { y += A[j][l]·h·k[l] }` computes
`axpyFold` of `y`'s prior contents. -/
theorem rkLLoopH_spec (ry : ℕ) (Arow : List ℚ) (hstep : ℚ) (k : List (List ℚ))
    (dim : ℕ) :
    ∀ (cnt l : ℕ) (h : Heap) (y0 : List ℚ),
      h.mem ry = y0 → y0.length = dim →
      ((rkLLoopH ry Arow hstep k dim cnt l h).mem ry
          = axpyFold (fun m => Arow.getD m 0 * hstep) k dim cnt l y0)
      ∧ (∀ r, r ≠ ry → (rkLLoopH ry Arow hstep k dim cnt l h).mem r = h.mem r)
      ∧ (rkLLoopH ry Arow hstep k dim cnt l h).next = h.next := by
  intro cnt
  induction cnt with
  | zero =>
      intro l h y0 hy hlen
      exact ⟨by simpa [axpyFold] using hy, fun r _ => rfl, rfl⟩
  | succ n ih =>
      intro l h y0 hy hlen
      simp only [rkLLoopH, axpyFold]
      obtain ⟨a1, a2, a3⟩ :=
        axpyLoopH_run ry (Arow.getD l 0 * hstep) (k.getD l []) dim y0 hlen h hy
      obtain ⟨c1, c2, c3⟩ := ih (l + 1) _ _ a1 (vecAxpy_length dim _ _ y0)
      refine ⟨c1, ?_, ?_⟩
      · intro r hr
        rw [c2 r hr, a2 r hr]
      · rw [c3, a3]

/-- The weighted-sum loop `for (l …) { y += b[l]·k[l] }` computes `axpyFold`
of `y`'s prior contents. -/
theorem rkBLoopH_spec (ry : ℕ) (bvec : List ℚ) (k : List (List ℚ)) (dim : ℕ) :
    ∀ (cnt l : ℕ) (h : Heap) (y0 : List ℚ),
      h.mem ry = y0 → y0.length = dim →
      ((rkBLoopH ry bvec k dim cnt l h).mem ry
          = axpyFold (fun m => bvec.getD m 0) k dim cnt l y0)
      ∧ (∀ r, r ≠ ry → (rkBLoopH ry bvec k dim cnt l h).mem r = h.mem r)
      ∧ (rkBLoopH ry bvec k dim cnt l h).next = h.next := by
  intro cnt
  induction cnt with
  | zero =>
      intro l h y0 hy hlen
      exact ⟨by simpa [axpyFold] using hy, fun r _ => rfl, rfl⟩
  | succ n ih =>
      intro l h y0 hy hlen
      simp only [rkBLoopH, axpyFold]
      obtain ⟨a1, a2, a3⟩ := axpyLoopH_run ry (bvec.getD l 0) (k.getD l []) dim y0 hlen h hy
      obtain ⟨c1, c2, c3⟩ := ih (l + 1) _ _ a1 (vecAxpy_length dim _ _ y0)
      refine ⟨c1, ?_, ?_⟩
      · intro r hr
        rw [c2 r hr, a2 r hr]
      · rw [c3, a3]

/-- A full zero pass from index 0: the array at `ry` (current length at most
`dim`) becomes `dim` zeros. -/
theorem zeroLoopH_run (ry dim : ℕ) (h : Heap) (hlen : (h.mem ry).length ≤ dim) :
    ((zeroLoopH ry dim 0 h).mem ry = List.replicate dim 0)
    ∧ (∀ r, r ≠ ry → (zeroLoopH ry dim 0 h).mem r = h.mem r)
    ∧ (zeroLoopH ry dim 0 h).next = h.next := by
  obtain ⟨c1, c2, c3⟩ := zeroLoopH_spec ry (h.mem ry) dim 0 h (by simp)
  refine ⟨?_, c2, c3⟩
  rw [c1]
  have : (h.mem ry).drop (0 + dim) = [] := by
    rw [List.drop_eq_nil_iff]
    omega
  rw [this]
  simp

/-- The stage loop: it only writes `y`, and the stage values it accumulates
are exactly `rkKs`. -/
theorem rkStageLoopH_spec (ry rx : ℕ) (hne : rx ≠ ry) (bt : Butcher)
    (hstep t : ℚ) (f : ℚ → List ℚ → List ℚ) (dim : ℕ) (x : List ℚ)
    (hxlen : x.length = dim) :
    ∀ (cnt j : ℕ) (h : Heap) (k : List (List ℚ)),
      h.mem rx = x → (h.mem ry).length ≤ dim →
      k = rkKs bt.A bt.c f hstep t dim x j →
      ((rkStageLoopH ry rx bt hstep t f dim cnt j h k).2
          = rkKs bt.A bt.c f hstep t dim x (j + cnt))
      ∧ (∀ r, r ≠ ry → (rkStageLoopH ry rx bt hstep t f dim cnt j h k).1.mem r = h.mem r)
      ∧ (rkStageLoopH ry rx bt hstep t f dim cnt j h k).1.next = h.next
      ∧ ((rkStageLoopH ry rx bt hstep t f dim cnt j h k).1.mem ry).length ≤ dim := by
  intro cnt
  induction cnt with
  | zero =>
      intro j h k hx hylen hk
      exact ⟨by simpa using hk, fun r _ => rfl, rfl, hylen⟩
  | succ n ih =>
      intro j h k hx hylen hk
      simp only [rkStageLoopH]
      obtain ⟨z1, z2, z3⟩ := zeroLoopH_run ry dim h hylen
      obtain ⟨l1, l2, l3⟩ := rkLLoopH_spec ry (bt.A.getD j []) hstep k dim j 0 _
        (List.replicate dim 0) z1 (by simp)
      have hx2 : (rkLLoopH ry (bt.A.getD j []) hstep k dim j 0
          (zeroLoopH ry dim 0 h)).mem rx = x := by
        rw [l2 rx hne, z2 rx hne, hx]
      have hacclen : (axpyFold (fun m => (bt.A.getD j []).getD m 0 * hstep) k dim j 0
          (List.replicate dim 0)).length = dim :=
        axpyFold_length _ k dim j 0 _ (by simp)
      obtain ⟨a1, a2, a3⟩ := addXLoopH_spec ry rx hne x
        (axpyFold (fun m => (bt.A.getD j []).getD m 0 * hstep) k dim j 0
          (List.replicate dim 0)) dim 0 _ (by omega) hx2 (by simpa using l1)
      have hyfin : (addXLoopH ry rx dim 0 (rkLLoopH ry (bt.A.getD j []) hstep k dim j 0
          (zeroLoopH ry dim 0 h))).mem ry = rkStageY bt.A hstep dim j k x := by
        rw [a1, rkStageY, hacclen]
      have hx3 : (addXLoopH ry rx dim 0 (rkLLoopH ry (bt.A.getD j []) hstep k dim j 0
          (zeroLoopH ry dim 0 h))).mem rx = x := by
        rw [a2 rx hne, hx2]
      have hk' : k ++ [f (t + bt.c.getD j 0 * hstep)
            ((addXLoopH ry rx dim 0 (rkLLoopH ry (bt.A.getD j []) hstep k dim j 0
              (zeroLoopH ry dim 0 h))).mem ry)]
          = rkKs bt.A bt.c f hstep t dim x (j + 1) := by
        rw [hyfin, hk]
        simp [rkKs]
      obtain ⟨c1, c2, c3, c4⟩ := ih (j + 1) _ _ hx3
        (by rw [hyfin]; rw [rkStageY, vecAddTo_length]) hk'
      refine ⟨?_, ?_, ?_, c4⟩
      · rw [c1]
        have : j + 1 + n = j + (n + 1) := by omega
        rw [this]
      · intro r hr
        rw [c2 r hr, a2 r hr, l2 r hr, z2 r hr]
      · rw [c3, a3, l3, z3]

theorem Heap_alloc_snd (h : Heap) (l : List ℚ) : (h.alloc l).2 = h.next := rfl

theorem Heap_alloc_next (h : Heap) (l : List ℚ) : (h.alloc l).1.next = h.next + 1 := rfl

/-- The main step loop: starting from a state whose `x` holds the `i`-th pure
iterate and whose recorded rows hold the earlier iterates, it extends the
row spine by `cnt` freshly allocated rows, so that row `j` holds the `j`-th
pure iterate, and it never writes below `c0`. -/
theorem rkStepLoopH_spec (c0 ry rx : ℕ) (bt : Butcher) (hstep : ℚ)
    (f : ℚ → List ℚ → List ℚ) (dim : ℕ) (x0 : List ℚ) (t0 : ℚ) (href : Heap)
    (hne : rx ≠ ry) (hrxc : c0 ≤ rx) (hryc : c0 ≤ ry) (hx0len : x0.length = dim) :
    ∀ (cnt i : ℕ) (h : Heap) (spine : List ℕ) (t : ℚ),
      lowEq c0 href h → rx < h.next → ry < h.next →
      h.mem rx = rkIterX bt hstep f t0 x0 i →
      (h.mem ry).length ≤ dim →
      t = t0 + (i : ℚ) * hstep →
      spine.length = i →
      (∀ j, j < i → h.mem (spine.getD j 0) = rkIterX bt hstep f t0 x0 j) →
      (∀ rr, rr ∈ spine → rr < h.next ∧ rr ≠ rx ∧ rr ≠ ry) →
      lowEq c0 href (rkStepLoopH ry rx bt hstep f dim cnt t h spine).1
      ∧ (rkStepLoopH ry rx bt hstep f dim cnt t h spine).2.length = i + cnt
      ∧ ∀ j, j < i + cnt →
          (rkStepLoopH ry rx bt hstep f dim cnt t h spine).1.mem
              ((rkStepLoopH ry rx bt hstep f dim cnt t h spine).2.getD j 0)
            = rkIterX bt hstep f t0 x0 j := by
  intro cnt
  induction cnt with
  | zero =>
      intro i h spine t hlow hrxn hryn hx hylen ht hsp hrows hrefs
      exact ⟨hlow, by simpa using hsp, fun j hj => hrows j (by omega)⟩
  | succ n ih =>
      intro i h spine t hlow hrxn hryn hx hylen ht hsp hrows hrefs
      subst ht
      simp only [rkStepLoopH, Heap_alloc_snd]
      have hc0next : c0 ≤ h.next := le_trans hrxc (le_of_lt hrxn)
      have hxilen : (rkIterX bt hstep f t0 x0 i).length = dim := by
        rw [rkIterX_length, hx0len]
      -- the fresh result row
      have h1rr : (h.alloc []).1.mem h.next = [] := Heap_alloc_mem_self h []
      have h1ne : ∀ r, r ≠ h.next → (h.alloc []).1.mem r = h.mem r :=
        fun r hr => Heap_alloc_mem_ne h [] r hr
      -- copy x into it
      obtain ⟨cp1, cp2, cp3⟩ := copyLoopH_spec h.next rx (by omega) dim 0
        (h.alloc []).1 (by simp [h1rr])
      have hx2 : (copyLoopH h.next rx dim 0 (h.alloc []).1).mem rx
          = rkIterX bt hstep f t0 x0 i := by
        rw [cp2 rx (by omega), h1ne rx (by omega), hx]
      have h2rr : (copyLoopH h.next rx dim 0 (h.alloc []).1).mem h.next
          = rkIterX bt hstep f t0 x0 i := by
        rw [cp1, h1ne rx (by omega), hx]
        rw [Nat.zero_add, ← hxilen, map_getD_range]
      have hylen2 : ((copyLoopH h.next rx dim 0 (h.alloc []).1).mem ry).length ≤ dim := by
        rw [cp2 ry (by omega), h1ne ry (by omega)]
        exact hylen
      -- the stages
      obtain ⟨s1, s2, s3, s4⟩ := rkStageLoopH_spec ry rx hne bt hstep
        (t0 + (i : ℚ) * hstep) f dim (rkIterX bt hstep f t0 x0 i) hxilen bt.s 0
        (copyLoopH h.next rx dim 0 (h.alloc []).1) [] hx2 hylen2 rfl
      have s1' : (rkStageLoopH ry rx bt hstep (t0 + (i : ℚ) * hstep) f dim bt.s 0
            (copyLoopH h.next rx dim 0 (h.alloc []).1) []).2
          = rkKs bt.A bt.c f hstep (t0 + (i : ℚ) * hstep) dim
              (rkIterX bt hstep f t0 x0 i) bt.s := by
        rw [s1, Nat.zero_add]
      -- zero y, then the weighted sum
      obtain ⟨z1, z2, z3⟩ := zeroLoopH_run ry dim _ s4
      obtain ⟨b1, b2, b3⟩ := rkBLoopH_spec ry bt.b
        (rkStageLoopH ry rx bt hstep (t0 + (i : ℚ) * hstep) f dim bt.s 0
          (copyLoopH h.next rx dim 0 (h.alloc []).1) []).2 dim bt.s 0 _
        (List.replicate dim 0) z1 (by simp)
      -- advance x
      have hx5 : (rkBLoopH ry bt.b
            (rkStageLoopH ry rx bt hstep (t0 + (i : ℚ) * hstep) f dim bt.s 0
              (copyLoopH h.next rx dim 0 (h.alloc []).1) []).2 dim bt.s 0
            (zeroLoopH ry dim 0
              (rkStageLoopH ry rx bt hstep (t0 + (i : ℚ) * hstep) f dim bt.s 0
                (copyLoopH h.next rx dim 0 (h.alloc []).1) []).1)).mem rx
          = rkIterX bt hstep f t0 x0 i := by
        rw [b2 rx hne, z2 rx hne, s2 rx hne, hx2]
      obtain ⟨u1, u2, u3⟩ := xUpdateLoopH_spec rx ry (Ne.symm hne) hstep
        (axpyFold (fun m => bt.b.getD m 0)
          ((rkStageLoopH ry rx bt hstep (t0 + (i : ℚ) * hstep) f dim bt.s 0
            (copyLoopH h.next rx dim 0 (h.alloc []).1) []).2) dim bt.s 0
          (List.replicate dim 0))
        (rkIterX bt hstep f t0 x0 i) dim 0 _ (by omega) b1 (by simp [hx5])
      have hx6 : (xUpdateLoopH rx ry hstep dim 0 (rkBLoopH ry bt.b
            (rkStageLoopH ry rx bt hstep (t0 + (i : ℚ) * hstep) f dim bt.s 0
              (copyLoopH h.next rx dim 0 (h.alloc []).1) []).2 dim bt.s 0
            (zeroLoopH ry dim 0
              (rkStageLoopH ry rx bt hstep (t0 + (i : ℚ) * hstep) f dim bt.s 0
                (copyLoopH h.next rx dim 0 (h.alloc []).1) []).1))).mem rx
          = rkIterX bt hstep f t0 x0 (i + 1) := by
        rw [u1, hxilen]
        simp only [rkIterX, rkStep]
        rw [hx0len, s1']
      have hfr6 : ∀ r, r ≠ rx → r ≠ ry → r ≠ h.next →
          (xUpdateLoopH rx ry hstep dim 0 (rkBLoopH ry bt.b
            (rkStageLoopH ry rx bt hstep (t0 + (i : ℚ) * hstep) f dim bt.s 0
              (copyLoopH h.next rx dim 0 (h.alloc []).1) []).2 dim bt.s 0
            (zeroLoopH ry dim 0
              (rkStageLoopH ry rx bt hstep (t0 + (i : ℚ) * hstep) f dim bt.s 0
                (copyLoopH h.next rx dim 0 (h.alloc []).1) []).1))).mem r = h.mem r := by
        intro r hr1 hr2 hr3
        rw [u2 r hr1, b2 r hr2, z2 r hr2, s2 r hr2, cp2 r hr3, h1ne r hr3]
      have hnext6 : (xUpdateLoopH rx ry hstep dim 0 (rkBLoopH ry bt.b
            (rkStageLoopH ry rx bt hstep (t0 + (i : ℚ) * hstep) f dim bt.s 0
              (copyLoopH h.next rx dim 0 (h.alloc []).1) []).2 dim bt.s 0
            (zeroLoopH ry dim 0
              (rkStageLoopH ry rx bt hstep (t0 + (i : ℚ) * hstep) f dim bt.s 0
                (copyLoopH h.next rx dim 0 (h.alloc []).1) []).1))).next = h.next + 1 := by
        rw [u3, b3, z3, s3, cp3, Heap_alloc_next]
      have hlow6 : lowEq c0 href (xUpdateLoopH rx ry hstep dim 0 (rkBLoopH ry bt.b
            (rkStageLoopH ry rx bt hstep (t0 + (i : ℚ) * hstep) f dim bt.s 0
              (copyLoopH h.next rx dim 0 (h.alloc []).1) []).2 dim bt.s 0
            (zeroLoopH ry dim 0
              (rkStageLoopH ry rx bt hstep (t0 + (i : ℚ) * hstep) f dim bt.s 0
                (copyLoopH h.next rx dim 0 (h.alloc []).1) []).1))) := by
        intro r hr
        rw [hfr6 r (by omega) (by omega) (by omega)]
        exact hlow r hr
      have hylen6 : ((xUpdateLoopH rx ry hstep dim 0 (rkBLoopH ry bt.b
            (rkStageLoopH ry rx bt hstep (t0 + (i : ℚ) * hstep) f dim bt.s 0
              (copyLoopH h.next rx dim 0 (h.alloc []).1) []).2 dim bt.s 0
            (zeroLoopH ry dim 0
              (rkStageLoopH ry rx bt hstep (t0 + (i : ℚ) * hstep) f dim bt.s 0
                (copyLoopH h.next rx dim 0 (h.alloc []).1) []).1))).mem ry).length ≤ dim := by
        rw [u2 ry (Ne.symm hne), b1,
          axpyFold_length _ _ dim bt.s 0 _ (by simp)]
      have hrow6 : (xUpdateLoopH rx ry hstep dim 0 (rkBLoopH ry bt.b
            (rkStageLoopH ry rx bt hstep (t0 + (i : ℚ) * hstep) f dim bt.s 0
              (copyLoopH h.next rx dim 0 (h.alloc []).1) []).2 dim bt.s 0
            (zeroLoopH ry dim 0
              (rkStageLoopH ry rx bt hstep (t0 + (i : ℚ) * hstep) f dim bt.s 0
                (copyLoopH h.next rx dim 0 (h.alloc []).1) []).1))).mem h.next
          = rkIterX bt hstep f t0 x0 i := by
        rw [u2 _ (by omega), b2 _ (by omega), z2 _ (by omega), s2 _ (by omega), h2rr]
      have hrows6 : ∀ j, j < i + 1 →
          (xUpdateLoopH rx ry hstep dim 0 (rkBLoopH ry bt.b
            (rkStageLoopH ry rx bt hstep (t0 + (i : ℚ) * hstep) f dim bt.s 0
              (copyLoopH h.next rx dim 0 (h.alloc []).1) []).2 dim bt.s 0
            (zeroLoopH ry dim 0
              (rkStageLoopH ry rx bt hstep (t0 + (i : ℚ) * hstep) f dim bt.s 0
                (copyLoopH h.next rx dim 0 (h.alloc []).1) []).1))).mem
              ((spine ++ [h.next]).getD j 0)
            = rkIterX bt hstep f t0 x0 j := by
        intro j hj
        by_cases hji : j < i
        · have hget : (spine ++ [h.next]).getD j 0 = spine.getD j 0 :=
            List.getD_append _ _ 0 j (by omega)
          rw [hget]
          obtain ⟨hlt, hnrx, hnry⟩ := hrefs (spine.getD j 0)
            (@getD_mem_of_lt spine j (by omega))
          rw [hfr6 _ hnrx hnry (by omega), hrows j hji]
        · have hji' : j = i := by omega
          subst hji'
          have hget : (spine ++ [h.next]).getD j 0 = h.next :=
            getD_append_at' spine [] h.next 0 j hsp.symm
          rw [hget, hrow6]
      have hrefs6 : ∀ rr, rr ∈ spine ++ [h.next] →
          rr < (xUpdateLoopH rx ry hstep dim 0 (rkBLoopH ry bt.b
            (rkStageLoopH ry rx bt hstep (t0 + (i : ℚ) * hstep) f dim bt.s 0
              (copyLoopH h.next rx dim 0 (h.alloc []).1) []).2 dim bt.s 0
            (zeroLoopH ry dim 0
              (rkStageLoopH ry rx bt hstep (t0 + (i : ℚ) * hstep) f dim bt.s 0
                (copyLoopH h.next rx dim 0 (h.alloc []).1) []).1))).next
            ∧ rr ≠ rx ∧ rr ≠ ry := by
        intro rr hrr
        rw [hnext6]
        rcases List.mem_append.mp hrr with hin | hin
        · obtain ⟨hlt, h1, h2⟩ := hrefs rr hin
          exact ⟨by omega, h1, h2⟩
        · have : rr = h.next := by simpa using hin
          subst this
          exact ⟨by omega, by omega, by omega⟩
      obtain ⟨A1, A2, A3⟩ := ih (i + 1) _ (spine ++ [h.next])
        (t0 + (i : ℚ) * hstep + hstep) hlow6 (by rw [hnext6]; omega)
        (by rw [hnext6]; omega) hx6 hylen6 (by push_cast; ring)
        (by simpa using hsp) hrows6 hrefs6
      refine ⟨A1, ?_, fun j hj => A3 j (by omega)⟩
      rw [A2]
      omega

/-- C7: for every Butcher tableau, initial vector `x0` (held at reference
`rx0`), interval `[t0, t1]`, positive step count `N` and derivative function
`f`, `rungeKutta` returns exactly `N` state vectors; row `i` holds the state
before the `(i+1)`-th step (the `i`-fold pure Runge-Kutta iterate) — in
particular row `0` equals `x0` — and the array `x0` itself is unmodified. -/
theorem rungeKutta_result_rows (bt : Butcher) (h0 : Heap) (rx0 : ℕ) (t0 t1 : ℚ)
    (N : ℕ) (f : ℚ → List ℚ → List ℚ) (hrx0 : rx0 < h0.next) (hN : 1 ≤ N) :
    (rungeKuttaH bt h0 rx0 t0 t1 N f).2.length = N
    ∧ (∀ i, i < N →
        (rungeKuttaH bt h0 rx0 t0 t1 N f).1.mem
            ((rungeKuttaH bt h0 rx0 t0 t1 N f).2.getD i 0)
          = rkIterX bt ((t1 - t0) / (N : ℚ)) f t0 (h0.mem rx0) i)
    ∧ (rungeKuttaH bt h0 rx0 t0 t1 N f).1.mem
          ((rungeKuttaH bt h0 rx0 t0 t1 N f).2.getD 0 0) = h0.mem rx0
    ∧ (rungeKuttaH bt h0 rx0 t0 t1 N f).1.mem rx0 = h0.mem rx0 := by
  simp only [rungeKuttaH, Heap_alloc_snd, Heap_alloc_next]
  have hmem2 : ∀ r, r ≠ h0.next → r ≠ h0.next + 1 →
      ((h0.alloc []).1.alloc []).1.mem r = h0.mem r := by
    intro r h1 h2
    rw [Heap_alloc_mem_ne _ _ _ (by rw [Heap_alloc_next]; omega),
      Heap_alloc_mem_ne _ _ _ (by omega)]
  obtain ⟨cp1, cp2, cp3⟩ := copyLoopH_spec h0.next rx0 (by omega)
    (h0.mem rx0).length 0 ((h0.alloc []).1.alloc []).1
    (by
      rw [Heap_alloc_mem_ne _ _ _ (by rw [Heap_alloc_next]; omega),
        Heap_alloc_mem_self]
      simp)
  have hx3 : (copyLoopH h0.next rx0 (h0.mem rx0).length 0
      ((h0.alloc []).1.alloc []).1).mem h0.next = h0.mem rx0 := by
    rw [cp1, hmem2 rx0 (by omega) (by omega), Nat.zero_add, map_getD_range]
  have hry3 : (copyLoopH h0.next rx0 (h0.mem rx0).length 0
      ((h0.alloc []).1.alloc []).1).mem (h0.next + 1) = [] := by
    rw [cp2 _ (by omega),
      show h0.next + 1 = (h0.alloc []).1.next from rfl, Heap_alloc_mem_self]
  have hnext3 : (copyLoopH h0.next rx0 (h0.mem rx0).length 0
      ((h0.alloc []).1.alloc []).1).next = h0.next + 2 := by
    rw [cp3, Heap_alloc_next, Heap_alloc_next]
  obtain ⟨A1, A2, A3⟩ := rkStepLoopH_spec h0.next (h0.next + 1) h0.next bt
    ((t1 - t0) / (N : ℚ)) f (h0.mem rx0).length (h0.mem rx0) t0 h0
    (by omega) le_rfl (by omega) rfl N 0
    (copyLoopH h0.next rx0 (h0.mem rx0).length 0 ((h0.alloc []).1.alloc []).1)
    [] t0
    (by
      intro r hr
      rw [cp2 r (by omega), hmem2 r (by omega) (by omega)])
    (by omega) (by omega) hx3 (by rw [hry3]; simp) (by push_cast; ring) rfl
    (fun j hj => absurd hj (by omega)) (fun rr hrr => absurd hrr (List.not_mem_nil rr))
  refine ⟨by simpa using A2, fun i hi => A3 i (by omega), ?_, ?_⟩
  · exact A3 0 (by omega)
  · exact A1 rx0 hrx0

theorem rungeKutta_result_rows_witness :
    ((0 : ℕ) < (⟨fun r => if r = 0 then [1] else [], 1⟩ : Heap).next ∧ (1 : ℕ) ≤ 1)
    ∧ ((rungeKuttaH ⟨1, [[0]], [1], [0]⟩ ⟨fun r => if r = 0 then [1] else [], 1⟩
          0 0 1 1 (fun _ x => x)).2.length = 1
      ∧ (∀ i, i < 1 →
          (rungeKuttaH ⟨1, [[0]], [1], [0]⟩ ⟨fun r => if r = 0 then [1] else [], 1⟩
              0 0 1 1 (fun _ x => x)).1.mem
              ((rungeKuttaH ⟨1, [[0]], [1], [0]⟩ ⟨fun r => if r = 0 then [1] else [], 1⟩
                0 0 1 1 (fun _ x => x)).2.getD i 0)
            = rkIterX ⟨1, [[0]], [1], [0]⟩ ((1 - 0) / ((1 : ℕ) : ℚ)) (fun _ x => x) 0
                ((⟨fun r => if r = 0 then [1] else [], 1⟩ : Heap).mem 0) i)
      ∧ (rungeKuttaH ⟨1, [[0]], [1], [0]⟩ ⟨fun r => if r = 0 then [1] else [], 1⟩
            0 0 1 1 (fun _ x => x)).1.mem
            ((rungeKuttaH ⟨1, [[0]], [1], [0]⟩ ⟨fun r => if r = 0 then [1] else [], 1⟩
              0 0 1 1 (fun _ x => x)).2.getD 0 0)
          = (⟨fun r => if r = 0 then [1] else [], 1⟩ : Heap).mem 0
      ∧ (rungeKuttaH ⟨1, [[0]], [1], [0]⟩ ⟨fun r => if r = 0 then [1] else [], 1⟩
            0 0 1 1 (fun _ x => x)).1.mem 0
          = (⟨fun r => if r = 0 then [1] else [], 1⟩ : Heap).mem 0) :=
  ⟨⟨by decide, by decide⟩,
    rungeKutta_result_rows ⟨1, [[0]], [1], [0]⟩
      ⟨fun r => if r = 0 then [1] else [], 1⟩ 0 0 1 1 (fun _ x => x)
      (by decide) (by decide)⟩

/-! ## C9: `RamerDouglasPeucker` (numerics.js lines 2912-3041)

A point is the pair of its two screen coordinates, each a number or `NaN`
(`isNaN(c[1] + c[2])` holds iff either coordinate is `NaN`).  Reading
`pts[k]` out of range yields `undefined`, whose coordinate reads we model as
`NaN` (such reads occur only on paths none of the theorems below take).
`findSplit` returns `[-1.0, 0]`, `[NaN, k]` or `[Math.sqrt(dist), f]`; the
three shapes are an inductive, with the last carrying the *squared*
distance, and the single comparison `result[0] > eps` performed on it via
`eps < 0 ∨ eps² < dist` — equivalent to `√dist > eps` since `dist ≥ 0`.
The unbounded recursion of `RDP` (it diverges e.g. for `eps < -1`) is run on
explicit fuel, `none` meaning non-termination. -/

/-- A point: the two screen coordinates `scrCoords[1]`, `scrCoords[2]`. -/
def RPoint : Type := JVal × JVal

/-- `isNaN(c[1] + c[2])`. -/
def pIsNaN (p : RPoint) : Bool :=
  match p with
  | (JVal.nan, _) => true
  | (_, JVal.nan) => true
  | _ => false

/-- First screen coordinate of a (non-`NaN`) point. -/
def pX (p : RPoint) : ℚ :=
  match p.1 with
  | JVal.num a => a
  | JVal.nan => 0

/-- Second screen coordinate of a (non-`NaN`) point. -/
def pY (p : RPoint) : ℚ :=
  match p.2 with
  | JVal.num a => a
  | JVal.nan => 0

/-- `pts[k]` with JS out-of-range semantics (see the section comment). -/
def ptAt (P : List RPoint) (k : ℤ) : RPoint :=
  if 0 ≤ k then P.getD k.toNat (JVal.nan, JVal.nan) else (JVal.nan, JVal.nan)

/-- The three result shapes of `findSplit`. -/
inductive SplitRes where
  | neg1
  | nanAt (k : ℤ)
  | dist (dsq : ℚ) (f : ℤ)
deriving DecidableEq

/-- The squared distance `d` computed for interior point `(ckx, cky)` against
the chord from `(cix, ciy)` to `(cjx, cjy)` (the loop body of `findSplit`). -/
def chordD (matEps cix ciy cjx cjy ckx cky : ℚ) : ℚ :=
  let x0 := ckx - cix
  let y0 := cky - ciy
  let x1 := cjx - cix
  let y1 := cjy - ciy
  let den := x1 * x1 + y1 * y1
  if matEps ≤ den then
    let lbda0 := (x0 * x1 + y0 * y1) / den
    let lbda := if lbda0 < 0 then 0 else if 1 < lbda0 then 1 else lbda0
    (x0 - lbda * x1) * (x0 - lbda * x1) + (y0 - lbda * y1) * (y0 - lbda * y1)
  else
    x0 * x0 + y0 * y0

/-- The `for (k = i+1; k < j; k++)` scan of `findSplit`, carrying the current
maximum `dist` and its index `f`. -/
def fsLoop (P : List RPoint) (cix ciy cjx cjy matEps : ℚ) :
    ℕ → ℤ → ℚ → ℤ → SplitRes
  | 0, _, dist, f => SplitRes.dist dist f
  | cnt + 1, k, dist, f =>
      let ck := ptAt P k
      if pIsNaN ck then SplitRes.nanAt k
      else
        let d := chordD matEps cix ciy cjx cjy (pX ck) (pY ck)
        if dist < d then fsLoop P cix ciy cjx cjy matEps cnt (k + 1) d k
        else fsLoop P cix ciy cjx cjy matEps cnt (k + 1) dist f

/-- `findSplit(pts, i, j)`. -/
def findSplit (P : List RPoint) (matEps : ℚ) (i j : ℤ) : SplitRes :=
  if j - i < 2 then SplitRes.neg1
  else
    let ci := ptAt P i
    let cj := ptAt P j
    if pIsNaN ci then SplitRes.nanAt i
    else if pIsNaN cj then SplitRes.nanAt j
    else fsLoop P (pX ci) (pY ci) (pX cj) (pY cj) matEps (j - i - 1).toNat (i + 1) 0 i

/-- The `do { ++k } while (k <= j && isNaN(...))` advance in the `NaN` branch
of `RDP`. -/
def nanSkip (P : List RPoint) (j : ℤ) (k : ℤ) : ℤ :=
  if k + 1 ≤ j ∧ pIsNaN (ptAt P (k + 1)) = true then nanSkip P j (k + 1) else k + 1
termination_by (j - k).toNat
decreasing_by omega

/-- `RDP(pts, i, j, eps, newPts)` on fuel, returning the sequence of points
it pushes (`none` = the recursion does not terminate within `fuel`). -/
def RDPF (P : List RPoint) (matEps eps : ℚ) : ℕ → ℤ → ℤ → Option (List RPoint)
  | 0, _, _ => none
  | fuel + 1, i, j =>
      match findSplit P matEps i j with
      | SplitRes.nanAt k =>
          (RDPF P matEps eps fuel i (k - 1)).bind (fun l1 =>
            let k2 := nanSkip P j k
            let mid := if k2 ≤ j then [ptAt P k, ptAt P k2] else [ptAt P k]
            (RDPF P matEps eps fuel (k2 + 1) j).bind (fun l2 =>
              some (l1 ++ mid ++ l2)))
      | SplitRes.neg1 =>
          if eps < -1 then
            (RDPF P matEps eps fuel i 0).bind (fun l1 =>
              (RDPF P matEps eps fuel 0 j).bind (fun l2 => some (l1 ++ l2)))
          else some [ptAt P j]
      | SplitRes.dist dsq f =>
          if eps < 0 ∨ eps * eps < dsq then
            (RDPF P matEps eps fuel i f).bind (fun l1 =>
              (RDPF P matEps eps fuel f j).bind (fun l2 => some (l1 ++ l2)))
          else some [ptAt P j]

/-- The trailing `while (k > i && isNaN(...)) k -= 1` scan. -/
def lastScan (P : List RPoint) (i : ℤ) (k : ℤ) : ℤ :=
  if i < k ∧ pIsNaN (ptAt P k) = true then lastScan P i (k - 1) else k
termination_by (k - i).toNat
decreasing_by omega

/-- `RamerDouglasPeucker(pts, eps)` (with `Mat.eps` the parameter `matEps`,
and on fuel for the inner recursion). -/
def RamerDouglasPeucker (P : List RPoint) (matEps eps : ℚ) (fuel : ℕ) :
    Option (List RPoint) :=
  let len : ℤ := P.length
  let i : ℤ := P.findIdx (fun p => !(pIsNaN p))
  let k := lastScan P i (len - 1)
  if i > k ∨ i = len then some []
  else (RDPF P matEps eps fuel i k).map (fun l => ptAt P i :: l)

/-- The index skeleton of `RDP` on a `NaN`-free range: the indices of the
points `RDP` pushes (specification side for the idempotence proof). -/
def rdpIdx (P : List RPoint) (matEps eps : ℚ) : ℕ → ℤ → ℤ → Option (List ℤ)
  | 0, _, _ => none
  | fuel + 1, i, j =>
      match findSplit P matEps i j with
      | SplitRes.nanAt _ => none
      | SplitRes.neg1 => if eps < -1 then none else some [j]
      | SplitRes.dist dsq f =>
          if eps < 0 ∨ eps * eps < dsq then
            (rdpIdx P matEps eps fuel i f).bind (fun K1 =>
              (rdpIdx P matEps eps fuel f j).bind (fun K2 => some (K1 ++ K2)))
          else some [j]

/-- Shorthand for a numeric point. -/
def pq (a b : ℚ) : RPoint := (JVal.num a, JVal.num b)

/-- The input of the idempotence counterexample. -/
def rdpPex : List RPoint :=
  [pq 3 3, (JVal.nan, JVal.nan), pq 0 2, pq (-2) 1, pq 2 (-3), pq 3 (-1)]

/-- First simplification of `rdpPex` at `eps = 1`. -/
def rdpPex1 : List RPoint :=
  [pq 3 3, pq 3 3, (JVal.nan, JVal.nan), pq 0 2, pq 2 (-3), pq 3 (-1)]

/-- Second simplification: the point `(2, -3)` is additionally dropped. -/
def rdpPex2 : List RPoint :=
  [pq 3 3, pq 3 3, (JVal.nan, JVal.nan), pq 0 2, pq 3 (-1)]

theorem rdpPexAt0 : ptAt rdpPex 0 = pq 3 3 := rfl

theorem rdpPexAt1 : ptAt rdpPex 1 = (JVal.nan, JVal.nan) := rfl

theorem rdpPexAt2 : ptAt rdpPex 2 = pq 0 2 := rfl

theorem rdpPexAt3 : ptAt rdpPex 3 = pq (-2) 1 := rfl

theorem rdpPexAt4 : ptAt rdpPex 4 = pq 2 (-3) := rfl

theorem rdpPexAt5 : ptAt rdpPex 5 = pq 3 (-1) := rfl

theorem rdpPex1At0 : ptAt rdpPex1 0 = pq 3 3 := rfl

theorem rdpPex1At1 : ptAt rdpPex1 1 = pq 3 3 := rfl

theorem rdpPex1At2 : ptAt rdpPex1 2 = (JVal.nan, JVal.nan) := rfl

theorem rdpPex1At3 : ptAt rdpPex1 3 = pq 0 2 := rfl

theorem rdpPex1At4 : ptAt rdpPex1 4 = pq 2 (-3) := rfl

theorem rdpPex1At5 : ptAt rdpPex1 5 = pq 3 (-1) := rfl

theorem rdpPex_lastScan : lastScan rdpPex 0 5 = 5 := by
  rw [lastScan]
  norm_num [rdpPexAt5, pIsNaN, pq]

theorem rdpPex1_lastScan : lastScan rdpPex1 0 5 = 5 := by
  rw [lastScan]
  norm_num [rdpPex1At5, pIsNaN, pq]

theorem rdpPex_nanSkip : nanSkip rdpPex 5 1 = 2 := by
  rw [nanSkip]
  norm_num [rdpPexAt2, pIsNaN, pq]

theorem rdpPex1_nanSkip : nanSkip rdpPex1 5 2 = 3 := by
  rw [nanSkip]
  norm_num [rdpPex1At3, pIsNaN, pq]

theorem rdpPex_findIdx : List.findIdx (fun p => !(pIsNaN p)) rdpPex = 0 := by
  norm_num [rdpPex, List.findIdx_cons, pIsNaN, pq]

theorem rdpPex_length : rdpPex.length = 6 := rfl

theorem rdp_n1 : RDPF rdpPex (1 / 1000000) 1 7 0 0 = some [pq 3 3] := by
  have hfs : findSplit rdpPex (1 / 1000000) 0 0 = SplitRes.neg1 := by
    norm_num [findSplit]
  rw [show (7 : ℕ) = 6 + 1 from rfl, RDPF, hfs]
  norm_num [rdpPexAt0]

theorem rdp_n2 : RDPF rdpPex (1 / 1000000) 1 6 3 4 = some [pq 2 (-3)] := by
  have hfs : findSplit rdpPex (1 / 1000000) 3 4 = SplitRes.neg1 := by
    norm_num [findSplit]
  rw [show (6 : ℕ) = 5 + 1 from rfl, RDPF, hfs]
  norm_num [rdpPexAt4]

theorem rdp_n3 : RDPF rdpPex (1 / 1000000) 1 6 4 5 = some [pq 3 (-1)] := by
  have hfs : findSplit rdpPex (1 / 1000000) 4 5 = SplitRes.neg1 := by
    norm_num [findSplit]
  rw [show (6 : ℕ) = 5 + 1 from rfl, RDPF, hfs]
  norm_num [rdpPexAt5]

theorem rdp_n4 : RDPF rdpPex (1 / 1000000) 1 7 3 5
    = some [pq 2 (-3), pq 3 (-1)] := by
  have hfs : findSplit rdpPex (1 / 1000000) 3 5 = SplitRes.dist (4176 / 841) 4 := by
    norm_num [findSplit, fsLoop, chordD, pIsNaN, pX, pY, pq, Int.toNat_ofNat,
      rdpPexAt3, rdpPexAt4, rdpPexAt5]
  rw [show (7 : ℕ) = 6 + 1 from rfl, RDPF, hfs]
  norm_num [rdp_n2, rdp_n3]

theorem rdp_n5 : RDPF rdpPex (1 / 1000000) 1 8 0 5
    = some [pq 3 3, (JVal.nan, JVal.nan), pq 0 2, pq 2 (-3), pq 3 (-1)] := by
  have hfs : findSplit rdpPex (1 / 1000000) 0 5 = SplitRes.nanAt 1 := by
    norm_num [findSplit, fsLoop, chordD, pIsNaN, pX, pY, pq, Int.toNat_ofNat,
      rdpPexAt0, rdpPexAt1, rdpPexAt5]
  rw [show (8 : ℕ) = 7 + 1 from rfl, RDPF, hfs]
  norm_num [rdpPex_nanSkip, rdp_n1, rdp_n4, rdpPexAt1, rdpPexAt2]

theorem rdpPex_run1 : RamerDouglasPeucker rdpPex (1 / 1000000) 1 8 = some rdpPex1 := by
  norm_num [RamerDouglasPeucker, rdpPex_findIdx, rdpPex_length, rdpPex_lastScan,
    rdp_n5, rdpPexAt0, rdpPex1]

theorem rdpPex1_findIdx : List.findIdx (fun p => !(pIsNaN p)) rdpPex1 = 0 := by
  norm_num [rdpPex1, List.findIdx_cons, pIsNaN, pq]

theorem rdpPex1_length : rdpPex1.length = 6 := rfl

theorem rdp_m1 : RDPF rdpPex1 (1 / 1000000) 1 7 0 1 = some [pq 3 3] := by
  have hfs : findSplit rdpPex1 (1 / 1000000) 0 1 = SplitRes.neg1 := by
    norm_num [findSplit]
  rw [show (7 : ℕ) = 6 + 1 from rfl, RDPF, hfs]
  norm_num [rdpPex1At1]

theorem rdp_m2 : RDPF rdpPex1 (1 / 1000000) 1 7 4 5 = some [pq 3 (-1)] := by
  have hfs : findSplit rdpPex1 (1 / 1000000) 4 5 = SplitRes.neg1 := by
    norm_num [findSplit]
  rw [show (7 : ℕ) = 6 + 1 from rfl, RDPF, hfs]
  norm_num [rdpPex1At5]

theorem rdp_m3 : RDPF rdpPex1 (1 / 1000000) 1 8 0 5
    = some [pq 3 3, (JVal.nan, JVal.nan), pq 0 2, pq 3 (-1)] := by
  have hfs : findSplit rdpPex1 (1 / 1000000) 0 5 = SplitRes.nanAt 2 := by
    norm_num [findSplit, fsLoop, chordD, pIsNaN, pX, pY, pq, Int.toNat_ofNat,
      rdpPex1At0, rdpPex1At1, rdpPex1At2, rdpPex1At5]
  rw [show (8 : ℕ) = 7 + 1 from rfl, RDPF, hfs]
  norm_num [rdpPex1_nanSkip, rdp_m1, rdp_m2, rdpPex1At2, rdpPex1At3]

theorem rdpPex1_run2 : RamerDouglasPeucker rdpPex1 (1 / 1000000) 1 8 = some rdpPex2 := by
  norm_num [RamerDouglasPeucker, rdpPex1_findIdx, rdpPex1_length, rdpPex1_lastScan,
    rdp_m3, rdpPex1At0, rdpPex2]

/-- C9 (counterexample): `RamerDouglasPeucker` is *not* idempotent on inputs
with `NaN` points: on the six-point list `rdpPex` with `eps = 1` (and
`Mat.eps = 10⁻⁶`) the first run keeps the point `(2, -3)`, the second run
drops it. -/
theorem RamerDouglasPeucker_not_idempotent :
    RamerDouglasPeucker rdpPex (1 / 1000000) 1 8 = some rdpPex1
    ∧ RamerDouglasPeucker rdpPex1 (1 / 1000000) 1 8 = some rdpPex2
    ∧ rdpPex2 ≠ rdpPex1 := by
  refine ⟨rdpPex_run1, rdpPex1_run2, ?_⟩
  intro h
  have hlen := congrArg List.length h
  simp [rdpPex1, rdpPex2] at hlen

/-! Support for the amended idempotence theorem: `chordD` is a sum of two
squares in either branch; `fsLoop` on a `NaN`-free range returns the running
maximum together with the *first* index attaining it. -/

theorem chordD_nonneg (matEps cix ciy cjx cjy ckx cky : ℚ) :
    0 ≤ chordD matEps cix ciy cjx cjy ckx cky := by
  simp only [chordD]
  split_ifs <;> exact add_nonneg (mul_self_nonneg _) (mul_self_nonneg _)

theorem ptAt_mem (P : List RPoint) (m : ℤ) (h0 : 0 ≤ m) (hm : m < (P.length : ℤ)) :
    ptAt P m ∈ P := by
  have hlt : m.toNat < P.length := by omega
  rw [ptAt, if_pos h0, List.getD_eq_getElem P _ hlt]
  exact List.getElem_mem hlt

theorem ptAt_map (P : List RPoint) (L : List ℤ) (m : ℤ) (h0 : 0 ≤ m)
    (hm : m < (L.length : ℤ)) :
    ptAt (List.map (ptAt P) L) m = ptAt P (L.getD m.toNat 0) := by
  have hlt : m.toNat < L.length := by omega
  rw [ptAt, if_pos h0, List.getD_eq_getElem _ _ (by simpa using hlt),
    List.getElem_map, List.getD_eq_getElem L _ hlt]

theorem getD_append_left {α : Type} (l1 l2 : List α) (d : α) (n : ℕ)
    (h : n < l1.length) : (l1 ++ l2).getD n d = l1.getD n d := by
  rw [List.getD_eq_getElem _ _ (by simp; omega), List.getD_eq_getElem l1 _ h]
  exact List.getElem_append_left h

theorem getD_append_right_at {α : Type} (l1 l2 : List α) (d : α) (n : ℕ)
    (h : l1.length ≤ n) : (l1 ++ l2).getD n d = l2.getD (n - l1.length) d := by
  by_cases h2 : n - l1.length < l2.length
  · rw [List.getD_eq_getElem _ _ (by simp; omega), List.getD_eq_getElem l2 _ h2]
    rw [List.getElem_append_right h]
  · rw [List.getD_eq_default _ _ (by simp; omega), List.getD_eq_default _ _ (by omega)]

theorem getD_last_of_ne_nil {α : Type} (l : List α) (d : α) (h : l ≠ []) :
    l.getD (l.length - 1) d = l.getLastD d := by
  induction l with
  | nil => exact absurd rfl h
  | cons a t ih =>
      cases t with
      | nil => rfl
      | cons b u =>
          rw [List.getLastD_cons]
          have : (a :: b :: u).length - 1 = (b :: u).length - 1 + 1 := by
            simp
          rw [this, List.getD_cons_succ]
          exact ih (by simp)

/-- On a `NaN`-free range the scan returns `SplitRes.dist`, with the running
maximum and — when it exceeded the initial value — the *first* index that
attains it. -/
theorem fsLoop_char (P : List RPoint) (cix ciy cjx cjy matEps : ℚ) :
    ∀ (cnt : ℕ) (k : ℤ) (dist : ℚ) (f : ℤ),
      (∀ m, k ≤ m → m < k + cnt → pIsNaN (ptAt P m) = false) →
      ∃ D F, fsLoop P cix ciy cjx cjy matEps cnt k dist f = SplitRes.dist D F
        ∧ dist ≤ D
        ∧ (∀ m, k ≤ m → m < k + cnt →
            chordD matEps cix ciy cjx cjy (pX (ptAt P m)) (pY (ptAt P m)) ≤ D)
        ∧ ((F = f ∧ D = dist)
           ∨ (k ≤ F ∧ F < k + cnt
              ∧ chordD matEps cix ciy cjx cjy (pX (ptAt P F)) (pY (ptAt P F)) = D
              ∧ dist < D
              ∧ ∀ m, k ≤ m → m < F →
                  chordD matEps cix ciy cjx cjy (pX (ptAt P m)) (pY (ptAt P m)) < D)) := by
  intro cnt
  induction cnt with
  | zero =>
      intro k dist f _
      exact ⟨dist, f, rfl, le_rfl, fun m h1 h2 => absurd h2 (by push_cast; omega),
        Or.inl ⟨rfl, rfl⟩⟩
  | succ n ih =>
      intro k dist f hn
      have hk : pIsNaN (ptAt P k) = false := hn k le_rfl (by push_cast; omega)
      simp only [fsLoop, hk, Bool.false_eq_true, if_false]
      by_cases hlt : dist < chordD matEps cix ciy cjx cjy (pX (ptAt P k)) (pY (ptAt P k))
      · rw [if_pos hlt]
        obtain ⟨D, F, e1, e2, e3, e4⟩ := ih (k + 1)
          (chordD matEps cix ciy cjx cjy (pX (ptAt P k)) (pY (ptAt P k))) k
          (fun m h1 h2 => hn m (by omega) (by push_cast at h2 ⊢; omega))
        refine ⟨D, F, e1, le_of_lt (lt_of_lt_of_le hlt e2), ?_, ?_⟩
        · intro m h1 h2
          rcases eq_or_lt_of_le h1 with rfl | h1'
          · exact e2
          · exact e3 m (by omega) (by push_cast at h2 ⊢; omega)
        · rcases e4 with ⟨rfl, rfl⟩ | ⟨h1, h2, h3, h4, h5⟩
          · exact Or.inr ⟨le_rfl, by push_cast; omega, rfl, hlt,
              fun m hm1 hm2 => absurd hm2 (by omega)⟩
          · refine Or.inr ⟨by omega, by push_cast at h2 ⊢; omega, h3,
              lt_trans hlt h4, ?_⟩
            intro m hm1 hm2
            rcases eq_or_lt_of_le hm1 with rfl | hm1'
            · exact h4
            · exact h5 m (by omega) hm2
      · rw [if_neg hlt]
        obtain ⟨D, F, e1, e2, e3, e4⟩ := ih (k + 1) dist f
          (fun m h1 h2 => hn m (by omega) (by push_cast at h2 ⊢; omega))
        refine ⟨D, F, e1, e2, ?_, ?_⟩
        · intro m h1 h2
          rcases eq_or_lt_of_le h1 with rfl | h1'
          · exact le_trans (le_of_not_lt hlt) e2
          · exact e3 m (by omega) (by push_cast at h2 ⊢; omega)
        · rcases e4 with hl | ⟨h1, h2, h3, h4, h5⟩
          · exact Or.inl hl
          · refine Or.inr ⟨by omega, by push_cast at h2 ⊢; omega, h3, h4, ?_⟩
            intro m hm1 hm2
            rcases eq_or_lt_of_le hm1 with rfl | hm1'
            · exact lt_of_le_of_lt (le_of_not_lt hlt) h4
            · exact h5 m (by omega) hm2

/-- If no remaining distance exceeds the running maximum, the accumulator
survives to the end. -/
theorem fsLoop_stable (P : List RPoint) (cix ciy cjx cjy matEps : ℚ) :
    ∀ (cnt : ℕ) (k : ℤ) (dist : ℚ) (f : ℤ),
      (∀ m, k ≤ m → m < k + cnt → pIsNaN (ptAt P m) = false) →
      (∀ m, k ≤ m → m < k + cnt →
        chordD matEps cix ciy cjx cjy (pX (ptAt P m)) (pY (ptAt P m)) ≤ dist) →
      fsLoop P cix ciy cjx cjy matEps cnt k dist f = SplitRes.dist dist f := by
  intro cnt
  induction cnt with
  | zero => intro k dist f _ _; rfl
  | succ n ih =>
      intro k dist f hn hle
      have hk : pIsNaN (ptAt P k) = false := hn k le_rfl (by push_cast; omega)
      simp only [fsLoop, hk, Bool.false_eq_true, if_false]
      rw [if_neg (not_lt.mpr (hle k le_rfl (by push_cast; omega)))]
      exact ih (k + 1) dist f (fun m h1 h2 => hn m (by omega) (by push_cast at h2 ⊢; omega))
        (fun m h1 h2 => hle m (by omega) (by push_cast at h2 ⊢; omega))

/-- If some index `t` attains value `D`, every earlier index is strictly
below `D`, every index is at most `D`, and the accumulator starts below `D`,
the scan ends exactly at `(D, t)`. -/
theorem fsLoop_hits (P : List RPoint) (cix ciy cjx cjy matEps : ℚ) (D : ℚ) (t : ℤ) :
    ∀ (cnt : ℕ) (k : ℤ) (dist : ℚ) (f : ℤ),
      (∀ m, k ≤ m → m < k + cnt → pIsNaN (ptAt P m) = false) →
      k ≤ t → t < k + cnt →
      chordD matEps cix ciy cjx cjy (pX (ptAt P t)) (pY (ptAt P t)) = D →
      dist < D →
      (∀ m, k ≤ m → m < t →
        chordD matEps cix ciy cjx cjy (pX (ptAt P m)) (pY (ptAt P m)) < D) →
      (∀ m, k ≤ m → m < k + cnt →
        chordD matEps cix ciy cjx cjy (pX (ptAt P m)) (pY (ptAt P m)) ≤ D) →
      fsLoop P cix ciy cjx cjy matEps cnt k dist f = SplitRes.dist D t := by
  intro cnt
  induction cnt with
  | zero =>
      intro k dist f _ h1 h2 _ _ _ _
      exact absurd h2 (by push_cast; omega)
  | succ n ih =>
      intro k dist f hn h1 h2 hD hdist hlt hle
      have hk : pIsNaN (ptAt P k) = false := hn k le_rfl (by push_cast; omega)
      simp only [fsLoop, hk, Bool.false_eq_true, if_false]
      rcases eq_or_lt_of_le h1 with rfl | h1'
      · rw [hD, if_pos hdist]
        exact fsLoop_stable P cix ciy cjx cjy matEps n (k + 1) D k
          (fun m hm1 hm2 => hn m (by omega) (by push_cast at hm2 ⊢; omega))
          (fun m hm1 hm2 => hle m (by omega) (by push_cast at hm2 ⊢; omega))
      · have hklt : chordD matEps cix ciy cjx cjy (pX (ptAt P k)) (pY (ptAt P k)) < D :=
          hlt k le_rfl h1'
        by_cases hcmp : dist < chordD matEps cix ciy cjx cjy (pX (ptAt P k)) (pY (ptAt P k))
        · rw [if_pos hcmp]
          exact ih (k + 1) _ k
            (fun m hm1 hm2 => hn m (by omega) (by push_cast at hm2 ⊢; omega))
            (by omega) (by push_cast at h2 ⊢; omega) hD hklt
            (fun m hm1 hm2 => hlt m (by omega) hm2)
            (fun m hm1 hm2 => hle m (by omega) (by push_cast at hm2 ⊢; omega))
        · rw [if_neg hcmp]
          exact ih (k + 1) dist f
            (fun m hm1 hm2 => hn m (by omega) (by push_cast at hm2 ⊢; omega))
            (by omega) (by push_cast at h2 ⊢; omega) hD hdist
            (fun m hm1 hm2 => hlt m (by omega) hm2)
            (fun m hm1 hm2 => hle m (by omega) (by push_cast at hm2 ⊢; omega))

/-- `findSplit` on a `NaN`-free span of length at least 2. -/
theorem findSplit_char (P : List RPoint) (matEps : ℚ) (i j : ℤ) (h2 : 2 ≤ j - i)
    (hn : ∀ m, i ≤ m → m ≤ j → pIsNaN (ptAt P m) = false) :
    ∃ D F, findSplit P matEps i j = SplitRes.dist D F ∧ 0 ≤ D
      ∧ (∀ m, i < m → m < j →
          chordD matEps (pX (ptAt P i)) (pY (ptAt P i)) (pX (ptAt P j)) (pY (ptAt P j))
            (pX (ptAt P m)) (pY (ptAt P m)) ≤ D)
      ∧ ((F = i ∧ D = 0)
         ∨ (i < F ∧ F < j
            ∧ chordD matEps (pX (ptAt P i)) (pY (ptAt P i)) (pX (ptAt P j)) (pY (ptAt P j))
                (pX (ptAt P F)) (pY (ptAt P F)) = D
            ∧ 0 < D
            ∧ ∀ m, i < m → m < F →
                chordD matEps (pX (ptAt P i)) (pY (ptAt P i)) (pX (ptAt P j)) (pY (ptAt P j))
                  (pX (ptAt P m)) (pY (ptAt P m)) < D)) := by
  have hi : pIsNaN (ptAt P i) = false := hn i le_rfl (by omega)
  have hj : pIsNaN (ptAt P j) = false := hn j (by omega) le_rfl
  have hcnt : i + 1 + ((j - i - 1).toNat : ℤ) = j := by omega
  obtain ⟨D, F, e1, e2, e3, e4⟩ := fsLoop_char P (pX (ptAt P i)) (pY (ptAt P i))
    (pX (ptAt P j)) (pY (ptAt P j)) matEps (j - i - 1).toNat (i + 1) 0 i
    (fun m hm1 hm2 => hn m (by omega) (by rw [hcnt] at hm2; omega))
  rw [hcnt] at e3 e4
  refine ⟨D, F, ?_, e2, fun m hm1 hm2 => e3 m (by omega) hm2, ?_⟩
  · rw [findSplit, if_neg (by omega)]
    simp only [hi, hj, Bool.false_eq_true, if_false]
    exact e1
  · rcases e4 with ⟨hF, hD⟩ | ⟨hF1, hF2, hF3, hF4, hF5⟩
    · exact Or.inl ⟨hF, hD⟩
    · exact Or.inr ⟨by omega, hF2, hF3, hF4, fun m hm1 hm2 => hF5 m (by omega) hm2⟩

theorem findSplit_dist_imp (P : List RPoint) (matEps : ℚ) (i j : ℤ) (D : ℚ) (F : ℤ)
    (h : findSplit P matEps i j = SplitRes.dist D F) : 2 ≤ j - i := by
  by_contra hc
  rw [findSplit, if_pos (by omega)] at h
  cases h

/-- The scan outcome is determined by the distance profile: if `F` strictly
inside `(i, j)` attains `D > 0`, all earlier interior indices are strictly
below `D` and all interior indices are at most `D`, then `findSplit` returns
exactly `(D, F)`. -/
theorem findSplit_determined (P : List RPoint) (matEps : ℚ) (i j F : ℤ) (D : ℚ)
    (h2 : 2 ≤ j - i)
    (hn : ∀ m, i ≤ m → m ≤ j → pIsNaN (ptAt P m) = false)
    (hF1 : i < F) (hF2 : F < j)
    (hF3 : chordD matEps (pX (ptAt P i)) (pY (ptAt P i)) (pX (ptAt P j)) (pY (ptAt P j))
        (pX (ptAt P F)) (pY (ptAt P F)) = D)
    (hD : 0 < D)
    (hlt : ∀ m, i < m → m < F →
        chordD matEps (pX (ptAt P i)) (pY (ptAt P i)) (pX (ptAt P j)) (pY (ptAt P j))
          (pX (ptAt P m)) (pY (ptAt P m)) < D)
    (hle : ∀ m, i < m → m < j →
        chordD matEps (pX (ptAt P i)) (pY (ptAt P i)) (pX (ptAt P j)) (pY (ptAt P j))
          (pX (ptAt P m)) (pY (ptAt P m)) ≤ D) :
    findSplit P matEps i j = SplitRes.dist D F := by
  have hi : pIsNaN (ptAt P i) = false := hn i le_rfl (by omega)
  have hj : pIsNaN (ptAt P j) = false := hn j (by omega) le_rfl
  have hcnt : i + 1 + ((j - i - 1).toNat : ℤ) = j := by omega
  rw [findSplit, if_neg (by omega)]
  simp only [hi, hj, Bool.false_eq_true, if_false]
  exact fsLoop_hits P _ _ _ _ matEps D F (j - i - 1).toNat (i + 1) 0 i
    (fun m hm1 hm2 => hn m (by omega) (by rw [hcnt] at hm2; omega))
    (by omega) (by rw [hcnt]; omega) hF3 hD
    (fun m hm1 hm2 => hlt m (by omega) hm2)
    (fun m hm1 hm2 => hle m (by omega) (by rw [hcnt] at hm2; omega))

theorem getLastD_append_of_ne_nil {α : Type} (l2 : List α) (h : l2 ≠ []) :
    ∀ (l1 : List α) (d : α), (l1 ++ l2).getLastD d = l2.getLastD d := by
  intro l1
  induction l1 with
  | nil => intro d; rfl
  | cons a t ih =>
      intro d
      rw [List.cons_append, List.getLastD_cons, ih a,
        List.getLastD_eq_getLast? a l2, List.getLastD_eq_getLast? d l2]
      cases hgl : l2.getLast? with
      | none => exact absurd (List.getLast?_eq_none_iff.mp hgl) h
      | some z => rfl

/-- Structure of the index skeleton: nonempty, ends at `j`, entries in
`(i, j]` (in `[i, j]` when `i = j`), strictly increasing. -/
theorem rdpIdx_props (P : List RPoint) (matEps eps : ℚ) (heps : 0 ≤ eps)
    (hnP : ∀ m, 0 ≤ m → m < (P.length : ℤ) → pIsNaN (ptAt P m) = false) :
    ∀ (fuel : ℕ) (i j : ℤ) (K : List ℤ),
      0 ≤ i → i ≤ j → j < (P.length : ℤ) →
      rdpIdx P matEps eps fuel i j = some K →
      K ≠ [] ∧ K.getLastD 0 = j ∧ (∀ m ∈ K, i ≤ m ∧ m ≤ j)
      ∧ (i < j → ∀ m ∈ K, i < m) ∧ K.Chain' (· < ·) := by
  intro fuel
  induction fuel with
  | zero => intro i j K _ _ _ h; cases h
  | succ n ih =>
      intro i j K h0 hij hjl h
      by_cases h2 : j - i < 2
      · have hfs : findSplit P matEps i j = SplitRes.neg1 := by
          rw [findSplit, if_pos h2]
        simp only [rdpIdx, hfs] at h
        rw [if_neg (by intro hc; linarith)] at h
        obtain rfl : ([j] : List ℤ) = K := by simpa using h
        refine ⟨by simp, rfl, by simp; omega, fun hlt => by simp; omega, List.chain'_singleton j⟩
      · obtain ⟨D, F, e1, e2, e3, e4⟩ := findSplit_char P matEps i j (by omega)
          (fun m hm1 hm2 => hnP m (by omega) (by omega))
        rcases e4 with ⟨rfl, rfl⟩ | ⟨hF1, hF2, hF3, hF4, hF5⟩
        · -- maximum stayed 0: the accept branch fires
          simp only [rdpIdx, e1] at h
          rw [if_neg (by
            rintro (hc | hc)
            · linarith
            · exact absurd hc (not_lt.mpr (mul_self_nonneg eps)))] at h
          obtain rfl : ([j] : List ℤ) = K := by simpa using h
          refine ⟨by simp, rfl, by simp; omega, fun hlt => by simp; omega,
            List.chain'_singleton j⟩
        · simp only [rdpIdx, e1] at h
          by_cases hsplit : eps * eps < D
          · rw [if_pos (Or.inr hsplit)] at h
            rcases hK1 : rdpIdx P matEps eps n i F with _ | K1
            · rw [hK1] at h; cases h
            rcases hK2 : rdpIdx P matEps eps n F j with _ | K2
            · rw [hK1, hK2] at h; cases h
            rw [hK1, hK2] at h
            obtain rfl : K1 ++ K2 = K := by simpa using h
            obtain ⟨p1, p2, p3, p4, p5⟩ := ih i F K1 h0 (by omega) (by omega) hK1
            obtain ⟨q1, q2, q3, q4, q5⟩ := ih F j K2 (by omega) (by omega) hjl hK2
            refine ⟨by simp [q1], getLastD_append_of_ne_nil K2 q1 K1 0 ▸ q2, ?_, ?_, ?_⟩
            · intro m hm
              rcases List.mem_append.mp hm with hm' | hm'
              · have := p3 m hm'
                omega
              · have := q3 m hm'
                omega
            · intro hlt m hm
              rcases List.mem_append.mp hm with hm' | hm'
              · exact p4 hF1 m hm'
              · have := q4 hF2 m hm'
                omega
            · refine List.Chain'.append p5 q5 ?_
              intro x hx y hy
              have hyF : F < y := q4 hF2 y (List.mem_of_mem_head? hy)
              have hxF : x = F := by
                cases hgl : K1.getLast? with
                | none => exact absurd (List.getLast?_eq_none_iff.mp hgl) p1
                | some z =>
                    rw [hgl] at hx
                    have hz : z = x := by simpa using hx
                    have h1 : K1.getLastD 0 = z := by
                      rw [List.getLastD_eq_getLast? 0 K1, hgl]
                      rfl
                    omega
              omega
          · rw [if_neg (by
              rintro (hc | hc)
              · linarith
              · exact hsplit hc)] at h
            obtain rfl : ([j] : List ℤ) = K := by simpa using h
            refine ⟨by simp, rfl, by simp; omega, fun hlt => by simp; omega,
              List.chain'_singleton j⟩

/-- On a `NaN`-free list with `eps ≥ 0` the recursion terminates: any fuel
exceeding the span length yields a result. -/
theorem rdpIdx_some (P : List RPoint) (matEps eps : ℚ) (heps : 0 ≤ eps)
    (hnP : ∀ m, 0 ≤ m → m < (P.length : ℤ) → pIsNaN (ptAt P m) = false) :
    ∀ (fuel : ℕ) (i j : ℤ), 0 ≤ i → i ≤ j → j < (P.length : ℤ) →
      (j - i).toNat < fuel →
      ∃ K, rdpIdx P matEps eps fuel i j = some K := by
  intro fuel
  induction fuel with
  | zero => intro i j _ _ _ hf; omega
  | succ n ih =>
      intro i j h0 hij hjl hf
      by_cases h2 : j - i < 2
      · have hfs : findSplit P matEps i j = SplitRes.neg1 := by
          rw [findSplit, if_pos h2]
        exact ⟨[j], by simp only [rdpIdx, hfs]; rw [if_neg (by intro hc; linarith)]⟩
      · obtain ⟨D, F, e1, e2, e3, e4⟩ := findSplit_char P matEps i j (by omega)
          (fun m hm1 hm2 => hnP m (by omega) (by omega))
        rcases e4 with ⟨rfl, rfl⟩ | ⟨hF1, hF2, hF3, hF4, hF5⟩
        · refine ⟨[j], ?_⟩
          simp only [rdpIdx, e1]
          rw [if_neg (by
            rintro (hc | hc)
            · linarith
            · exact absurd hc (not_lt.mpr (mul_self_nonneg eps)))]
        · by_cases hsplit : eps * eps < D
          · obtain ⟨K1, hK1⟩ := ih i F h0 (by omega) (by omega) (by omega)
            obtain ⟨K2, hK2⟩ := ih F j (by omega) (by omega) hjl (by omega)
            refine ⟨K1 ++ K2, ?_⟩
            simp only [rdpIdx, e1]
            rw [if_pos (Or.inr hsplit), hK1, hK2]
            rfl
          · refine ⟨[j], ?_⟩
            simp only [rdpIdx, e1]
            rw [if_neg (by
              rintro (hc | hc)
              · linarith
              · exact hsplit hc)]

/-- On a `NaN`-free list with `eps ≥ 0`, `RDP` pushes exactly the points of
its index skeleton. -/
theorem RDPF_eq_idx (P : List RPoint) (matEps eps : ℚ) (heps : 0 ≤ eps)
    (hnP : ∀ m, 0 ≤ m → m < (P.length : ℤ) → pIsNaN (ptAt P m) = false) :
    ∀ (fuel : ℕ) (i j : ℤ), 0 ≤ i → i ≤ j → j < (P.length : ℤ) →
      RDPF P matEps eps fuel i j
        = (rdpIdx P matEps eps fuel i j).map (List.map (ptAt P)) := by
  intro fuel
  induction fuel with
  | zero => intro i j _ _ _; rfl
  | succ n ih =>
      intro i j h0 hij hjl
      by_cases h2 : j - i < 2
      · have hfs : findSplit P matEps i j = SplitRes.neg1 := by
          rw [findSplit, if_pos h2]
        simp only [RDPF, rdpIdx, hfs]
        rw [if_neg (by intro hc; linarith), if_neg (by intro hc; linarith)]
        rfl
      · obtain ⟨D, F, e1, e2, e3, e4⟩ := findSplit_char P matEps i j (by omega)
          (fun m hm1 hm2 => hnP m (by omega) (by omega))
        rcases e4 with ⟨rfl, rfl⟩ | ⟨hF1, hF2, hF3, hF4, hF5⟩
        · have hcond : ¬(eps < 0 ∨ eps * eps < 0) := by
            rintro (hc | hc)
            · linarith
            · exact absurd hc (not_lt.mpr (mul_self_nonneg eps))
          simp only [RDPF, rdpIdx, e1]
          rw [if_neg hcond, if_neg hcond]
          rfl
        · by_cases hsplit : eps * eps < D
          · simp only [RDPF, rdpIdx, e1]
            rw [if_pos (Or.inr hsplit), if_pos (Or.inr hsplit)]
            rw [ih i F h0 (by omega) (by omega), ih F j (by omega) (by omega) hjl]
            rcases hK1 : rdpIdx P matEps eps n i F with _ | K1
            · rfl
            rcases hK2 : rdpIdx P matEps eps n F j with _ | K2
            · rfl
            simp
          · have hcond : ¬(eps < 0 ∨ eps * eps < D) := by
              rintro (hc | hc)
              · linarith
              · exact hsplit hc
            simp only [RDPF, rdpIdx, e1]
            rw [if_neg hcond, if_neg hcond]
            rfl

theorem getD_mem {α : Type} (l : List α) (d : α) (i : ℕ) (h : i < l.length) :
    l.getD i d ∈ l := by
  rw [List.getD_eq_getElem l d h]
  exact List.getElem_mem h

theorem chain_getD_lt {K : List ℤ} (hc : K.Chain' (· < ·)) {u v : ℕ}
    (hu : u < v) (hv : v < K.length) : K.getD u 0 < K.getD v 0 := by
  have hp := List.chain'_iff_pairwise.mp hc
  rw [List.getD_eq_getElem K 0 (by omega), List.getD_eq_getElem K 0 hv]
  exact List.pairwise_iff_getElem.mp hp u v (by omega) hv hu

/-- Accepting leaf of the second run: a span of length 1 pushes its right
endpoint (for `eps ≥ 0`). -/
theorem rdp_sim_leaf (Q : List RPoint) (matEps eps : ℚ) (heps : 0 ≤ eps)
    (n : ℕ) (pa : ℤ) (p : RPoint) (hQ : ptAt Q (pa + 1) = p) :
    RDPF Q matEps eps (n + 1) pa (pa + 1) = some [p] := by
  have hfsQ : findSplit Q matEps pa (pa + 1) = SplitRes.neg1 := by
    rw [findSplit, if_pos (by omega)]
  simp only [RDPF, hfsQ]
  rw [if_neg (by intro hc; linarith), hQ]

/-- The simulation: if the first run on `P` over the span `[i, j]` produced
the index skeleton `K`, and `Q` holds the points `P[i], P[K₀], P[K₁], …`
starting at position `pa`, then the second run on `Q` over the corresponding
span pushes exactly the same points.  The split point transfers because the
first run's split index is the *first* interior maximum, every kept index
left of it had a strictly smaller distance, and the distances agree since
chord and points agree. -/
theorem rdp_sim (P : List RPoint) (matEps eps : ℚ) (heps : 0 ≤ eps)
    (hnP : ∀ m, 0 ≤ m → m < (P.length : ℤ) → pIsNaN (ptAt P m) = false)
    (Q : List RPoint) :
    ∀ (fuel : ℕ) (i j : ℤ) (K : List ℤ) (pa : ℤ),
      0 ≤ i → i ≤ j → j < (P.length : ℤ) → 0 ≤ pa →
      rdpIdx P matEps eps fuel i j = some K →
      (∀ t : ℕ, t ≤ K.length → ptAt Q (pa + (t : ℤ)) = ptAt P ((i :: K).getD t 0)) →
      RDPF Q matEps eps fuel pa (pa + (K.length : ℤ)) = some (K.map (ptAt P)) := by
  intro fuel
  induction fuel with
  | zero => intro i j K pa _ _ _ _ hK _; cases hK
  | succ n ih =>
      intro i j K pa h0 hij hjl hpa hK HQ
      by_cases h2 : j - i < 2
      · have hfs : findSplit P matEps i j = SplitRes.neg1 := by
          rw [findSplit, if_pos h2]
        simp only [rdpIdx, hfs] at hK
        rw [if_neg (by intro hc; linarith)] at hK
        obtain rfl : ([j] : List ℤ) = K := by simpa using hK
        have h1 := HQ 1 (by simp)
        simp only [Nat.cast_one, List.getD_cons_succ, List.getD_cons_zero] at h1
        rw [show ((([j] : List ℤ).length : ℤ)) = 1 from by norm_num]
        rw [rdp_sim_leaf Q matEps eps heps n pa (ptAt P j) h1]
        simp
      · obtain ⟨D, F, e1, e2, e3, e4⟩ := findSplit_char P matEps i j (by omega)
          (fun m hm1 hm2 => hnP m (by omega) (by omega))
        rcases e4 with ⟨rfl, rfl⟩ | ⟨hF1, hF2, hF3, hF4, hF5⟩
        · have hcond : ¬(eps < 0 ∨ eps * eps < 0) := by
            rintro (hc | hc)
            · linarith
            · exact absurd hc (not_lt.mpr (mul_self_nonneg eps))
          simp only [rdpIdx, e1] at hK
          rw [if_neg hcond] at hK
          obtain rfl : ([j] : List ℤ) = K := by simpa using hK
          have h1 := HQ 1 (by simp)
          simp only [Nat.cast_one, List.getD_cons_succ, List.getD_cons_zero] at h1
          rw [show ((([j] : List ℤ).length : ℤ)) = 1 from by norm_num]
          rw [rdp_sim_leaf Q matEps eps heps n pa (ptAt P j) h1]
          simp
        · by_cases hsplit : eps * eps < D
          · -- the split case
            simp only [rdpIdx, e1] at hK
            rw [if_pos (Or.inr hsplit)] at hK
            rcases hK1 : rdpIdx P matEps eps n i F with _ | K1
            · rw [hK1] at hK; cases hK
            rcases hK2 : rdpIdx P matEps eps n F j with _ | K2
            · rw [hK1, hK2] at hK; cases hK
            rw [hK1, hK2] at hK
            obtain rfl : K1 ++ K2 = K := by simpa using hK
            obtain ⟨p1, p2, p3, p4, p5⟩ := rdpIdx_props P matEps eps heps hnP n i F K1
              h0 (by omega) (by omega) hK1
            obtain ⟨q1, q2, q3, q4, q5⟩ := rdpIdx_props P matEps eps heps hnP n F j K2
              (by omega) (by omega) hjl hK2
            have hs1 : 1 ≤ K1.length := List.length_pos.mpr p1
            have hs2 : 1 ≤ K2.length := List.length_pos.mpr q1
            have hlast1 : K1.getD (K1.length - 1) 0 = F := by
              rw [getD_last_of_ne_nil K1 0 p1, p2]
            have hchain : (K1 ++ K2).Chain' (· < ·) := by
              refine List.Chain'.append p5 q5 ?_
              intro x hx y hy
              have hyF : F < y := q4 hF2 y (List.mem_of_mem_head? hy)
              have hxF : x = F := by
                cases hgl : K1.getLast? with
                | none => exact absurd (List.getLast?_eq_none_iff.mp hgl) p1
                | some z =>
                    rw [hgl] at hx
                    have hz : z = x := by simpa using hx
                    have hgd : K1.getLastD 0 = z := by
                      rw [List.getLastD_eq_getLast? 0 K1, hgl]
                      rfl
                    omega
              omega
            have hlastK : (K1 ++ K2).getD ((K1 ++ K2).length - 1) 0 = j := by
              rw [getD_last_of_ne_nil _ 0 (by simp [p1]),
                getLastD_append_of_ne_nil K2 q1 K1 0, q2]
            have hentry : ∀ t : ℕ, 1 ≤ t → t ≤ (K1 ++ K2).length →
                ptAt Q (pa + (t : ℤ)) = ptAt P ((K1 ++ K2).getD (t - 1) 0) := by
              intro t ht1 ht2
              have := HQ t ht2
              rwa [show (i :: (K1 ++ K2)).getD t 0 = (K1 ++ K2).getD (t - 1) 0 from by
                rw [show t = (t - 1) + 1 from by omega, List.getD_cons_succ]
                norm_num] at this
            have hQ0' : ptAt Q pa = ptAt P i := by
              have := HQ 0 (by simp)
              rw [show (pa + ((0 : ℕ) : ℤ)) = pa from by push_cast; ring] at this
              simpa using this
            have hQs : ptAt Q (pa + ((K1 ++ K2).length : ℤ)) = ptAt P j := by
              have := hentry (K1 ++ K2).length (by simp; omega) le_rfl
              rwa [hlastK] at this
            have hQF : ptAt Q (pa + (K1.length : ℤ)) = ptAt P F := by
              have := hentry K1.length hs1 (by simp)
              rwa [getD_append_left K1 K2 0 (K1.length - 1) (by omega), hlast1] at this
            have hKmem : ∀ t : ℕ, 1 ≤ t → t ≤ (K1 ++ K2).length →
                i < (K1 ++ K2).getD (t - 1) 0 ∧ (K1 ++ K2).getD (t - 1) 0 ≤ j := by
              intro t ht1 ht2
              have hmem : (K1 ++ K2).getD (t - 1) 0 ∈ K1 ++ K2 :=
                getD_mem _ 0 (t - 1) (by omega)
              rcases List.mem_append.mp hmem with hm | hm
              · exact ⟨p4 hF1 _ hm, by have := p3 _ hm; omega⟩
              · exact ⟨by have := q4 hF2 _ hm; omega, (q3 _ hm).2⟩
            have hnQ : ∀ m, pa ≤ m → m ≤ pa + ((K1 ++ K2).length : ℤ) →
                pIsNaN (ptAt Q m) = false := by
              intro m hm1 hm2
              have hmt : m = pa + (((m - pa).toNat : ℕ) : ℤ) := by omega
              rcases Nat.eq_zero_or_pos (m - pa).toNat with hz | hpos
              · rw [hmt, hz, show (((0 : ℕ) : ℤ)) = 0 from rfl, add_zero, hQ0']
                exact hnP i h0 (by omega)
              · rw [hmt, hentry (m - pa).toNat hpos (by omega)]
                have := hKmem (m - pa).toNat hpos (by omega)
                exact hnP _ (by omega) (by omega)
            have hfsQ : findSplit Q matEps pa (pa + ((K1 ++ K2).length : ℤ))
                = SplitRes.dist D (pa + (K1.length : ℤ)) := by
              apply findSplit_determined Q matEps pa
                (pa + ((K1 ++ K2).length : ℤ)) (pa + (K1.length : ℤ)) D
                (by simp; omega) hnQ (by omega) (by simp; omega)
              · rw [hQ0', hQs, hQF]
                exact hF3
              · exact lt_of_le_of_lt (mul_self_nonneg eps) hsplit
              · intro m hm1 hm2
                have hmt : m = pa + (((m - pa).toNat : ℕ) : ℤ) := by omega
                have hpos : 1 ≤ (m - pa).toNat := by omega
                rw [hQ0', hQs, hmt, hentry (m - pa).toNat hpos (by simp; omega)]
                rw [getD_append_left K1 K2 0 _ (by omega)]
                have hcg := chain_getD_lt p5 (show (m - pa).toNat - 1 < K1.length - 1 by
                  omega) (by omega)
                rw [hlast1] at hcg
                have hmemK1 : K1.getD ((m - pa).toNat - 1) 0 ∈ K1 :=
                  getD_mem _ 0 _ (by omega)
                exact hF5 _ (p4 hF1 _ hmemK1) hcg
              · intro m hm1 hm2
                have hmt : m = pa + (((m - pa).toNat : ℕ) : ℤ) := by omega
                have hpos : 1 ≤ (m - pa).toNat := by omega
                have hub : (m - pa).toNat ≤ (K1 ++ K2).length := by
                  simp only [List.length_append] at hm2 ⊢
                  omega
                rw [hQ0', hQs, hmt, hentry (m - pa).toNat hpos hub]
                have hub2 : (m - pa).toNat - 1 < (K1 ++ K2).length - 1 := by
                  simp only [List.length_append] at hm2 ⊢
                  omega
                have hcg := chain_getD_lt hchain hub2 (by
                  simp only [List.length_append]
                  omega)
                rw [hlastK] at hcg
                have := hKmem (m - pa).toNat hpos hub
                exact e3 _ this.1 hcg
            -- unfold the second run and recurse
            have hidx : pa + (((K1 ++ K2).length : ℕ) : ℤ)
                = pa + (K1.length : ℤ) + (K2.length : ℤ) := by
              push_cast [List.length_append]
              ring
            have HQ1 : ∀ t : ℕ, t ≤ K1.length →
                ptAt Q (pa + (t : ℤ)) = ptAt P ((i :: K1).getD t 0) := by
              intro t ht
              rcases Nat.eq_zero_or_pos t with rfl | hpos
              · have := HQ 0 (by simp)
                simpa using this
              · have := hentry t hpos (by simp; omega)
                rw [getD_append_left K1 K2 0 (t - 1) (by omega)] at this
                rwa [show (i :: K1).getD t 0 = K1.getD (t - 1) 0 from by
                  rw [show t = (t - 1) + 1 from by omega, List.getD_cons_succ]
                  norm_num]
            have HQ2 : ∀ t : ℕ, t ≤ K2.length →
                ptAt Q (pa + (K1.length : ℤ) + (t : ℤ))
                  = ptAt P ((F :: K2).getD t 0) := by
              intro t ht
              rcases Nat.eq_zero_or_pos t with rfl | hpos
              · rw [show (pa + (K1.length : ℤ) + ((0 : ℕ) : ℤ))
                    = pa + (K1.length : ℤ) from by push_cast; ring]
                exact hQF
              · have := hentry (K1.length + t) (by omega) (by simp; omega)
                rw [show (pa + ((K1.length + t : ℕ) : ℤ))
                    = pa + (K1.length : ℤ) + (t : ℤ) from by push_cast; ring] at this
                rw [getD_append_right_at K1 K2 0 (K1.length + t - 1) (by omega)] at this
                rw [show K1.length + t - 1 - K1.length = t - 1 from by omega] at this
                rwa [show (F :: K2).getD t 0 = K2.getD (t - 1) 0 from by
                  rw [show t = (t - 1) + 1 from by omega, List.getD_cons_succ]
                  norm_num]
            have IH1 := ih i F K1 pa h0 (by omega) (by omega) hpa hK1 HQ1
            have IH2 := ih F j K2 (pa + (K1.length : ℤ)) (by omega) (by omega) hjl
              (by omega) hK2 HQ2
            rw [hidx] at hfsQ ⊢
            simp only [RDPF, hfsQ]
            rw [if_pos (Or.inr hsplit), IH1, IH2]
            simp
          · -- the accept case: the span collapses to its right endpoint
            have hcond : ¬(eps < 0 ∨ eps * eps < D) := by
              rintro (hc | hc)
              · linarith
              · exact hsplit hc
            simp only [rdpIdx, e1] at hK
            rw [if_neg hcond] at hK
            obtain rfl : ([j] : List ℤ) = K := by simpa using hK
            have h1 := HQ 1 (by simp)
            simp only [Nat.cast_one, List.getD_cons_succ, List.getD_cons_zero] at h1
            rw [show ((([j] : List ℤ).length : ℤ)) = 1 from by norm_num]
            rw [rdp_sim_leaf Q matEps eps heps n pa (ptAt P j) h1]
            simp

theorem findIdx_zero_of_head (P : List RPoint) (hP : P ≠ [])
    (h : pIsNaN (ptAt P 0) = false) :
    List.findIdx (fun p => !(pIsNaN p)) P = 0 := by
  rcases P with _ | ⟨p0, rest⟩
  · exact absurd rfl hP
  · have hp0 : pIsNaN p0 = false := by simpa [ptAt] using h
    rw [List.findIdx_cons]
    simp [hp0]

/-- C9 (amended): on `NaN`-free input and for `eps ≥ 0` the recursion
terminates (any fuel of at least the list length suffices) and
`RamerDouglasPeucker` is idempotent: running it on its own output returns
that output unchanged. -/
theorem RamerDouglasPeucker_idempotent (P : List RPoint) (matEps eps : ℚ)
    (fuel : ℕ) (heps : 0 ≤ eps) (hn : ∀ p ∈ P, pIsNaN p = false)
    (hfuel : P.length ≤ fuel) :
    ∃ Q, RamerDouglasPeucker P matEps eps fuel = some Q
      ∧ RamerDouglasPeucker Q matEps eps fuel = some Q := by
  have hnP : ∀ m, 0 ≤ m → m < (P.length : ℤ) → pIsNaN (ptAt P m) = false :=
    fun m h1 h2 => hn _ (ptAt_mem P m h1 h2)
  by_cases hP : P = []
  · subst hP
    have hrun : RamerDouglasPeucker ([] : List RPoint) matEps eps fuel = some [] := by
      simp only [RamerDouglasPeucker, List.findIdx_nil]
      norm_num
    exact ⟨[], hrun, hrun⟩
  · have hlen : 1 ≤ P.length := List.length_pos.mpr hP
    have hfind : List.findIdx (fun p => !(pIsNaN p)) P = 0 :=
      findIdx_zero_of_head P hP (hnP 0 le_rfl (by omega))
    have hnl : pIsNaN (ptAt P ((P.length : ℤ) - 1)) = false :=
      hnP _ (by omega) (by omega)
    have hlast : lastScan P 0 ((P.length : ℤ) - 1) = (P.length : ℤ) - 1 := by
      rw [lastScan, if_neg (by rintro ⟨h1', h2'⟩; rw [hnl] at h2'; cases h2')]
    obtain ⟨K, hK⟩ := rdpIdx_some P matEps eps heps hnP fuel 0 ((P.length : ℤ) - 1)
      le_rfl (by omega) (by omega) (by omega)
    obtain ⟨k1, k2, k3, k4, k5⟩ := rdpIdx_props P matEps eps heps hnP fuel 0 _ K
      le_rfl (by omega) (by omega) hK
    have hKlen : 1 ≤ K.length := List.length_pos.mpr k1
    have hRDPF : RDPF P matEps eps fuel 0 ((P.length : ℤ) - 1)
        = some (K.map (ptAt P)) := by
      rw [RDPF_eq_idx P matEps eps heps hnP fuel 0 _ le_rfl (by omega) (by omega), hK]
      rfl
    refine ⟨ptAt P 0 :: K.map (ptAt P), ?_, ?_⟩
    · -- the first run
      simp only [RamerDouglasPeucker, hfind, Nat.cast_zero]
      rw [hlast, if_neg (by push_cast; omega), hRDPF]
      rfl
    · -- the second run
      have hQmap : ptAt P 0 :: K.map (ptAt P) = List.map (ptAt P) ((0 : ℤ) :: K) := by
        simp
      have hQlen : ((ptAt P 0 :: K.map (ptAt P)).length : ℤ) = (K.length : ℤ) + 1 := by
        simp
      have HQ : ∀ t : ℕ, t ≤ K.length →
          ptAt (ptAt P 0 :: K.map (ptAt P)) ((0 : ℤ) + (t : ℤ))
            = ptAt P (((0 : ℤ) :: K).getD t 0) := by
        intro t ht
        rw [hQmap, show ((0 : ℤ) + (t : ℤ)) = (t : ℤ) from by ring,
          ptAt_map P ((0 : ℤ) :: K) t (by omega) (by simp; omega),
          show ((t : ℤ)).toNat = t from by omega]
      have hQ0 : ptAt (ptAt P 0 :: K.map (ptAt P)) 0 = ptAt P 0 := by
        have := HQ 0 (by omega)
        simpa using this
      have hQtop : ptAt (ptAt P 0 :: K.map (ptAt P)) ((0 : ℤ) + (K.length : ℤ))
          = ptAt P ((P.length : ℤ) - 1) := by
        have := HQ K.length le_rfl
        rwa [show ((0 : ℤ) :: K).getD K.length 0 = K.getD (K.length - 1) 0 from by
            rw [show K.length = (K.length - 1) + 1 from by omega, List.getD_cons_succ]
            norm_num,
          getD_last_of_ne_nil K 0 k1, k2] at this
      have hfindQ : List.findIdx (fun p => !(pIsNaN p)) (ptAt P 0 :: K.map (ptAt P)) = 0 :=
        findIdx_zero_of_head _ (by simp) (by rw [hQ0]; exact hnP 0 le_rfl (by omega))
      have hlastQ : lastScan (ptAt P 0 :: K.map (ptAt P)) 0
          (((ptAt P 0 :: K.map (ptAt P)).length : ℤ) - 1)
          = ((ptAt P 0 :: K.map (ptAt P)).length : ℤ) - 1 := by
        have hidx : ((ptAt P 0 :: K.map (ptAt P)).length : ℤ) - 1
            = (0 : ℤ) + (K.length : ℤ) := by
          rw [hQlen]
          ring
        have hnlQ : pIsNaN (ptAt (ptAt P 0 :: K.map (ptAt P))
            (((ptAt P 0 :: K.map (ptAt P)).length : ℤ) - 1)) = false := by
          rw [hidx, hQtop]
          exact hnl
        rw [lastScan, if_neg (by rintro ⟨h1', h2'⟩; rw [hnlQ] at h2'; cases h2')]
      have hsim := rdp_sim P matEps eps heps hnP (ptAt P 0 :: K.map (ptAt P)) fuel
        0 ((P.length : ℤ) - 1) K 0 le_rfl (by omega) (by omega) le_rfl hK HQ
      simp only [RamerDouglasPeucker, hfindQ, Nat.cast_zero]
      rw [hlastQ, if_neg (by rw [hQlen]; push_cast; omega)]
      rw [show (((ptAt P 0 :: K.map (ptAt P)).length : ℤ) - 1)
          = (0 : ℤ) + (K.length : ℤ) from by rw [hQlen]; ring]
      rw [hsim]
      simp [hQ0]

theorem RamerDouglasPeucker_idempotent_witness :
    ((0 : ℚ) ≤ 1 ∧ (∀ p ∈ [pq 0 0, pq 1 1, pq 2 0], pIsNaN p = false)
      ∧ ([pq 0 0, pq 1 1, pq 2 0] : List RPoint).length ≤ 3)
    ∧ ∃ Q, RamerDouglasPeucker [pq 0 0, pq 1 1, pq 2 0] (1 / 1000000) 1 3 = some Q
        ∧ RamerDouglasPeucker Q (1 / 1000000) 1 3 = some Q :=
  ⟨⟨by norm_num, by decide, by decide⟩,
    RamerDouglasPeucker_idempotent [pq 0 0, pq 1 1, pq 2 0] (1 / 1000000) 1 3
      (by norm_num) (by decide) (by decide)⟩
